import Mathlib

/-!
# Verification of the FamilyTree application's relationship and GEDCOM logic

This file gives a shallow embedding of the core data model and algorithms of
the FamilyTree application (`App.tsx`, `utils/relationshipUtils.ts`,
`components/ReportsView.tsx`) and proves properties about them.

Modelling conventions:
* TypeScript `string` becomes `String`; person identifiers are `String`s.
* Optional (possibly-`undefined`) TS fields become `Option` fields.
  A JS truthiness test `if (x)` on an optional string is modelled by
  `jsTruthyStr` (both `undefined` and `""` are falsy).
* JS `Number` arithmetic on small integers is modelled by `Int`
  (`%` is the truncated remainder `Int.tmod`, as in JS).
* In-place mutation of the person array is modelled by pure list updates:
  mutating the first element found by `findIndex`/`find` becomes
  `updateFirst`.
* `uuidv4()` is modelled by caller-supplied / counter-synthesized fresh
  identifiers.
-/

namespace FamilyTree

/-- JS truncated remainder (`a % b` in JavaScript for integral values). -/
def jsRem (a b : Int) : Int := Int.tmod a b

/-- JS array indexing `l[i]` with a possibly negative index: out-of-range
gives `undefined` (`none`). -/
def jsIndex (l : List String) (i : Int) : Option String :=
  if i < 0 then none else l.get? i.toNat

/-- JS `a || b` on optional strings: `undefined` and `""` are falsy. -/
def jsOr (a b : Option String) : Option String :=
  match a with
  | some s => if s = "" then b else some s
  | none => b

/-- JS truthiness of an optional string (`undefined` and `""` are falsy). -/
def jsTruthyStr (a : Option String) : Bool :=
  match a with
  | some s => s ≠ ""
  | none => false

/-- JS `String.prototype.repeat`, clamped at zero (the sources only call it
with a nonnegative count). -/
def jsRepeat (s : String) (n : Int) : String :=
  String.join (List.replicate n.toNat s)

/-- `Gender` enum from `types.ts`. -/
inductive Gender where
  | male
  | female
  | other
deriving DecidableEq, Repr

/-- `MarriageStatus` enum from `types.ts`. -/
inductive MarriageStatus where
  | married
  | divorced
  | widowed
  | unknown
deriving DecidableEq, Repr

/-- `Marriage` record from `types.ts`. -/
structure Marriage where
  spouseId : String
  date : Option String := none
  place : Option String := none
  status : MarriageStatus := .married
deriving DecidableEq, Repr

/-- `Person` record from `types.ts`.  Fields that are irrelevant to every
claim (photos, biography, education, religion, residence, mobile number,
email, cause of death) are omitted; all relationship-bearing and
GEDCOM-relevant fields are present.  `firstName` and `gender` are declared
required in TS but can be `undefined` at runtime for GEDCOM-imported
records, hence `Option`. -/
structure Person where
  id : String
  firstName : Option String := none
  lastName : Option String := none
  familyCast : Option String := none
  gender : Option Gender := none
  birthDate : Option String := none
  birthPlace : Option String := none
  deathDate : Option String := none
  deathPlace : Option String := none
  occupation : Option String := none
  notes : Option String := none
  parentIds : Option (List String) := none
  marriages : Option (List Marriage) := none
  childrenIds : Option (List String) := none
  isAdopted : Bool := false
deriving DecidableEq, Repr

/-- `getFullName` from `utils/personUtils.ts`:
`[firstName, lastName, familyCast].filter(Boolean).join(' ')`. -/
def getFullName (p : Person) : String :=
  let parts := [p.firstName, p.lastName, p.familyCast].foldr
    (fun o acc => match o with
      | some s => if s = "" then acc else s :: acc
      | none => acc) []
  String.intercalate " " parts

/-- `getPersonById` from `utils/relationshipUtils.ts`:
`allPeople.find(p => p.id === id)`. -/
def getPersonById (id : String) (allPeople : List Person) : Option Person :=
  allPeople.find? (fun p => p.id = id)

/-- `ordinal` from `utils/relationshipUtils.ts`.  The argument is a JS
number; on the branch `n > 0` the JS `%` operations are modelled by
`jsRem`, array indexing by `jsIndex` and `||`-chaining by `jsOr`.  The
final `.getD ""` is unreachable because `s[0]` is always defined. -/
def ordinal (n : Int) : String :=
  if n ≤ 0 then toString n
  else
    let s := ["th", "st", "nd", "rd"]
    let v := jsRem n 100
    toString n ++ (jsOr (jsIndex s (jsRem (v - 20) 10)) (jsOr (jsIndex s v) (jsIndex s 0))).getD ""

/-- `describeBloodRelationship` from `utils/relationshipUtils.ts`. -/
def describeBloodRelationship (person1 person2 lca : Person)
    (path1 path2 : List Person) : String :=
  let d1 : Int := (path1.length : Int) - 1
  let d2 : Int := (path2.length : Int) - 1
  if lca.id = person1.id then
    let d := d2
    if d = 0 then "They are the same person."
    else if d = 1 then
      let w := if person1.gender = some Gender.male then "father" else "mother"
      s!"{getFullName person1} is the {w} of {getFullName person2}."
    else if d = 2 then
      let w := if person1.gender = some Gender.male then "grandfather" else "grandmother"
      s!"{getFullName person1} is the {w} of {getFullName person2}."
    else
      let prefx := jsRepeat "great-" (d - 2)
      let w := if person1.gender = some Gender.male then "grandfather" else "grandmother"
      s!"{getFullName person1} is the {prefx}{w} of {getFullName person2}."
  else if lca.id = person2.id then
    let d := d1
    if d = 0 then "They are the same person."
    else if d = 1 then
      let w := if person2.gender = some Gender.male then "father" else "mother"
      s!"{getFullName person2} is the {w} of {getFullName person1}."
    else if d = 2 then
      let w := if person2.gender = some Gender.male then "grandfather" else "grandmother"
      s!"{getFullName person2} is the {w} of {getFullName person1}."
    else
      let prefx := jsRepeat "great-" (d - 2)
      let w := if person2.gender = some Gender.male then "grandfather" else "grandmother"
      s!"{getFullName person2} is the {prefx}{w} of {getFullName person1}."
  else if d1 = 1 ∧ d2 = 1 then
    s!"{getFullName person1} and {getFullName person2} are siblings."
  else
    let cousinLevel : Int := min d1 d2 - 1
    let removalLevel : Int := |d1 - d2|
    if cousinLevel = 0 then
      let ancestor := if d1 < d2 then person1 else person2
      let descendant := if d1 < d2 then person2 else person1
      let prefx := if removalLevel > 1 then "grand" else ""
      let relation :=
        if ancestor.gender = some Gender.male then "uncle"
        else if ancestor.gender = some Gender.female then "aunt"
        else "aunt/uncle"
      s!"{getFullName ancestor} is the {prefx}{relation} of {getFullName descendant}."
    else
      let cousinTerm := if cousinLevel = 1 then "first" else ordinal cousinLevel
      let removalTerm :=
        if removalLevel > 0 then
          ", " ++ (if removalLevel = 1 then "once"
                   else if removalLevel = 2 then "twice"
                   else s!"{removalLevel} times") ++ " removed"
        else ""
      s!"{getFullName person1} and {getFullName person2} are {cousinTerm} cousins{removalTerm}."

/-- Modelled from the spec: the blood-relationship description formula as
stated by the specification for the non-direct, non-sibling case —
`cousinLevel = min(d1,d2) - 1`, `removalLevel = |d1-d2|`; if
`cousinLevel = 0` an aunt/uncle sentence with a gendered term for the
closer-to-ancestor party, "grand"-prefixed when `removalLevel > 1`;
otherwise `{ordinal(cousinLevel)} cousins`, with `cousinLevel = 1`
rendered as "first", suffixed ", once removed" / ", twice removed" /
", N times removed" when `removalLevel > 0`. -/
def specBloodDescription (person1 person2 : Person) (d1 d2 : Int) : String :=
  let cousinLevel : Int := min d1 d2 - 1
  let removalLevel : Int := |d1 - d2|
  if cousinLevel = 0 then
    let closer := if d1 < d2 then person1 else person2
    let farther := if d1 < d2 then person2 else person1
    let prefx := if removalLevel > 1 then "grand" else ""
    let relation :=
      if closer.gender = some Gender.male then "uncle"
      else if closer.gender = some Gender.female then "aunt"
      else "aunt/uncle"
    s!"{getFullName closer} is the {prefx}{relation} of {getFullName farther}."
  else
    let cousinTerm := if cousinLevel = 1 then "first" else ordinal cousinLevel
    let removalTerm :=
      if removalLevel > 0 then
        ", " ++ (if removalLevel = 1 then "once"
                 else if removalLevel = 2 then "twice"
                 else s!"{removalLevel} times") ++ " removed"
      else ""
    s!"{getFullName person1} and {getFullName person2} are {cousinTerm} cousins{removalTerm}."

/-! ## Mutation operations from `App.tsx`

The TS code mutates person objects in place inside a shallow-copied array.
We model this by pure list updates: mutating the element at
`findIndex(p => p.id === x)` becomes `updateFirst x f`; a value read from an
aliased object after earlier mutations is modelled by re-reading the person
from the current list (`find?` + `getD`). -/

/-- Apply `f` to the first person in the list whose id is `targetId`
(no-op when there is none), like `findIndex` + in-place mutation. -/
def updateFirst (targetId : String) (f : Person → Person) : List Person → List Person
  | [] => []
  | p :: ps => if p.id = targetId then f p :: ps else p :: updateFirst targetId f ps

/-- The per-person half of `addSpouseRelationship`:
`if (!p.marriages?.some(m => m.spouseId === spouseId)) p.marriages = [...(p.marriages || []), { spouseId, status: Married }]`. -/
def addMarriageIfAbsent (spouseId : String) (p : Person) : Person :=
  if (p.marriages.getD []).any (fun m => m.spouseId = spouseId) then p
  else { p with marriages := some ((p.marriages.getD []) ++ [{ spouseId := spouseId, status := .married }]) }

/-- `addSpouseRelationship` from `App.tsx`: no-op unless both ids resolve;
otherwise each spouse gains a `Married` entry for the other if absent
(p1 first, then p2, which matters when `p1Id = p2Id`). -/
def addSpouseRelationship (p1Id p2Id : String) (currentPeople : List Person) : List Person :=
  if (currentPeople.find? (fun p => p.id = p1Id)).isNone
      ∨ (currentPeople.find? (fun p => p.id = p2Id)).isNone then currentPeople
  else updateFirst p2Id (addMarriageIfAbsent p1Id)
        (updateFirst p1Id (addMarriageIfAbsent p2Id) currentPeople)

/-- The per-person half of `addChildToParent`. -/
def addChildIfAbsent (childId : String) (parent : Person) : Person :=
  if childId ∈ parent.childrenIds.getD [] then parent
  else { parent with childrenIds := some ((parent.childrenIds.getD []) ++ [childId]) }

/-- `addChildToParent` from `App.tsx`. -/
def addChildToParent (childId parentId : String) (currentPeople : List Person) : List Person :=
  updateFirst parentId (addChildIfAbsent childId) currentPeople

/-- Drop `childId` from a person's `childrenIds`
(`parent.childrenIds = parent.childrenIds?.filter(id => id !== childId)`). -/
def removeChildRef (childId : String) (p : Person) : Person :=
  { p with childrenIds := p.childrenIds.map (fun l => l.filter (fun id => id ≠ childId)) }

/-- Drop `personId` from a person's `parentIds`
(`child.parentIds = child.parentIds?.filter(id => id !== personId)`). -/
def removeParentRef (personId : String) (c : Person) : Person :=
  { c with parentIds := c.parentIds.map (fun l => l.filter (fun id => id ≠ personId)) }

/-- `removeChildFromParent` from `App.tsx`. -/
def removeChildFromParent (childId parentId : String) (currentPeople : List Person) : List Person :=
  updateFirst parentId (removeChildRef childId) currentPeople

/-- `Omit<Person, 'id' | 'childrenIds' | 'marriages'>` — the payload of
`addPerson`. -/
structure PersonData where
  firstName : Option String := none
  lastName : Option String := none
  familyCast : Option String := none
  gender : Option Gender := none
  birthDate : Option String := none
  birthPlace : Option String := none
  deathDate : Option String := none
  deathPlace : Option String := none
  occupation : Option String := none
  notes : Option String := none
  parentIds : Option (List String) := none
  isAdopted : Bool := false
deriving DecidableEq, Repr

/-- `{ ...personData, id: uuidv4(), childrenIds: [], marriages: [] }`. -/
def PersonData.toPerson (pd : PersonData) (newId : String) : Person :=
  { id := newId
    firstName := pd.firstName, lastName := pd.lastName, familyCast := pd.familyCast
    gender := pd.gender
    birthDate := pd.birthDate, birthPlace := pd.birthPlace
    deathDate := pd.deathDate, deathPlace := pd.deathPlace
    occupation := pd.occupation, notes := pd.notes
    parentIds := pd.parentIds
    marriages := some []
    childrenIds := some []
    isAdopted := pd.isAdopted }

/-- `addPerson` from `App.tsx`; the fresh `uuidv4()` is supplied as `newId`.
Spousal/child mirroring runs only when exactly two parent ids were given. -/
def addPerson (newId : String) (personData : PersonData) (people : List Person) : List Person :=
  let newPerson := personData.toPerson newId
  let newPeople := people ++ [newPerson]
  match newPerson.parentIds with
  | some [p1Id, p2Id] =>
      addChildToParent newId p2Id (addChildToParent newId p1Id
        (addSpouseRelationship p1Id p2Id newPeople))
  | _ => newPeople

/-- `Partial<Person>` — the payload of `updatePerson`.  Each field is an
`Option (Option τ)`: `none` models an absent key, `some none` a key that is
present but explicitly `undefined`, `some (some v)` a key with value `v`. -/
structure PersonUpdate where
  id : Option (Option String) := none
  firstName : Option (Option String) := none
  lastName : Option (Option String) := none
  familyCast : Option (Option String) := none
  gender : Option (Option Gender) := none
  birthDate : Option (Option String) := none
  birthPlace : Option (Option String) := none
  deathDate : Option (Option String) := none
  deathPlace : Option (Option String) := none
  occupation : Option (Option String) := none
  notes : Option (Option String) := none
  parentIds : Option (Option (List String)) := none
  marriages : Option (Option (List Marriage)) := none
  childrenIds : Option (Option (List String)) := none
  isAdopted : Option (Option Bool) := none
deriving DecidableEq, Repr

/-- A payload key as the truthiness guards (`if (updatedData.f)`) see it:
`some v` when the key is present with a defined value (a present array is
always truthy), `none` when the key is absent or explicitly `undefined`. -/
def updKey {α : Type} : Option (Option α) → Option α
  | some (some v) => some v
  | _ => none

/-- The JS object spread for one key: a present key overrides — also when
its value is `undefined` — and an absent key keeps the old value. -/
def updSpread {α : Type} (u : Option (Option α)) (old : Option α) : Option α :=
  match u with
  | some v => v
  | none => old

/-- A present key overrides, an absent key keeps the old value (the spread
restricted to keys that are not present-but-`undefined`). -/
def mergeField {α : Type} (u old : Option α) : Option α :=
  match u with
  | some v => some v
  | none => old

/-- The JS object spread `{ ...oldPerson, ...updatedData }`.  For the two
fields the `Person` record keeps unboxed (`id : String`, `isAdopted :
Bool`) a present-but-`undefined` key — which would store `undefined` into
them in JS — is not representable and keeps the old value; every use in
this file rules those payloads out by side condition. -/
def mergePerson (old : Person) (u : PersonUpdate) : Person :=
  { id := (updKey u.id).getD old.id
    firstName := updSpread u.firstName old.firstName
    lastName := updSpread u.lastName old.lastName
    familyCast := updSpread u.familyCast old.familyCast
    gender := updSpread u.gender old.gender
    birthDate := updSpread u.birthDate old.birthDate
    birthPlace := updSpread u.birthPlace old.birthPlace
    deathDate := updSpread u.deathDate old.deathDate
    deathPlace := updSpread u.deathPlace old.deathPlace
    occupation := updSpread u.occupation old.occupation
    notes := updSpread u.notes old.notes
    parentIds := updSpread u.parentIds old.parentIds
    marriages := updSpread u.marriages old.marriages
    childrenIds := updSpread u.childrenIds old.childrenIds
    isAdopted := (updKey u.isAdopted).getD old.isAdopted }

/-- `spouse.marriages = spouse.marriages?.filter(m => m.spouseId !== personId)`. -/
def removeMarriageTo (personId : String) (s : Person) : Person :=
  { s with marriages := s.marriages.map (fun l => l.filter (fun m => m.spouseId ≠ personId)) }

/-- Replace the first element satisfying `pred` (models `findIndex` +
indexed assignment). -/
def replaceFirst {α : Type} (pred : α → Bool) (x : α) : List α → List α
  | [] => []
  | a :: as_ => if pred a then x :: as_ else a :: replaceFirst pred x as_

/-- The body of `updatePerson`'s reciprocal-marriage loop: replace the
spouse's first marriage entry pointing back at `personId`, or append one. -/
def setReciprocalMarriage (personId : String) (m : Marriage) (s : Person) : Person :=
  let recip : Marriage := { m with spouseId := personId }
  match s.marriages with
  | some ms =>
      if ms.any (fun mm => mm.spouseId = personId) then
        { s with marriages := some (replaceFirst (fun mm => mm.spouseId = personId) recip ms) }
      else { s with marriages := some (ms ++ [recip]) }
  | none => { s with marriages := some [recip] }

/-- The spouse-relationship step of `updatePerson`'s parent block: when the
new parent list has exactly two entries they are married to each other. -/
def spouseStep (nP : List String) (psA : List Person) : List Person :=
  match nP with
  | [a, b] => addSpouseRelationship a b psA
  | _ => psA

/-- The parent block of `updatePerson` from `App.tsx`: if `parentIds` is in
the update payload and (by the `JSON.stringify` comparison, modelled as list
equality) differs from the old value, detach the person from every old
parent, marry a two-element new parent pair, and attach the person to every
new parent. -/
def pStage (personId : String) (u : PersonUpdate) (old : Person)
    (ps : List Person) : List Person :=
  match updKey u.parentIds with
  | some newParents =>
      if old.parentIds = some newParents then ps
      else
        let psA := (old.parentIds.getD []).foldl
            (fun acc parentId => removeChildFromParent personId parentId acc) ps
        newParents.foldl (fun acc parentId => addChildToParent personId parentId acc)
          (spouseStep newParents psA)
  | none => ps

/-- The marriage block of `updatePerson` from `App.tsx`: spouses dropped from
the marriage list lose their reciprocal entry, and every new marriage writes
a reciprocal entry into the spouse (replace the first existing entry pointing
back, else append). -/
def mStage (personId : String) (u : PersonUpdate) (cur1 : Person)
    (ps1 : List Person) : List Person :=
  match updKey u.marriages with
  | some newMarriages =>
      let oldMarriages := cur1.marriages.getD []
      let oldSpouseIds := oldMarriages.map (fun m => m.spouseId)
      let newSpouseIds := newMarriages.map (fun m => m.spouseId)
      let removedSpouseIds := oldSpouseIds.filter (fun id => ¬ newSpouseIds.contains id)
      let psA := removedSpouseIds.foldl
          (fun acc spouseId => updateFirst spouseId (removeMarriageTo personId) acc) ps1
      newMarriages.foldl
          (fun acc m => updateFirst m.spouseId (setReciprocalMarriage personId m) acc) psA
  | none => ps1

/-- `updatePerson` from `App.tsx`.  `cur1`/`cur2` re-read the person being
updated, modelling that the TS code reads `oldPerson.marriages` and spreads
`oldPerson` *after* the in-place mutations of the earlier blocks. -/
def updatePerson (personId : String) (updatedData : PersonUpdate) (people : List Person) : List Person :=
  match people.find? (fun p => p.id = personId) with
  | none => people
  | some oldPerson =>
    let ps1 := pStage personId updatedData oldPerson people
    let cur1 := (ps1.find? (fun p => p.id = personId)).getD oldPerson
    let ps2 := mStage personId updatedData cur1 ps1
    let cur2 := (ps2.find? (fun p => p.id = personId)).getD oldPerson
    updateFirst personId (fun _ => mergePerson cur2 updatedData) ps2

/-- `deletePerson` from `App.tsx`. -/
def deletePerson (personId : String) (people : List Person) : List Person :=
  match people.find? (fun p => p.id = personId) with
  | none => people
  | some personToDelete =>
    let ps1 := (personToDelete.parentIds.getD []).foldl
        (fun acc parentId => removeChildFromParent personId parentId acc) people
    let cur1 := (ps1.find? (fun p => p.id = personId)).getD personToDelete
    let ps2 := (cur1.childrenIds.getD []).foldl
        (fun acc childId => updateFirst childId (removeParentRef personId) acc) ps1
    let cur2 := (ps2.find? (fun p => p.id = personId)).getD personToDelete
    let ps3 := (cur2.marriages.getD []).foldl
        (fun acc m => updateFirst m.spouseId (removeMarriageTo personId) acc) ps2
    ps3.filter (fun p => p.id ≠ personId)

/-! ## The symmetry invariant (spec §"Key correctness properties") -/

/-- Parent/child symmetry: `B.id ∈ A.childrenIds ⟺ A.id ∈ B.parentIds`. -/
def childParentSym (ps : List Person) : Prop :=
  ∀ a ∈ ps, ∀ b ∈ ps,
    (b.id ∈ a.childrenIds.getD [] ↔ a.id ∈ b.parentIds.getD [])

/-- Marriage symmetry: every marriage entry of `A` pointing at `B` has a
reciprocal entry of `B` pointing back at `A` with matching
status/date/place.  Instantiating both `(a, b)` and `(b, a)` yields the
spec's `⟺`. -/
def marriageSym (ps : List Person) : Prop :=
  ∀ a ∈ ps, ∀ b ∈ ps, ∀ m ∈ a.marriages.getD [], m.spouseId = b.id →
    ∃ m' ∈ b.marriages.getD [], m'.spouseId = a.id ∧ m'.status = m.status
      ∧ m'.date = m.date ∧ m'.place = m.place

/-- The spec's symmetry invariant. -/
def symmetryInvariant (ps : List Person) : Prop := childParentSym ps ∧ marriageSym ps

/-- Person ids are pairwise distinct (guaranteed by `uuidv4` in the app). -/
def idsNodup (ps : List Person) : Prop := (ps.map (fun p => p.id)).Nodup

/-- Each person has at most one marriage entry per spouse id. -/
def marriagesNodup (ps : List Person) : Prop :=
  ∀ p ∈ ps, ((p.marriages.getD []).map (fun m => m.spouseId)).Nodup

/-- Well-formed tree state: distinct ids, deduplicated marriage lists and
the symmetry invariant. -/
def WFState (ps : List Person) : Prop :=
  idsNodup ps ∧ marriagesNodup ps ∧ symmetryInvariant ps

/-- One mutation operation of the tree-state layer. -/
inductive Op where
  | add (newId : String) (data : PersonData)
  | update (personId : String) (u : PersonUpdate)
  | del (personId : String)

/-- Run one operation. -/
def applyOp : Op → List Person → List Person
  | .add newId data, ps => addPerson newId data ps
  | .update pid u, ps => updatePerson pid u ps
  | .del pid, ps => deletePerson pid ps

/-- Run a sequence of operations. -/
def applyOps (ops : List Op) (ps : List Person) : List Person :=
  ops.foldl (fun s op => applyOp op s) ps

/-- Side conditions under which an operation is invariant-preserving:
`addPerson` gets a fresh id and 0 or 2 parent ids; `updatePerson`'s payload
does not set `id` or `childrenIds`, passes neither `parentIds` nor
`marriages` as a present-but-`undefined` key (`{parentIds: undefined}`
skips the repair block yet still clobbers the merged field), and when it
sets `marriages` their spouse ids are pairwise distinct; `deletePerson` is
unconstrained. -/
def OkOp : Op → List Person → Prop
  | .add newId data, ps =>
      (∀ p ∈ ps, p.id ≠ newId ∧ newId ∉ p.parentIds.getD [] ∧
        newId ∉ p.childrenIds.getD [] ∧
        ∀ m ∈ p.marriages.getD [], m.spouseId ≠ newId) ∧
      newId ∉ data.parentIds.getD [] ∧
      ((data.parentIds.getD []).length = 0 ∨ (data.parentIds.getD []).length = 2)
  | .update _ u, _ =>
      u.id = none ∧ u.childrenIds = none ∧
      u.parentIds ≠ some none ∧ u.marriages ≠ some none ∧
      (((updKey u.marriages).getD []).map (fun m => m.spouseId)).Nodup
  | .del _, _ => True

/-- Every operation of the sequence satisfies its side condition in the
state where it runs. -/
def OkOps : List Op → List Person → Prop
  | [], _ => True
  | op :: rest, ps => OkOp op ps ∧ OkOps rest (applyOp op ps)

instance (ps : List Person) : Decidable (childParentSym ps) := by
  unfold childParentSym; infer_instance

instance (ps : List Person) : Decidable (marriageSym ps) := by
  unfold marriageSym; infer_instance

instance (ps : List Person) : Decidable (symmetryInvariant ps) := by
  unfold symmetryInvariant; infer_instance

instance (ps : List Person) : Decidable (idsNodup ps) := by
  unfold idsNodup; infer_instance

instance (ps : List Person) : Decidable (marriagesNodup ps) := by
  unfold marriagesNodup; infer_instance

instance (ps : List Person) : Decidable (WFState ps) := by
  unfold WFState; infer_instance

instance (op : Op) (ps : List Person) : Decidable (OkOp op ps) := by
  cases op <;> (unfold OkOp; infer_instance)

instance OkOps.instDec : (ops : List Op) → (ps : List Person) → Decidable (OkOps ops ps)
  | [], _ => .isTrue trivial
  | op :: rest, ps =>
      have : Decidable (OkOps rest (applyOp op ps)) := OkOps.instDec rest _
      by unfold OkOps; infer_instance

/-- The net effect of `deletePerson pid` on a surviving person, given the
record `ptd` of the person being deleted. -/
def deleteTouch (pid : String) (ptd : Person) (q : Person) : Person :=
  let q1 := if q.id ∈ ptd.parentIds.getD [] then removeChildRef pid q else q
  let q2 := if q.id ∈ ptd.childrenIds.getD [] then removeParentRef pid q1 else q1
  if q.id ∈ (ptd.marriages.getD []).map (fun m => m.spouseId) then removeMarriageTo pid q2 else q2

/-- Freshness of a new id: it occurs nowhere in the current state. -/
def FreshId (newId : String) (ps : List Person) : Prop :=
  ∀ p ∈ ps, p.id ≠ newId ∧ newId ∉ p.parentIds.getD [] ∧
    newId ∉ p.childrenIds.getD [] ∧ ∀ m ∈ p.marriages.getD [], m.spouseId ≠ newId

/-- The net effect of the two-parent `addPerson` mirroring on the person
with id `i` (when both parents resolve). -/
def addTouch (newId p1 p2 : String) (i : String) (q : Person) : Person :=
  let q1 := if i = p1 then addMarriageIfAbsent p2 q else q
  let q2 := if i = p2 then addMarriageIfAbsent p1 q1 else q1
  let q3 := if i = p1 then addChildIfAbsent newId q2 else q2
  if i = p2 then addChildIfAbsent newId q3 else q3

/-- Like `addTouch` but without the spousal part (some parent id does not
resolve, so `addSpouseRelationship` was a no-op). -/
def addTouchNoSpouse (newId p1 p2 : String) (i : String) (q : Person) : Person :=
  let q3 := if i = p1 then addChildIfAbsent newId q else q
  if i = p2 then addChildIfAbsent newId q3 else q3

/-- The per-person effect of `addSpouseRelationship a b` (when both resolve). -/
def spouseTouch (a b i : String) (q : Person) : Person :=
  let q1 := if i = a then addMarriageIfAbsent b q else q
  if i = b then addMarriageIfAbsent a q1 else q1

/-- The per-person effect of the `updatePerson` parent-diff block on the
person with id `i`. -/
def parentTouch (personId : String) (res : Bool) (oldP nP : List String)
    (i : String) (q : Person) : Person :=
  let q1 := if i ∈ oldP then removeChildRef personId q else q
  let q2 := match nP with
    | [a, b] => if res then spouseTouch a b i q1 else q1
    | _ => q1
  if i ∈ nP then addChildIfAbsent personId q2 else q2

/-! ## `updatePerson`: stage decomposition and pointwise characterization -/

/-- The per-person effect of the marriage block on the person with id `i`:
drop reciprocal entries when `i` is a removed spouse, then replace-or-append
the reciprocal of the new marriage keyed at `i`. -/
def marriageTouch (personId : String) (removed : List String) (newMs : List Marriage)
    (i : String) (q : Person) : Person :=
  let q1 := if i ∈ removed then removeMarriageTo personId q else q
  match newMs.find? (fun m => m.spouseId = i) with
  | some m => setReciprocalMarriage personId m q1
  | none => q1

/-- The per-person effect of the parent block, degenerating to the identity
when the block does not run. -/
def parentTouchU (personId : String) (u : PersonUpdate) (old : Person) (res : Bool)
    (i : String) (q : Person) : Person :=
  match updKey u.parentIds with
  | some nP => if old.parentIds = some nP then q
      else parentTouch personId res (old.parentIds.getD []) nP i q
  | none => q

/-- The per-person effect of the marriage block, degenerating to the identity
when the block does not run. -/
def marriageTouchU (personId : String) (u : PersonUpdate) (cur1 : Person)
    (i : String) (q : Person) : Person :=
  match updKey u.marriages with
  | some newMs =>
      marriageTouch personId
        (((cur1.marriages.getD []).map (fun m => m.spouseId)).filter
          (fun id => ¬ ((newMs.map (fun m => m.spouseId)).contains id)))
        newMs i q
  | none => q

/-- The whole per-person effect of `updatePerson` on the person with id `i`,
relative to the pre-state record `old` of the updated person. -/
def updateTouch (personId : String) (u : PersonUpdate) (old : Person) (res : Bool)
    (i : String) (q : Person) : Person :=
  let cur1 := parentTouchU personId u old res personId old
  let cur2 := marriageTouchU personId u cur1 personId cur1
  if i = personId then mergePerson cur2 u
  else marriageTouchU personId u cur1 i (parentTouchU personId u old res i q)

/-- Whether a two-element new-parents list resolves in the current state
(the condition under which `updatePerson` adds the spouse relationship). -/
def parentResolvable (u : PersonUpdate) (ps : List Person) : Bool :=
  match updKey u.parentIds with
  | some [a, b] => !((ps.find? (fun p => p.id = a)).isNone
      || (ps.find? (fun p => p.id = b)).isNone)
  | _ => false

/-! ## Claims C1 and C4 -/

/-- No remaining record mentions `xid` anywhere. -/
def noDangling (xid : String) (ps : List Person) : Prop :=
  ∀ p ∈ ps, p.id ≠ xid ∧ xid ∉ p.parentIds.getD [] ∧ xid ∉ p.childrenIds.getD [] ∧
    ∀ m ∈ p.marriages.getD [], m.spouseId ≠ xid

instance (xid : String) (ps : List Person) : Decidable (noDangling xid ps) := by
  unfold noDangling
  infer_instance

/-- C1 counterexample fixture: a single existing person `a`. -/
def c1Base : List Person := [{ id := "a" }]

/-- C1 counterexample payload: `addPerson` data carrying exactly one parent id. -/
def c1Data : PersonData := { parentIds := some ["a"] }

/-- C1 counterexample fixture: a mirrored parent/child pair. -/
def c1UBase : List Person :=
  [{ id := "p", childrenIds := some ["k"] },
   { id := "k", parentIds := some ["p"] }]

/-- C1 counterexample payload: `{parentIds: undefined}` — the key is present
but explicitly `undefined`. -/
def c1UData : PersonUpdate := { parentIds := some none }

/-- C1 witness fixtures: a base state and an operation sequence exercising
all three operations. -/
def c1WitBase : List Person := [{ id := "a" }]

def c1WitOps : List Op :=
  [Op.add "b" { }, Op.add "c" { parentIds := some ["a", "b"] },
   Op.update "a" { marriages := some (some [{ spouseId := "b", status := .divorced }]) },
   Op.del "b"]

/-- C4 counterexample fixture: `y` lists `x` as parent but `x` does not
mirror `y` as child. -/
def c4Base : List Person := [{ id := "x" }, { id := "y", parentIds := some ["x"] }]

/-- C4 witness fixture: a mirrored two-person state. -/
def c4X : Person := { id := "x", childrenIds := some ["y"] }

def c4Sym : List Person := [c4X, { id := "y", parentIds := some ["x"] }]

/-- C5 witness fixtures. -/
def c5A : Person := { id := "p1", firstName := some "Ann" }

def c5B : Person := { id := "p2", firstName := some "Bob" }

def c5L : Person := { id := "l" }

/-! ## GEDCOM import (`parseGedcom` from `App.tsx`)

The TS parser can throw in exactly two places (`tag.startsWith` on an
`undefined` tag of a level-0 line, and `nameParts[1].trim()` for a `NAME`
value without `/`), so the embedding returns `Except Unit`.  `uuidv4` is
modelled by a counter producing distinct ids. -/

/-- Split a character list at every occurrence of `c` (JS
`String.prototype.split` with a one-character separator: `"".split(c)` is
`[""]`, separators at the ends produce empty fields). -/
def splitCh (c : Char) : List Char → List (List Char)
  | [] => [[]]
  | a :: as =>
      if a = c then [] :: splitCh c as
      else
        match splitCh c as with
        | h :: t => (a :: h) :: t
        | [] => [[a]]

/-- `s.split(c)` for a one-character separator, kernel-computable. -/
def strSplit (s : String) (c : Char) : List String :=
  (splitCh c s.toList).map (fun l => String.mk l)

/-- The characters `String.prototype.trim` strips: ECMAScript WhiteSpace
(TAB, VT, FF, SP, NBSP, ZWNBSP and the Unicode Zs category) and the
LineTerminators LF, CR, LS, PS. -/
def chIsWs (c : Char) : Bool :=
  c = ' ' ∨ c = '\t' ∨ c = '\r' ∨ c = '\n' ∨
  c.toNat = 0x0B ∨ c.toNat = 0x0C ∨ c.toNat = 0xA0 ∨ c.toNat = 0x1680 ∨
  (0x2000 ≤ c.toNat ∧ c.toNat ≤ 0x200A) ∨ c.toNat = 0x2028 ∨ c.toNat = 0x2029 ∨
  c.toNat = 0x202F ∨ c.toNat = 0x205F ∨ c.toNat = 0x3000 ∨ c.toNat = 0xFEFF

/-- `String.prototype.trim`, kernel-computable. -/
def strTrim (s : String) : String :=
  String.mk (((s.toList.dropWhile chIsWs).reverse.dropWhile chIsWs).reverse)

def strStartsWithCh (s : String) (c : Char) : Bool :=
  match s.toList with
  | a :: _ => a = c
  | [] => false

def strEndsWithCh (s : String) (c : Char) : Bool :=
  match s.toList.reverse with
  | a :: _ => a = c
  | [] => false

/-- Lexicographic comparison by code point (JS default string sort order). -/
def chLe : List Char → List Char → Bool
  | [], _ => true
  | _ :: _, [] => false
  | a :: as, b :: bs => if a = b then chLe as bs else decide (a.toNat < b.toNat)

def strLe (a b : String) : Bool := chLe a.toList b.toList

/-- `s.replace(/\n/g, repl)`, kernel-computable. -/
def strReplaceNl (s repl : String) : String :=
  String.intercalate repl (strSplit s '\n')

/-- JS `parseInt(s, 10)`: optional sign, then the longest digit prefix;
`none` models `NaN`. -/
def jsParseInt (s : String) : Option Int :=
  let (sign, rest) : Int × List Char :=
    match s.toList with
    | '-' :: cs => (-1, cs)
    | '+' :: cs => (1, cs)
    | cs => (1, cs)
  let digits := rest.takeWhile Char.isDigit
  if digits.isEmpty then none
  else some (sign * (digits.foldl (fun n c => n * 10 + (c.toNat - '0'.toNat)) 0 : Nat))

/-- `gedcomString.split(/\r?\n/)`. -/
def splitLines (s : String) : List String :=
  (strSplit s '\n').map (fun l =>
    if strEndsWithCh l '\r' then String.mk (l.toList.dropLast) else l)

/-- A partial individual under construction, with its GEDCOM cross-reference id. -/
structure GedIndi where
  gedcomId : String
  person : Person
deriving DecidableEq, Repr

/-- A family record under construction. -/
structure GedFam where
  gedcomId : String
  husb : Option String := none
  wife : Option String := none
  children : List String := []
  date : Option String := none
  place : Option String := none
deriving DecidableEq, Repr

/-- The mutable locals of `parseGedcom`'s line scan. -/
structure GedState where
  people : List GedIndi := []
  fams : List GedFam := []
  currentIndi : Option GedIndi := none
  currentFam : Option GedFam := none
  context : Option String := none
  subContext : Option String := none
  counter : Nat := 0
deriving Repr

/-- One iteration of `parseGedcom`'s `for (const line of lines)` loop. -/
def gedStep (st : GedState) (line : String) : Except Unit GedState :=
  let parts := strSplit (strTrim line) ' '
  let level := jsParseInt (parts.headD "")
  let tag := parts[1]?
  let value := String.intercalate " " (parts.drop 2)
  if level = some 0 then
    match tag with
    | none => .error ()
    | some t =>
        let st := { st with context := none }
        if strStartsWithCh t '@' ∧ strEndsWithCh t '@' then
          if value = "INDI" then
            let n := st.counter
            let newPerson : Person :=
              { id := s!"#u{n}", parentIds := some [], childrenIds := some [],
                marriages := some [] }
            let newIndi : GedIndi := { gedcomId := t, person := newPerson }
            .ok { st with
              people := st.people ++ (match st.currentIndi with
                | some ci => [ci]
                | none => []),
              currentIndi := some newIndi,
              counter := st.counter + 1 }
          else if value = "FAM" then
            .ok { st with
              fams := st.fams ++ (match st.currentFam with
                | some cf => [cf]
                | none => []),
              currentFam := some { gedcomId := t } }
          else
            .ok { st with currentIndi := none, currentFam := none }
        else
          .ok st
  else if level = some 1 then
    let st := { st with context := tag, subContext := none }
    let stI : Except Unit GedState :=
      match st.currentIndi with
      | some ci =>
          if tag = some "NAME" then
            match strSplit value '/' with
            | p0 :: p1 :: _ =>
                let p : Person :=
                  { ci.person with
                    firstName := some (strTrim p0)
                    lastName := some (strTrim p1) }
                .ok { st with currentIndi := some { ci with person := p } }
            | _ => .error ()
          else if tag = some "SEX" then
            .ok { st with currentIndi := some { ci with person :=
              { ci.person with gender := some (if value = "M" then Gender.male
                else if value = "F" then Gender.female else Gender.other) } } }
          else if tag = some "BIRT" then .ok { st with context := some "BIRT" }
          else if tag = some "DEAT" then .ok { st with context := some "DEAT" }
          else .ok st
      | none => .ok st
    match stI with
    | .error e => .error e
    | .ok st =>
        match st.currentFam with
        | some cf =>
            if tag = some "HUSB" then
              .ok { st with currentFam := some { cf with husb := some value } }
            else if tag = some "WIFE" then
              .ok { st with currentFam := some { cf with wife := some value } }
            else if tag = some "CHIL" then
              .ok { st with currentFam := some { cf with children := cf.children ++ [value] } }
            else if tag = some "MARR" then
              .ok { st with subContext := some "MARR" }
            else .ok st
        | none => .ok st
  else if level = some 2 ∧ jsTruthyStr st.context then
    let st1 :=
      match st.currentIndi with
      | some ci =>
          let p := ci.person
          let p := if st.context = some "BIRT" ∧ tag = some "DATE" then
              { p with birthDate := some value } else p
          let p := if st.context = some "BIRT" ∧ tag = some "PLAC" then
              { p with birthPlace := some value } else p
          let p := if st.context = some "DEAT" ∧ tag = some "DATE" then
              { p with deathDate := some value } else p
          let p := if st.context = some "DEAT" ∧ tag = some "PLAC" then
              { p with deathPlace := some value } else p
          { st with currentIndi := some { ci with person := p } }
      | none => st
    let st2 :=
      match st1.currentFam with
      | some cf =>
          if st1.subContext = some "MARR" then
            let cf := if tag = some "DATE" then { cf with date := some value } else cf
            let cf := if tag = some "PLAC" then { cf with place := some value } else cf
            { st1 with currentFam := some cf }
          else st1
      | none => st1
    .ok st2
  else
    .ok st

/-- `gedcomIdToPersonId[...]`: a JS object lookup where later writes win. -/
def lookupLast (dict : List (String × String)) (k : String) : Option String :=
  (dict.reverse.find? (fun e => e.1 = k)).map (fun e => e.2)

/-- The body of `parseGedcom`'s `fams.forEach` (marriage wiring then child
wiring), acting on the accumulated people list. -/
def applyFam (dict : List (String × String)) (acc : List Person) (fam : GedFam) :
    List Person :=
  let husbandId := fam.husb.bind (lookupLast dict)
  let wifeId := fam.wife.bind (lookupLast dict)
  let acc :=
    match husbandId, wifeId with
    | some h, some w =>
        match acc.find? (fun p => p.id = h), acc.find? (fun p => p.id = w) with
        | some _, some wife =>
            let details : Marriage :=
              { spouseId := wife.id, status := .married, date := fam.date,
                place := fam.place }
            let acc := updateFirst h (fun hp =>
              { hp with marriages := some (hp.marriages.getD [] ++ [details]) }) acc
            updateFirst w (fun wp =>
              { wp with marriages := some (wp.marriages.getD [] ++
                [{ details with spouseId := h }]) }) acc
        | _, _ => acc
    | _, _ => acc
  fam.children.foldl (fun acc childGedcomId =>
    match lookupLast dict childGedcomId with
    | none => acc
    | some childId =>
        match acc.find? (fun p => p.id = childId) with
        | none => acc
        | some _ =>
            let newParents := ([husbandId, wifeId].filterMap (fun o => o)).filter
              (fun s => s ≠ "")
            let acc := updateFirst childId (fun cp =>
              { cp with parentIds := some newParents }) acc
            let acc :=
              match husbandId with
              | some h => updateFirst h (addChildIfAbsent childId) acc
              | none => acc
            match wifeId with
            | some w => updateFirst w (addChildIfAbsent childId) acc
            | none => acc) acc

/-- `parseGedcom` from `App.tsx` (`Except`-valued: `.error` at the two
crash points of the TS code). -/
def parseGedcomE (gedcomString : String) : Except Unit (List Person) := do
  let st ← (splitLines gedcomString).foldlM gedStep {}
  let finalPeople := st.people ++ (match st.currentIndi with
    | some ci => [ci]
    | none => [])
  let finalFams := st.fams ++ (match st.currentFam with
    | some cf => [cf]
    | none => [])
  let dict := finalPeople.map (fun gi => (gi.gedcomId, gi.person.id))
  let ppl := finalPeople.map (fun gi => gi.person)
  return finalFams.foldl (applyFam dict) ppl

/-! ## GEDCOM export (`exportToGedcom` from `App.tsx`)

The two marriage passes of the TS code run the identical
`processedMarriages` dedup scan (the second pass resets the counter and the
set), so the scan is embedded once (`famPairList`) and used by both the
FAMS/FAMC bookkeeping and the FAM records.  A `@F…@`/`@I…@` id is the
1-based position in the corresponding scan.  `personIdToFams[p2Id].push`
throws when a marriage's `spouseId` is not in the list, hence `Except`. -/

/-- `[p1Id, p2Id].sort().join('-')` — the marriage dedup key. -/
def pairKey (a b : String) : String :=
  if strLe a b then a ++ "-" ++ b else b ++ "-" ++ a

/-- The dedup scan over one person's marriages (`person.marriages?.forEach`
with the `processedMarriages.has` guard): the entries kept. -/
def famScanM (p : Person) : List Marriage → List String → List (Person × Marriage)
  | [], _ => []
  | m :: ms, seen =>
      let key := pairKey p.id m.spouseId
      if key ∈ seen then famScanM p ms seen
      else (p, m) :: famScanM p ms (seen ++ [key])

/-- The dedup keys accumulated by the same scan. -/
def famSeenM (p : Person) : List Marriage → List String → List String
  | [], seen => seen
  | m :: ms, seen =>
      let key := pairKey p.id m.spouseId
      if key ∈ seen then famSeenM p ms seen
      else famSeenM p ms (seen ++ [key])

/-- The dedup scan over all people (`people.forEach`). -/
def famScanP : List Person → List String → List (Person × Marriage)
  | [], _ => []
  | q :: qs, seen =>
      famScanM q (q.marriages.getD []) seen ++
        famScanP qs (famSeenM q (q.marriages.getD []) seen)

/-- The deduplicated `(person, marriage)` pairs that produce a FAM record,
in emission order. -/
def famPairList (people : List Person) : List (Person × Marriage) :=
  famScanP people []

/-- `@I…@` ids: the 1-based position of a person in the list. -/
def gedcomIdList (people : List Person) : List (String × String) :=
  people.enum.map (fun pr => (pr.2.id, s!"@I{pr.1 + 1}@"))

/-- A JS dict access rendered into a template string (`undefined` when the
key is missing — it cannot be for ids of people in the list). -/
def lookupRef (dict : List (String × String)) (k : String) : String :=
  (lookupLast dict k).getD "undefined"

/-- `p1?.childrenIds?.filter(cId => p2?.childrenIds?.includes(cId)) || []`. -/
def pairChildren (people : List Person) (p1 : Person) (m : Marriage) : List String :=
  match p1.childrenIds with
  | none => []
  | some cs =>
      match people.find? (fun p => p.id = m.spouseId) with
      | none => []
      | some p2 =>
          match p2.childrenIds with
          | none => []
          | some cs2 => cs.filter (fun c => cs2.contains c)

/-- `personIdToFams[pid]`: the `@F…@` ids pushed for `pid` (both slots of a
pair can be the same person). -/
def famsOf (people : List Person) (pid : String) : List String :=
  (famPairList people).enum.foldl (fun acc pr =>
    let i := pr.1
    let famId := s!"@F{i + 1}@"
    let acc := if pr.2.1.id = pid then acc ++ [famId] else acc
    if pr.2.2.spouseId = pid then acc ++ [famId] else acc) []

/-- `personIdToFamc[cid]`: the last family whose common-children computation
lists `cid`. -/
def famcOf (people : List Person) (cid : String) : Option String :=
  (((famPairList people).enum.filter
      (fun pr => cid ∈ pairChildren people pr.2.1 pr.2.2)).map
    (fun pr => s!"@F{pr.1 + 1}@")).getLast?

/-- `[person.lastName, person.familyCast].filter(Boolean).join(' ')`. -/
def surnameOf (p : Person) : String :=
  String.intercalate " " (([p.lastName, p.familyCast].filter jsTruthyStr).map
    (fun o => o.getD ""))

/-- The `1 SEX …` letter. -/
def sexLetter (g : Gender) : String :=
  match g with
  | .male => "M"
  | .female => "F"
  | .other => "O"

/-- One `0 @I…@ INDI` record. -/
def indiRecord (people : List Person) (dict : List (String × String))
    (person : Person) : String :=
  let iid := lookupRef dict person.id
  let firstName := if jsTruthyStr person.firstName then person.firstName.getD "" else ""
  let surname := surnameOf person
  let s0 := s!"0 {iid} INDI\n" ++ s!"1 NAME {firstName} /{surname}/\n"
  let s1 := s0 ++ (match person.gender with
    | some g => s!"1 SEX {sexLetter g}\n"
    | none => "")
  let bd := person.birthDate.getD ""
  let bp := person.birthPlace.getD ""
  let s2 := s1 ++
    (if jsTruthyStr person.birthDate ∨ jsTruthyStr person.birthPlace then
      "1 BIRT\n" ++
        (if jsTruthyStr person.birthDate then s!"2 DATE {bd}\n" else "") ++
        (if jsTruthyStr person.birthPlace then s!"2 PLAC {bp}\n" else "")
    else "")
  let dd := person.deathDate.getD ""
  let dp := person.deathPlace.getD ""
  let s3 := s2 ++
    (if jsTruthyStr person.deathDate ∨ jsTruthyStr person.deathPlace then
      "1 DEAT\n" ++
        (if jsTruthyStr person.deathDate then s!"2 DATE {dd}\n" else "") ++
        (if jsTruthyStr person.deathPlace then s!"2 PLAC {dp}\n" else "")
    else "")
  let occ := person.occupation.getD ""
  let s4 := s3 ++ (if jsTruthyStr person.occupation then
    s!"1 OCCU {occ}\n" else "")
  let notes := strReplaceNl (person.notes.getD "") "\n2 CONT "
  let s5 := s4 ++ (if jsTruthyStr person.notes then
    s!"1 NOTE {notes}\n" else "")
  let s6 := s5 ++ (match famcOf people person.id with
    | some famc =>
        if person.isAdopted then s!"1 ADOP\n2 FAMC {famc}\n" else s!"1 FAMC {famc}\n"
    | none => "")
  s6 ++ String.join ((famsOf people person.id).map (fun famId => s!"1 FAMS {famId}\n"))

/-- The HUSB/WIFE assignment of a FAM record (`App.tsx` lines 1134–1140):
decided by the record owner's gender alone. -/
def husbWife (p1 p2 : Person) : Person × Person :=
  if p1.gender = some Gender.male then (p1, p2) else (p2, p1)

/-- One `0 @F…@ FAM` record for the `i`-th entry of the dedup scan. -/
def famRecord (people : List Person) (dict : List (String × String)) (i : Nat)
    (p1 : Person) (m : Marriage) : String :=
  let famId := s!"@F{i + 1}@"
  let s0 := s!"0 {famId} FAM\n"
  match people.find? (fun p => p.id = m.spouseId) with
  | none => s0
  | some p2 =>
      let hw := husbWife p1 p2
      let husbRef := lookupRef dict hw.1.id
      let wifeRef := lookupRef dict hw.2.id
      let s1 := s0 ++ s!"1 HUSB {husbRef}\n" ++ s!"1 WIFE {wifeRef}\n"
      let md := m.date.getD ""
      let mp := m.place.getD ""
      let s2 := s1 ++
        (if jsTruthyStr m.date ∨ jsTruthyStr m.place then
          "1 MARR\n" ++
            (if jsTruthyStr m.date then s!"2 DATE {md}\n" else "") ++
            (if jsTruthyStr m.place then s!"2 PLAC {mp}\n" else "")
        else "")
      s2 ++ String.join ((pairChildren people p1 m).map
        (fun childId => s!"1 CHIL {lookupRef dict childId}\n"))

/-- `exportToGedcom` from `App.tsx` (`.error` when a marriage's spouse id is
not in the list — `personIdToFams[p2Id].push` throws there). -/
def exportToGedcomE (people : List Person) : Except Unit String :=
  if (famPairList people).all (fun pr =>
      people.any (fun p => p.id = pr.2.spouseId) ∧
        people.any (fun p => p.id = pr.1.id)) then
    let dict := gedcomIdList people
    let header := "0 HEAD\n1 SOUR Digital Family Tree\n1 GEDC\n2 VERS 5.5.1\n2 FORM LINEAGE-LINKED\n1 CHAR UTF-8\n"
    let indiSection := String.join (people.map (indiRecord people dict))
    let famSection := String.join ((famPairList people).enum.map
      (fun pr => famRecord people dict pr.1 pr.2.1 pr.2.2))
    .ok (header ++ indiSection ++ famSection ++ "0 TRLR\n")
  else .error ()

/-! ## Claims C2 and C3 -/

/-- Run export then import. -/
def roundTrip (ps : List Person) : Option (List Person) :=
  match (exportToGedcomE ps).bind parseGedcomE with
  | .ok out => some out
  | .error _ => none

/-- C2 failing input: a mirrored parent/child pair with no marriage. -/
def c2Input : List Person :=
  [{ id := "x", firstName := some "X", childrenIds := some ["y"] },
   { id := "y", firstName := some "Y", parentIds := some ["x"] }]

/-- Line shapes on which `parseGedcom` cannot throw: a level-0 line has a
second token, and a level-1 `NAME` line's value contains a `/`. -/
def lineOk (l : String) : Bool :=
  let parts := strSplit (strTrim l) ' '
  let level := jsParseInt (parts.headD "")
  if level = some 0 then (parts[1]?).isSome
  else if level = some 1 ∧ parts[1]? = some "NAME" then
    decide ((strSplit (String.intercalate " " (parts.drop 2)) '/').length ≥ 2)
  else true

/-! ## Claims C8 and C9 -/

/-- The dedup-key trace of the people-level scan. -/
def famSeenP : List Person → List String → List String
  | [], seen => seen
  | q :: qs, seen => famSeenP qs (famSeenM q (q.marriages.getD []) seen)

/-- C8 counterexample fixtures: the unordered pairs `{"a-b","c"}` and
`{"a","b-c"}` are distinct but share the sorted-join key `"a-b-c"`. -/
def c8People : List Person :=
  [{ id := "a-b", marriages := some [{ spouseId := "c" }] },
   { id := "c", marriages := some [{ spouseId := "a-b" }] },
   { id := "a", marriages := some [{ spouseId := "b-c" }] },
   { id := "b-c", marriages := some [{ spouseId := "a" }] }]

/-- C9 counterexample fixtures: two married men. -/
def c9M1 : Person :=
  { id := "m1", gender := some Gender.male, marriages := some [{ spouseId := "m2" }] }

def c9M2 : Person :=
  { id := "m2", gender := some Gender.male, marriages := some [{ spouseId := "m1" }] }

/-- C9 witness fixtures: a female–male pair, owner listed first. -/
def c9W1 : Person :=
  { id := "w1", gender := some Gender.female, marriages := some [{ spouseId := "w2" }] }

def c9W2 : Person := { id := "w2", gender := some Gender.male }

/-! ## Fueled loop machinery for the BFS traversals

Each `while (queue.length > 0)` loop is one step function iterated by
`loopF`; the fuel is a closed-form bound proved sufficient below, so the
out-of-fuel default of each wrapper is dead code. -/

def loopF {σ ρ : Type} (f : σ → σ ⊕ ρ) : Nat → σ → Option ρ
  | 0, _ => none
  | fuel + 1, s =>
      match f s with
      | .inr r => some r
      | .inl s' => loopF f fuel s'

/-! ## `relationshipUtils.ts` -/

/-- The neighbor ids of a person in `findGenericPath`'s graph: all parent
ids, child ids, and spouse ids. -/
def neighborIds (q : Person) : List String :=
  q.parentIds.getD [] ++ q.childrenIds.getD [] ++ (q.marriages.getD []).map (fun m => m.spouseId)

/-- The parent-edge expansion of `getPathToAncestor` (`for (const parentId
of currentPerson.parentIds)`), with its mid-loop early return. -/
def expandParents (ps : List Person) (endId : String) (path : List Person) :
    List String → List (String × List Person) → List String →
      (List (String × List Person) × List String) ⊕ List Person
  | [], qAcc, vis => .inl (qAcc, vis)
  | pid :: rest, qAcc, vis =>
      if pid ∈ vis then expandParents ps endId path rest qAcc vis
      else
        let vis2 := vis ++ [pid]
        match getPersonById pid ps with
        | none => expandParents ps endId path rest qAcc vis2
        | some pp =>
            let newPath := path ++ [pp]
            if pid = endId then .inr newPath
            else expandParents ps endId path rest (qAcc ++ [(pid, newPath)]) vis2

/-- One iteration of `getPathToAncestor`'s BFS loop. -/
def ptaStep (ps : List Person) (endId : String)
    (s : List (String × List Person) × List String) :
    (List (String × List Person) × List String) ⊕ Option (List Person) :=
  match s.1 with
  | [] => .inr none
  | (personId, path) :: rest =>
      match getPersonById personId ps with
      | none => .inl (rest, s.2)
      | some cur =>
          match expandParents ps endId path (cur.parentIds.getD []) [] s.2 with
          | .inl (newEntries, vis) => .inl (rest ++ newEntries, vis)
          | .inr found => .inr (some found)

/-- All ids a parent-walk over `ps` can ever enqueue beyond its start. -/
def parentUniverse (ps : List Person) : List String :=
  ps.flatMap (fun p => p.parentIds.getD [])

/-- Fuel bound for the visited-at-enqueue parent walks (start queue of one). -/
def parentFuel (ps : List Person) : Nat :=
  (parentUniverse ps).length + 2

/-- Fuel bound for the visited-at-dequeue loops over parent edges, for a
start queue of `k` entries. -/
def dqParentFuel (ps : List Person) (k : Nat) : Nat :=
  ps.length * ((parentUniverse ps).length + 2) + k + 1

/-- `getPathToAncestor` from `findLcaAndPaths`. -/
def getPathToAncestor (ps : List Person) (startId endId : String) : Option (List Person) :=
  match getPersonById startId ps with
  | none => none
  | some startPerson =>
      if startId = endId then some [startPerson]
      else
        (loopF (ptaStep ps endId) (parentFuel ps) ([(startId, [startPerson])], [startId])).join

/-- One iteration of the ancestor-map loop (`queue1`) of `findLcaAndPaths`
(visited checked at dequeue; parents pushed unfiltered). -/
def lcaQueue1Step (ps : List Person)
    (s : List String × List String × List (String × Person)) :
    (List String × List String × List (String × Person)) ⊕ List (String × Person) :=
  match s.1 with
  | [] => .inr s.2.2
  | currentId :: rest =>
      if currentId ∈ s.2.1 then .inl (rest, s.2.1, s.2.2)
      else
        let vis := s.2.1 ++ [currentId]
        match getPersonById currentId ps with
        | none => .inl (rest, vis, s.2.2)
        | some person =>
            .inl (rest ++ person.parentIds.getD [], vis, s.2.2 ++ [(currentId, person)])

/-- One iteration of the upward search from person 2 (`queue2`) of
`findLcaAndPaths`. -/
def lcaQueue2Step (ps : List Person) (person1Id person2Id : String)
    (anc : List (String × Person)) (s : List String × List String) :
    (List String × List String) ⊕ Option (Person × List Person × List Person) :=
  match s.1 with
  | [] => .inr none
  | currentId :: rest =>
      let hit : Option (Person × List Person × List Person) :=
        match anc.find? (fun e => e.1 = currentId) with
        | some e =>
            match getPathToAncestor ps person1Id e.2.id,
                getPathToAncestor ps person2Id e.2.id with
            | some path1, some path2 => some (e.2, path1, path2)
            | _, _ => none
        | none => none
      match hit with
      | some r => .inr (some r)
      | none =>
          match getPersonById currentId ps with
          | none => .inl (rest, s.2)
          | some person =>
              .inl ((person.parentIds.getD []).foldl (fun acc pid =>
                if pid ∈ acc.2 then acc else (acc.1 ++ [pid], acc.2 ++ [pid]))
                (rest, s.2))

/-- `findLcaAndPaths` from `relationshipUtils.ts`. -/
def findLcaAndPaths (person1Id person2Id : String) (ps : List Person) :
    Option (Person × List Person × List Person) :=
  let anc := (loopF (lcaQueue1Step ps) (dqParentFuel ps 1) ([person1Id], [], [])).getD []
  (loopF (lcaQueue2Step ps person1Id person2Id anc) (parentFuel ps)
    ([person2Id], [person2Id])).join

/-- `getPathSegmentDescription` from `relationshipUtils.ts`. -/
def getPathSegmentDescription (p1 p2 : Person) : String :=
  if (p1.childrenIds.getD []).contains p2.id then
    if p1.gender = some Gender.male then "is the father of"
    else if p1.gender = some Gender.female then "is the mother of"
    else "is the parent of"
  else if (p1.parentIds.getD []).contains p2.id then
    if p1.gender = some Gender.male then "is the son of"
    else if p1.gender = some Gender.female then "is the daughter of"
    else "is the child of"
  else if (p1.marriages.getD []).any (fun m => m.spouseId = p2.id) then
    if p1.gender = some Gender.male then "is the husband of"
    else if p1.gender = some Gender.female then "is the wife of"
    else "is the spouse of"
  else "is related to"

/-- The `for (let i = 0; …)` body of `generatePathDescription`. -/
def pathSegs : Person → List Person → Nat → String
  | _, [], _ => ""
  | prev, next :: rest, i =>
      (if i > 0 then ", who " else " ") ++
        s!"{getPathSegmentDescription prev next} {getFullName next}" ++
        pathSegs next rest (i + 1)

/-- `generatePathDescription` from `relationshipUtils.ts`. -/
def generatePathDescription (path : List Person) : String :=
  if path.length < 2 then "They are the same person."
  else
    match path with
    | [] => "They are the same person."
    | p0 :: rest => getFullName p0 ++ pathSegs p0 rest 0 ++ "."

/-- The neighbor expansion of `findGenericPath` (visited marked for every
neighbor, entry enqueued only when the neighbor resolves). -/
def fgpExpand (ps : List Person) (path : List Person)
    (acc : List (String × List Person) × List String) (nid : String) :
    List (String × List Person) × List String :=
  if nid ∈ acc.2 then acc
  else
    let vis := acc.2 ++ [nid]
    match getPersonById nid ps with
    | none => (acc.1, vis)
    | some np => (acc.1 ++ [(nid, path ++ [np])], vis)

/-- One iteration of `findGenericPath`'s BFS loop. -/
def fgpStep (ps : List Person) (person2 : Person)
    (s : List (String × List Person) × List String) :
    (List (String × List Person) × List String) ⊕ Option (String × List Person) :=
  match s.1 with
  | [] => .inr none
  | (personId, path) :: rest =>
      if personId = person2.id then .inr (some (generatePathDescription path, path))
      else
        match path.getLast? with
        | none => .inl (rest, s.2)
        | some cur =>
            .inl ((neighborIds cur).foldl (fgpExpand ps path) (rest, s.2))

/-- All ids `findGenericPath` can ever enqueue beyond its start. -/
def genericUniverse (p1 : Person) (ps : List Person) : List String :=
  neighborIds p1 ++ ps.flatMap neighborIds

/-- Fuel bound for the generic BFS (visited at enqueue, start queue of one). -/
def genericFuel (p1 : Person) (ps : List Person) : Nat :=
  (genericUniverse p1 ps).length + 2

/-- `findGenericPath` from `relationshipUtils.ts` (the result's description
and path; `none` is the `return null`). -/
def findGenericPath (person1 person2 : Person) (allPeople : List Person) :
    Option (String × List Person) :=
  (loopF (fgpStep allPeople person2) (genericFuel person1 allPeople)
    ([(person1.id, [person1])], [person1.id])).join

/-- The `Relationship` union type from `relationshipUtils.ts`. -/
inductive Relationship where
  | blood (description : String) (path1 path2 : List Person) (lca : Person)
  | path (description : String) (path : List Person)
  | none (description : String)
deriving DecidableEq, Repr

/-- `findRelationship` from `relationshipUtils.ts`. -/
def findRelationship (person1Id person2Id : String) (allPeople : List Person) :
    Option Relationship :=
  if person1Id = "" ∨ person2Id = "" ∨ person1Id = person2Id then none
  else
    match getPersonById person1Id allPeople, getPersonById person2Id allPeople with
    | some person1, some person2 =>
        match findLcaAndPaths person1Id person2Id allPeople with
        | some (lca, path1, path2) =>
            some (.blood (describeBloodRelationship person1 person2 lca path1 path2)
              path1 path2 lca)
        | none =>
            match findGenericPath person1 person2 allPeople with
            | some (desc, path) => some (.path desc path)
            | none =>
                some (.none "No relationship path could be found between these two individuals.")
    | _, _ => none

/-! ## The traversals of `components/ReportsView.tsx` -/

/-- One iteration of `getAncestorsHierarchically`'s loop (visited checked
at dequeue). -/
def gahStep (ps : List Person)
    (s : List (String × Nat) × List String × List (Person × Nat)) :
    (List (String × Nat) × List String × List (Person × Nat)) ⊕ List (Person × Nat) :=
  match s.1 with
  | [] => .inr s.2.2
  | (personId, level) :: rest =>
      if personId = "" ∨ personId ∈ s.2.1 then .inl (rest, s.2.1, s.2.2)
      else
        let vis := s.2.1 ++ [personId]
        match getPersonById personId ps with
        | none => .inl (rest, vis, s.2.2)
        | some p =>
            .inl (rest ++ ((p.parentIds.getD []).filter (fun pid => pid ∉ vis)).map
              (fun pid => (pid, level + 1)), vis, s.2.2 ++ [(p, level)])

/-- `getAncestorsHierarchically` from `ReportsView.tsx`. -/
def getAncestorsHierarchically (person : Person) (allPeople : List Person) :
    List (Person × Nat) :=
  match person.parentIds with
  | Option.none => []
  | some pids =>
      (loopF (gahStep allPeople) (dqParentFuel allPeople pids.length)
        (pids.map (fun i => (i, 1)), [], [])).getD []

/-- The relationship label of `getDescendantsWithRelationship`. -/
def descendantLabel (p : Person) (generation : Nat) : String :=
  if generation = 1 then
    if p.gender = some Gender.male then "Son"
    else if p.gender = some Gender.female then "Daughter" else "Child"
  else if generation = 2 then
    if p.gender = some Gender.male then "Grandson"
    else if p.gender = some Gender.female then "Granddaughter" else "Grandchild"
  else
    let prefx := jsRepeat "Great-" ((generation : Int) - 2)
    if p.gender = some Gender.male then prefx ++ "Grandson"
    else if p.gender = some Gender.female then prefx ++ "Granddaughter"
    else prefx ++ "Grandchild"

/-- All ids a child-walk over `ps` can ever enqueue beyond its start. -/
def childUniverse (ps : List Person) : List String :=
  ps.flatMap (fun p => p.childrenIds.getD [])

/-- Fuel bound for the visited-at-dequeue child walk, for a start queue of
`k` entries. -/
def childFuel (ps : List Person) (k : Nat) : Nat :=
  ps.length * ((childUniverse ps).length + 2) + k + 1

/-- One iteration of `getDescendantsWithRelationship`'s loop. -/
def gdwrStep (ps : List Person)
    (s : List (String × Nat) × List String × List (Person × String × Nat)) :
    (List (String × Nat) × List String × List (Person × String × Nat)) ⊕
      List (Person × String × Nat) :=
  match s.1 with
  | [] => .inr s.2.2
  | (personId, generation) :: rest =>
      if personId = "" ∨ personId ∈ s.2.1 then .inl (rest, s.2.1, s.2.2)
      else
        let vis := s.2.1 ++ [personId]
        match getPersonById personId ps with
        | none => .inl (rest, vis, s.2.2)
        | some p =>
            .inl (rest ++ ((p.childrenIds.getD []).filter (fun cid => cid ∉ vis)).map
              (fun cid => (cid, generation + 1)), vis,
              s.2.2 ++ [(p, descendantLabel p generation, generation)])

/-- `getDescendantsWithRelationship` from `ReportsView.tsx`. -/
def getDescendantsWithRelationship (person : Person) (allPeople : List Person) :
    List (Person × String × Nat) :=
  match person.childrenIds with
  | Option.none => []
  | some cids =>
      (loopF (gdwrStep allPeople) (childFuel allPeople cids.length)
        (cids.map (fun i => (i, 1)), [], [])).getD []

/-! ## Termination of the traversal loops -/

/-- The ids of `U` not yet visited. -/
def unvisitedCount (U vis : List String) : Nat :=
  (U.dedup.filter (fun i => i ∉ vis)).length

/-- Measure for the visited-at-dequeue loops. -/
def dqMeasure (ps : List Person) (B : Nat) (queueLen : Nat) (vis : List String) : Nat :=
  unvisitedCount (ps.map (fun q => q.id)) vis * (B + 2) + queueLen

/-- Measure for the visited-at-enqueue loops. -/
def eqMeasure (U : List String) (queueLen : Nat) (vis : List String) : Nat :=
  queueLen + unvisitedCount U vis

/-- Queue entries of the generic BFS end at the start person or a person of
the list. -/
def fgpWF (p1 : Person) (ps : List Person)
    (s : List (String × List Person) × List String) : Prop :=
  ∀ e ∈ s.1, ∀ c, e.2.getLast? = some c → (c = p1 ∨ c ∈ ps)

/-- Results collected so far have pairwise distinct ids, all marked visited. -/
def visNodupInv {α : Type} (pid : α → String) (vis : List String) (res : List α) : Prop :=
  (res.map pid).Nodup ∧ ∀ i ∈ res.map pid, i ∈ vis

/-- Queue entries of the parent walk carry duplicate-free paths whose ids
are all visited. -/
def ptaInv (s : List (String × List Person) × List String) : Prop :=
  ∀ e ∈ s.1, (e.2.map (fun p => p.id)).Nodup ∧ ∀ x ∈ e.2.map (fun p => p.id), x ∈ s.2

/-- Queue entries of the generic BFS carry duplicate-free paths whose ids
are all visited. -/
def fgpInv (s : List (String × List Person) × List String) : Prop :=
  ∀ e ∈ s.1, (e.2.map (fun p => p.id)).Nodup ∧ ∀ x ∈ e.2.map (fun p => p.id), x ∈ s.2

/-! ## Shortest-path correctness of the generic BFS -/

/-- A valid path of the generic relationship graph: a nonempty chain of
persons, each resolving to itself in `ps`, starting at `p1`, following
`neighborIds` edges, and ending at a person with id `i`. -/
def WalkTo (ps : List Person) (p1 : Person) (i : String) (path : List Person) : Prop :=
  path ≠ [] ∧ (∀ q ∈ path, getPersonById q.id ps = some q) ∧
  List.Chain' (fun a b => b.id ∈ neighborIds a) path ∧
  path.head? = some p1 ∧ ∃ z, path.getLast? = some z ∧ z.id = i

/-- BFS invariant of `findGenericPath`: queue entries carry shortest valid
paths and are visited, queue path lengths are sorted and span at most two
layers, every id with a walk shorter than the queue front is visited, and
every visited id is still enqueued or fully expanded and distinct from the
target. -/
def fgpBFS (ps : List Person) (p1 p2 : Person)
    (s : List (String × List Person) × List String) : Prop :=
  (∀ e ∈ s.1, WalkTo ps p1 e.1 e.2 ∧ e.1 ∈ s.2 ∧
    ∀ Q, WalkTo ps p1 e.1 Q → e.2.length ≤ Q.length) ∧
  List.Pairwise (fun a b => a.2.length ≤ b.2.length) s.1 ∧
  (∀ e ∈ s.1, ∀ f, s.1.head? = some f → e.2.length ≤ f.2.length + 1) ∧
  (∀ f, s.1.head? = some f → ∀ j Q, WalkTo ps p1 j Q →
    Q.length < f.2.length → j ∈ s.2) ∧
  (∀ i ∈ s.2, (∃ e ∈ s.1, e.1 = i) ∨ (i ≠ p2.id ∧
    ∀ q, getPersonById i ps = some q → ∀ n ∈ neighborIds q, n ∈ s.2)) ∧
  p1.id ∈ s.2

/-- Reachability along parent edges through resolvable persons, as walked
by the two queues of `findLcaAndPaths`. -/
inductive ParentReach (ps : List Person) : String → String → Prop where
  | refl (i : String) : ParentReach ps i i
  | step {i j k : String} {p : Person} : ParentReach ps i j →
      getPersonById j ps = some p → k ∈ p.parentIds.getD [] → ParentReach ps i k

def c6C : Person := { id := "c" }

def c6D : Person := { id := "d" }

def c6Ps : List Person := [c6C, c6D]

/-! ## Characterization lemmas for list updates -/

theorem updateFirst_map_id {f : Person → Person} (hid : ∀ p, (f p).id = p.id) (t : String) :
    ∀ ps : List Person, (updateFirst t f ps).map (fun p => p.id) = ps.map (fun p => p.id)
  | [] => rfl
  | p :: ps => by
      by_cases h : p.id = t <;>
        simp [updateFirst, h, hid, updateFirst_map_id hid t ps]

theorem find?_updateFirst {f : Person → Person} (hid : ∀ p, (f p).id = p.id) (t i : String) :
    ∀ ps : List Person, (updateFirst t f ps).find? (fun p => p.id = i) =
      if i = t then (ps.find? (fun p => p.id = t)).map f
      else ps.find? (fun p => p.id = i)
  | [] => by by_cases h : i = t <;> simp [updateFirst, h]
  | p :: ps => by
      by_cases h1 : p.id = t
      · by_cases h2 : i = t
        · subst h2
          simp [updateFirst, h1, List.find?_cons, hid, h1 ▸ hid p]
        · have hti : ¬ (t = i) := fun hc => h2 hc.symm
          have hpi : ¬ ((f p).id = i) := by rw [hid p, h1]; exact hti
          have hpi' : ¬ (p.id = i) := by rw [h1]; exact hti
          simp [updateFirst, h1, List.find?_cons, hpi, hpi', h2, hti]
      · by_cases h2 : i = t
        · subst h2
          simp [updateFirst, h1, List.find?_cons, find?_updateFirst hid i i ps]
        · by_cases h3 : p.id = i
          · simp [updateFirst, h1, List.find?_cons, h3, h2]
          · simp [updateFirst, h1, List.find?_cons, h3, h2, find?_updateFirst hid t i ps]

theorem find?_foldl_updateFirst_idem (g : Person → Person)
    (hid : ∀ p, (g p).id = p.id) (hidem : ∀ p, g (g p) = g p) (i : String) :
    ∀ (L : List String) (ps : List Person),
      ((L.foldl (fun acc x => updateFirst x g acc) ps).find? (fun p => p.id = i)) =
        if i ∈ L then (ps.find? (fun p => p.id = i)).map g
        else ps.find? (fun p => p.id = i)
  | [], ps => by simp
  | x :: L, ps => by
      have hgg : ∀ (o : Option Person), (o.map g).map g = o.map g := fun o => by
        cases o <;> simp [hidem]
      rw [List.foldl_cons, find?_foldl_updateFirst_idem g hid hidem i L (updateFirst x g ps)]
      rw [find?_updateFirst hid x i ps]
      by_cases h1 : i ∈ L
      · by_cases h2 : i = x
        · subst h2
          simp [h1, hgg]
        · simp [h1, h2, hgg]
      · by_cases h2 : i = x
        · subst h2
          simp [h1, List.mem_cons]
        · simp [h1, h2]

theorem find?_foldl_updateFirst_keyed {β : Type} (key : β → String) (g : β → Person → Person)
    (hid : ∀ m p, (g m p).id = p.id) (i : String) :
    ∀ (L : List β) (ps : List Person), (L.map key).Nodup →
      ((L.foldl (fun acc m => updateFirst (key m) (g m) acc) ps).find? (fun p => p.id = i)) =
        (match L.find? (fun m => key m = i) with
          | some m => (ps.find? (fun p => p.id = i)).map (g m)
          | none => ps.find? (fun p => p.id = i))
  | [], ps, _ => by simp
  | x :: L, ps, hnd => by
      have hnd' : (L.map key).Nodup := (List.nodup_cons.mp (by simpa using hnd)).2
      rw [List.foldl_cons,
        find?_foldl_updateFirst_keyed key g hid i L (updateFirst (key x) (g x) ps) hnd']
      rw [find?_updateFirst (hid x) (key x) i ps]
      rcases hfind : L.find? (fun m => key m = i) with _ | m
      · by_cases h2 : i = key x
        · have hkxi : key x = i := h2.symm
          rw [List.find?_cons_of_pos _ (by simp [hkxi])]
          simp [hfind, h2]
        · have hkx : ¬ (key x = i) := fun hc => h2 hc.symm
          rw [List.find?_cons_of_neg _ (by simp [hkx])]
          simp [hfind, h2]
      · have hmi : key m = i := by simpa using List.find?_some hfind
        have hmem : m ∈ L := List.mem_of_find?_eq_some hfind
        have hkx : key x ≠ i := by
          intro hc
          have hin : i ∈ L.map key := hmi ▸ List.mem_map_of_mem key hmem
          rw [← hc] at hin
          exact (List.nodup_cons.mp (by simpa using hnd)).1 hin
        have h2 : ¬ (i = key x) := fun hc => hkx hc.symm
        rw [List.find?_cons_of_neg _ (by simp [hkx])]
        simp [hfind, h2]

theorem foldl_updateFirst_map_id {β : Type} (key : β → String) (g : β → Person → Person)
    (hid : ∀ m p, (g m p).id = p.id) :
    ∀ (L : List β) (ps : List Person),
      ((L.foldl (fun acc m => updateFirst (key m) (g m) acc) ps).map (fun p => p.id)) =
        ps.map (fun p => p.id)
  | [], _ => rfl
  | x :: L, ps => by
      rw [List.foldl_cons, foldl_updateFirst_map_id key g hid L _, updateFirst_map_id (hid x)]

theorem mem_iff_find?_nodup {ps : List Person} (hnd : idsNodup ps) {a : Person} :
    a ∈ ps ↔ ps.find? (fun p => p.id = a.id) = some a := by
  constructor
  · intro ha
    induction ps with
    | nil => cases ha
    | cons p ps ih =>
        rcases List.mem_cons.mp ha with h | h
        · subst h
          simp [List.find?_cons]
        · have h0 : (p.id :: ps.map (fun p => p.id)).Nodup := by
            simpa [idsNodup] using hnd
          have hnd' : idsNodup ps := (List.nodup_cons.mp h0).2
          have hne : ¬ (p.id = a.id) := by
            intro hc
            have hmm : a.id ∈ ps.map (fun p => p.id) := List.mem_map_of_mem _ h
            rw [← hc] at hmm
            exact (List.nodup_cons.mp h0).1 hmm
          simpa [List.find?_cons, hne] using ih hnd' h
  · intro h
    exact List.mem_of_find?_eq_some h

theorem find?_id_of_eq_some {ps : List Person} {i : String} {a : Person}
    (h : ps.find? (fun p => p.id = i) = some a) : a.id = i := by
  have := List.find?_some h
  simpa using this

theorem idsNodup_of_map_eq {ps ps' : List Person}
    (h : ps'.map (fun p => p.id) = ps.map (fun p => p.id)) (hnd : idsNodup ps) :
    idsNodup ps' := by
  unfold idsNodup at *
  rw [h]; exact hnd

/-! field/membership facts about the single-person transformers -/

theorem addChildIfAbsent_id (childId : String) (p : Person) :
    (addChildIfAbsent childId p).id = p.id := by
  unfold addChildIfAbsent; split <;> rfl

theorem addChildIfAbsent_parentIds (childId : String) (p : Person) :
    (addChildIfAbsent childId p).parentIds = p.parentIds := by
  unfold addChildIfAbsent; split <;> rfl

theorem addChildIfAbsent_marriages (childId : String) (p : Person) :
    (addChildIfAbsent childId p).marriages = p.marriages := by
  unfold addChildIfAbsent; split <;> rfl

theorem mem_addChildIfAbsent (childId : String) (p : Person) (c : String) :
    c ∈ (addChildIfAbsent childId p).childrenIds.getD [] ↔
      c ∈ p.childrenIds.getD [] ∨ c = childId := by
  unfold addChildIfAbsent
  by_cases h : childId ∈ p.childrenIds.getD []
  · simp only [if_pos h]
    constructor
    · exact Or.inl
    · rintro (hc | rfl)
      · exact hc
      · exact h
  · simp [if_neg h]

theorem addMarriageIfAbsent_id (s : String) (p : Person) :
    (addMarriageIfAbsent s p).id = p.id := by
  unfold addMarriageIfAbsent; split <;> rfl

theorem addMarriageIfAbsent_parentIds (s : String) (p : Person) :
    (addMarriageIfAbsent s p).parentIds = p.parentIds := by
  unfold addMarriageIfAbsent; split <;> rfl

theorem addMarriageIfAbsent_childrenIds (s : String) (p : Person) :
    (addMarriageIfAbsent s p).childrenIds = p.childrenIds := by
  unfold addMarriageIfAbsent; split <;> rfl

theorem mem_addMarriageIfAbsent (s : String) (p : Person) (m : Marriage) :
    m ∈ (addMarriageIfAbsent s p).marriages.getD [] ↔
      m ∈ p.marriages.getD [] ∨
        (¬ (p.marriages.getD []).any (fun mm => mm.spouseId = s) ∧
          m = { spouseId := s, status := .married }) := by
  unfold addMarriageIfAbsent
  by_cases h : (p.marriages.getD []).any (fun mm => mm.spouseId = s)
  · simp only [if_pos h]
    constructor
    · exact Or.inl
    · rintro (hc | ⟨hno, _⟩)
      · exact hc
      · exact absurd h hno
  · simp [if_neg h, h]

theorem removeMarriageTo_id (pid : String) (p : Person) :
    (removeMarriageTo pid p).id = p.id := rfl

theorem removeMarriageTo_parentIds (pid : String) (p : Person) :
    (removeMarriageTo pid p).parentIds = p.parentIds := rfl

theorem removeMarriageTo_childrenIds (pid : String) (p : Person) :
    (removeMarriageTo pid p).childrenIds = p.childrenIds := rfl

theorem mem_removeMarriageTo (pid : String) (p : Person) (m : Marriage) :
    m ∈ (removeMarriageTo pid p).marriages.getD [] ↔
      m ∈ p.marriages.getD [] ∧ m.spouseId ≠ pid := by
  unfold removeMarriageTo
  cases p.marriages <;> simp

theorem filter_idem {α : Type} (q : α → Bool) (l : List α) :
    (l.filter q).filter q = l.filter q := by
  induction l with
  | nil => rfl
  | cons a l ih => by_cases h : q a <;> simp [h, ih]

theorem not_any_spouse {ms : List Marriage} {pid : String}
    (h : ¬ (ms.any (fun mm => mm.spouseId = pid) = true)) : ∀ mm ∈ ms, mm.spouseId ≠ pid := by
  intro mm hmm hc
  exact h (List.any_eq_true.mpr ⟨mm, hmm, by simp [hc]⟩)

theorem not_mem_map_spouse {ms : List Marriage} {pid : String}
    (h : ∀ mm ∈ ms, mm.spouseId ≠ pid) : pid ∉ ms.map (fun mm => mm.spouseId) := by
  intro hc
  rcases List.mem_map.mp hc with ⟨mm, hmm, hsp⟩
  exact h mm hmm hsp

theorem map_spouseId_replaceFirst (recip : Marriage) (pid : String) (hr : recip.spouseId = pid) :
    ∀ ms : List Marriage,
      (replaceFirst (fun mm => mm.spouseId = pid) recip ms).map (fun m => m.spouseId) =
        ms.map (fun m => m.spouseId)
  | [] => rfl
  | a :: ms => by
      by_cases h : a.spouseId = pid
      · simp [replaceFirst, h, hr]
      · simp [replaceFirst, h, map_spouseId_replaceFirst recip pid hr ms]

theorem mem_replaceFirst (recip : Marriage) (pid : String) (hr : recip.spouseId = pid) :
    ∀ ms : List Marriage, ((ms.map (fun m => m.spouseId)).Nodup) →
      ms.any (fun mm => mm.spouseId = pid) →
      ∀ m', (m' ∈ replaceFirst (fun mm => mm.spouseId = pid) recip ms ↔
        ((m' ∈ ms ∧ m'.spouseId ≠ pid) ∨ m' = recip))
  | [], _, hany, _ => by simp at hany
  | a :: ms, hnd, hany, m' => by
      have hpair : (∀ x ∈ ms, ¬ x.spouseId = a.spouseId) ∧
          (ms.map (fun m => m.spouseId)).Nodup := by simpa using hnd
      by_cases h : a.spouseId = pid
      · constructor
        · intro hm
          rcases List.mem_cons.mp (by simpa [replaceFirst, h] using hm) with hc | hc
          · exact Or.inr hc
          · refine Or.inl ⟨List.mem_cons_of_mem _ hc, ?_⟩
            intro hsp
            exact hpair.1 m' hc (hsp.trans h.symm)
        · rintro (⟨hm, hne⟩ | rfl)
          · rcases List.mem_cons.mp hm with rfl | hc
            · exact absurd h hne
            · simp only [replaceFirst, h, if_pos]
              simp only [decide_eq_true_eq] at *
              exact List.mem_cons_of_mem _ hc
          · simp [replaceFirst, h]
      · have hany' : ms.any (fun mm => mm.spouseId = pid) := by
          simpa [h] using hany
        have ih := mem_replaceFirst recip pid hr ms hpair.2 hany' m'
        constructor
        · intro hm
          rcases List.mem_cons.mp (by simpa [replaceFirst, h] using hm) with rfl | hc
          · exact Or.inl ⟨List.mem_cons_self _ _, h⟩
          · rcases ih.mp hc with ⟨hm2, hne⟩ | hc2
            · exact Or.inl ⟨List.mem_cons_of_mem _ hm2, hne⟩
            · exact Or.inr hc2
        · rintro (⟨hm, hne⟩ | heq)
          · rcases List.mem_cons.mp hm with heq2 | hc
            · rw [heq2]
              simp [replaceFirst, h]
            · have hmem : m' ∈ replaceFirst (fun mm => mm.spouseId = pid) recip ms :=
                ih.mpr (Or.inl ⟨hc, hne⟩)
              simp [replaceFirst, h]
              exact Or.inr hmem
          · have hmem : m' ∈ replaceFirst (fun mm => mm.spouseId = pid) recip ms :=
              ih.mpr (Or.inr heq)
            simp [replaceFirst, h]
            exact Or.inr hmem

theorem setReciprocalMarriage_id (pid : String) (m : Marriage) (s : Person) :
    (setReciprocalMarriage pid m s).id = s.id := by
  unfold setReciprocalMarriage
  rcases s.marriages with _ | ms
  · rfl
  · simp only
    split <;> rfl

theorem setReciprocalMarriage_parentIds (pid : String) (m : Marriage) (s : Person) :
    (setReciprocalMarriage pid m s).parentIds = s.parentIds := by
  unfold setReciprocalMarriage
  rcases s.marriages with _ | ms
  · rfl
  · simp only
    split <;> rfl

theorem setReciprocalMarriage_childrenIds (pid : String) (m : Marriage) (s : Person) :
    (setReciprocalMarriage pid m s).childrenIds = s.childrenIds := by
  unfold setReciprocalMarriage
  rcases s.marriages with _ | ms
  · rfl
  · simp only
    split <;> rfl

theorem mem_setReciprocalMarriage (pid : String) (m : Marriage) (s : Person)
    (hnd : ((s.marriages.getD []).map (fun mm => mm.spouseId)).Nodup) (m' : Marriage) :
    m' ∈ (setReciprocalMarriage pid m s).marriages.getD [] ↔
      ((m' ∈ s.marriages.getD [] ∧ m'.spouseId ≠ pid) ∨ m' = { m with spouseId := pid }) := by
  unfold setReciprocalMarriage
  rcases hms : s.marriages with _ | ms
  · simp [hms]
  · rw [hms] at hnd
    simp only [Option.getD_some] at hnd
    dsimp only
    by_cases h : ms.any (fun mm => mm.spouseId = pid)
    · simpa [hms, h] using mem_replaceFirst { m with spouseId := pid } pid rfl ms hnd h m'
    · have hnin : ∀ mm ∈ ms, mm.spouseId ≠ pid := not_any_spouse h
      rw [if_neg h]
      constructor
      · intro hm
        rcases (by simpa using hm :
            m' ∈ ms ∨ m' = { m with spouseId := pid }) with hc | hc
        · exact Or.inl ⟨hc, hnin _ hc⟩
        · exact Or.inr hc
      · rintro (⟨hm, _⟩ | heq)
        · simp only [Option.getD_some]
          exact List.mem_append.mpr (Or.inl hm)
        · rw [heq]
          simp

theorem map_spouseId_setReciprocalMarriage_nodup (pid : String) (m : Marriage) (s : Person)
    (hnd : ((s.marriages.getD []).map (fun mm => mm.spouseId)).Nodup) :
    (((setReciprocalMarriage pid m s).marriages.getD []).map (fun mm => mm.spouseId)).Nodup := by
  unfold setReciprocalMarriage
  rcases hms : s.marriages with _ | ms
  · simp
  · rw [hms] at hnd
    simp only [Option.getD_some] at hnd
    dsimp only
    by_cases h : ms.any (fun mm => mm.spouseId = pid)
    · simpa [h, map_spouseId_replaceFirst { m with spouseId := pid } pid rfl ms] using hnd
    · have hnotin : pid ∉ ms.map (fun mm => mm.spouseId) :=
        not_mem_map_spouse (not_any_spouse h)
      rw [if_neg h]
      simp only [Option.getD_some, List.map_append, List.map_cons, List.map_nil]
      rw [List.nodup_append]
      exact ⟨hnd, List.nodup_singleton _, by
        intro x hx hx2
        rcases List.mem_singleton.mp hx2 with rfl
        exact hnotin hx⟩

theorem map_spouseId_addMarriageIfAbsent_nodup (sid : String) (p : Person)
    (hnd : ((p.marriages.getD []).map (fun mm => mm.spouseId)).Nodup) :
    (((addMarriageIfAbsent sid p).marriages.getD []).map (fun mm => mm.spouseId)).Nodup := by
  unfold addMarriageIfAbsent
  by_cases h : (p.marriages.getD []).any (fun mm => mm.spouseId = sid)
  · simpa [h] using hnd
  · have hnotin : sid ∉ (p.marriages.getD []).map (fun mm => mm.spouseId) :=
      not_mem_map_spouse (not_any_spouse h)
    rw [if_neg h]
    simp only [Option.getD_some, List.map_append, List.map_cons, List.map_nil]
    rw [List.nodup_append]
    exact ⟨hnd, List.nodup_singleton _, by
      intro x hx hx2
      rcases List.mem_singleton.mp hx2 with rfl
      exact hnotin hx⟩

theorem find?_filter_of_ne {pid i : String} (h : i ≠ pid) :
    ∀ ps : List Person,
      (ps.filter (fun p => p.id ≠ pid)).find? (fun p => p.id = i) =
        ps.find? (fun p => p.id = i)
  | [] => rfl
  | p :: ps => by
      by_cases h1 : p.id = pid
      · have h2 : ¬ (p.id = i) := fun hc => h (hc.symm.trans h1)
        rw [List.filter_cons_of_neg (by simp [h1]), find?_filter_of_ne h ps,
          List.find?_cons_of_neg _ (by simp [h2])]
      · by_cases h2 : p.id = i
        · rw [List.filter_cons_of_pos (by simp [h1]), List.find?_cons_of_pos _ (by simp [h2]),
            List.find?_cons_of_pos _ (by simp [h2])]
        · rw [List.filter_cons_of_pos (by simp [h1]), List.find?_cons_of_neg _ (by simp [h2]),
            List.find?_cons_of_neg _ (by simp [h2]), find?_filter_of_ne h ps]

theorem find?_filter_self (pid : String) :
    ∀ ps : List Person,
      (ps.filter (fun p => p.id ≠ pid)).find? (fun p => p.id = pid) = none
  | [] => rfl
  | p :: ps => by
      by_cases h1 : p.id = pid
      · rw [List.filter_cons_of_neg (by simp [h1]), find?_filter_self pid ps]
      · rw [List.filter_cons_of_pos (by simp [h1]), List.find?_cons_of_neg _ (by simp [h1]),
          find?_filter_self pid ps]

theorem removeChildRef_idem (cid : String) (p : Person) :
    removeChildRef cid (removeChildRef cid p) = removeChildRef cid p := by
  unfold removeChildRef
  cases p.childrenIds <;> simp [filter_idem]

theorem removeParentRef_idem (pid : String) (p : Person) :
    removeParentRef pid (removeParentRef pid p) = removeParentRef pid p := by
  unfold removeParentRef
  cases p.parentIds <;> simp [filter_idem]

theorem removeMarriageTo_idem (pid : String) (p : Person) :
    removeMarriageTo pid (removeMarriageTo pid p) = removeMarriageTo pid p := by
  unfold removeMarriageTo
  cases p.marriages <;> simp [filter_idem]

theorem mem_getD_map_filter {α : Type} [DecidableEq α] {o : Option (List α)} {q : α → Bool} {x : α} :
    x ∈ (o.map (fun l => l.filter q)).getD [] ↔ x ∈ o.getD [] ∧ q x := by
  cases o <;> simp [List.mem_filter]

theorem deletePerson_find?_char {ps : List Person} {pid : String} {ptd : Person}
    (hfind : ps.find? (fun p => p.id = pid) = some ptd) {i : String} (hip : i ≠ pid) :
    (deletePerson pid ps).find? (fun p => p.id = i) =
      (ps.find? (fun p => p.id = i)).map (deleteTouch pid ptd) := by
  unfold deletePerson
  rw [hfind]
  dsimp only
  simp only [removeChildFromParent]
  rw [find?_filter_of_ne hip]
  rw [← List.foldl_map (fun m : Marriage => m.spouseId)
    (fun acc x => updateFirst x (removeMarriageTo pid) acc)]
  -- inner cur1 computation (two occurrences at key pid)
  rw [find?_foldl_updateFirst_idem (removeChildRef pid) (fun p => rfl) (removeChildRef_idem pid) pid]
  rw [hfind]
  -- cur2 computation at key pid
  rw [find?_foldl_updateFirst_idem (removeParentRef pid) (fun p => rfl) (removeParentRef_idem pid) pid]
  rw [find?_foldl_updateFirst_idem (removeChildRef pid) (fun p => rfl) (removeChildRef_idem pid) pid]
  rw [hfind]
  -- outer find? at key i through the three folds
  rw [find?_foldl_updateFirst_idem (removeMarriageTo pid) (fun p => rfl) (removeMarriageTo_idem pid) i]
  rw [find?_foldl_updateFirst_idem (removeParentRef pid) (fun p => rfl) (removeParentRef_idem pid) i]
  rw [find?_foldl_updateFirst_idem (removeChildRef pid) (fun p => rfl) (removeChildRef_idem pid) i]
  have hch : ∀ q : Person, (removeChildRef pid q).childrenIds.getD [] =
      (q.childrenIds.getD []).filter (fun id => id ≠ pid) := by
    intro q
    unfold removeChildRef
    cases q.childrenIds <;> simp
  have hmR : ∀ q : Person, (removeChildRef pid q).marriages = q.marriages := fun _ => rfl
  have hmP : ∀ q : Person, (removeParentRef pid q).marriages = q.marriages := fun _ => rfl
  rcases hq : ps.find? (fun p => p.id = i) with _ | q
  · rw [hq]
    simp
  · rw [hq]
    have hqi : q.id = i := find?_id_of_eq_some hq
    simp only [Option.map_some', Option.getD_some]
    dsimp only [deleteTouch]
    rw [hqi]
    by_cases hc1 : pid ∈ ptd.parentIds.getD [] <;>
      by_cases hc2 : i ∈ ptd.parentIds.getD [] <;>
        by_cases hc3 : i ∈ ptd.childrenIds.getD [] <;>
          by_cases hc4 : i ∈ (ptd.marriages.getD []).map (fun m => m.spouseId) <;>
            simp [hc1, hc2, hc3, hc4, hch, hmR, hmP, List.mem_filter, hip,
              apply_ite (fun o : Option Person => o.getD ptd),
              apply_ite (fun p : Person => p.marriages), ite_self]

theorem deleteTouch_id (pid : String) (ptd q : Person) : (deleteTouch pid ptd q).id = q.id := by
  unfold deleteTouch removeChildRef removeParentRef removeMarriageTo
  dsimp only
  split <;> split <;> split <;> rfl

theorem deleteTouch_parentIds (pid : String) (ptd q : Person) :
    (deleteTouch pid ptd q).parentIds =
      if q.id ∈ ptd.childrenIds.getD [] then
        q.parentIds.map (fun l => l.filter (fun id => id ≠ pid))
      else q.parentIds := by
  unfold deleteTouch removeChildRef removeParentRef removeMarriageTo
  dsimp only
  split <;> split <;> split <;> rfl

theorem deleteTouch_childrenIds (pid : String) (ptd q : Person) :
    (deleteTouch pid ptd q).childrenIds =
      if q.id ∈ ptd.parentIds.getD [] then
        q.childrenIds.map (fun l => l.filter (fun id => id ≠ pid))
      else q.childrenIds := by
  unfold deleteTouch removeChildRef removeParentRef removeMarriageTo
  dsimp only
  split <;> split <;> split <;> rfl

theorem deleteTouch_marriages (pid : String) (ptd q : Person) :
    (deleteTouch pid ptd q).marriages =
      if q.id ∈ (ptd.marriages.getD []).map (fun m => m.spouseId) then
        q.marriages.map (fun l => l.filter (fun m => m.spouseId ≠ pid))
      else q.marriages := by
  unfold deleteTouch removeChildRef removeParentRef removeMarriageTo
  dsimp only
  split <;> split <;> split <;> rfl

theorem deletePerson_shape {ps : List Person} {pid : String} {ptd : Person}
    (hfind : ps.find? (fun p => p.id = pid) = some ptd) :
    ∃ ps3 : List Person, deletePerson pid ps = ps3.filter (fun p => p.id ≠ pid) ∧
      ps3.map (fun p => p.id) = ps.map (fun p => p.id) := by
  unfold deletePerson
  rw [hfind]
  dsimp only
  simp only [removeChildFromParent]
  refine ⟨_, rfl, ?_⟩
  rw [← List.foldl_map (fun m : Marriage => m.spouseId)
    (fun acc x => updateFirst x (removeMarriageTo pid) acc)]
  rw [foldl_updateFirst_map_id (fun x : String => x) (fun _ => removeMarriageTo pid)
    (fun _ _ => rfl)]
  rw [foldl_updateFirst_map_id (fun x : String => x) (fun _ => removeParentRef pid)
    (fun _ _ => rfl)]
  rw [foldl_updateFirst_map_id (fun x : String => x) (fun _ => removeChildRef pid)
    (fun _ _ => rfl)]

theorem idsNodup_deletePerson {ps : List Person} (pid : String) (hnd : idsNodup ps) :
    idsNodup (deletePerson pid ps) := by
  rcases hfind : ps.find? (fun p => p.id = pid) with _ | ptd
  · unfold deletePerson
    rw [hfind]
    exact hnd
  · obtain ⟨ps3, heq, hmap⟩ := deletePerson_shape hfind
    rw [heq]
    have h3 : idsNodup ps3 := idsNodup_of_map_eq hmap hnd
    unfold idsNodup at h3 ⊢
    exact ((List.filter_sublist ps3).map (fun p => p.id)).nodup h3

theorem not_mem_deletePerson {ps : List Person} {pid : String} {ptd : Person}
    (hfind : ps.find? (fun p => p.id = pid) = some ptd) :
    ∀ p ∈ deletePerson pid ps, p.id ≠ pid := by
  obtain ⟨ps3, heq, _⟩ := deletePerson_shape hfind
  rw [heq]
  intro p hp
  have := List.of_mem_filter hp
  simpa using this

theorem deletePerson_mem_src {ps : List Person} {pid : String} {ptd : Person}
    (hfind : ps.find? (fun p => p.id = pid) = some ptd) (hnd : idsNodup ps)
    {p : Person} (hp : p ∈ deletePerson pid ps) :
    ∃ q0 ∈ ps, q0.id = p.id ∧ p = deleteTouch pid ptd q0 ∧ p.id ≠ pid := by
  have hne : p.id ≠ pid := not_mem_deletePerson hfind p hp
  have hndr : idsNodup (deletePerson pid ps) := idsNodup_deletePerson pid hnd
  have hfp : (deletePerson pid ps).find? (fun x => x.id = p.id) = some p :=
    (mem_iff_find?_nodup hndr).mp hp
  rw [deletePerson_find?_char hfind hne] at hfp
  rcases hmap : ps.find? (fun x => x.id = p.id) with _ | q0
  · rw [hmap] at hfp
    cases hfp
  · rw [hmap] at hfp
    simp only [Option.map_some'] at hfp
    have hq0 : q0 ∈ ps := List.mem_of_find?_eq_some hmap
    have hq0id : q0.id = p.id := find?_id_of_eq_some hmap
    exact ⟨q0, hq0, hq0id, (Option.some.inj hfp).symm, hne⟩

theorem deletePerson_no_dangling {ps : List Person} (hnd : idsNodup ps)
    (hsym : symmetryInvariant ps) {X : Person} (hX : X ∈ ps) :
    ∀ p ∈ deletePerson X.id ps,
      p.id ≠ X.id ∧ X.id ∉ p.parentIds.getD [] ∧ X.id ∉ p.childrenIds.getD [] ∧
        ∀ m ∈ p.marriages.getD [], m.spouseId ≠ X.id := by
  intro p hp
  have hfind : ps.find? (fun q => q.id = X.id) = some X := (mem_iff_find?_nodup hnd).mp hX
  obtain ⟨q0, hq0, hq0id, hpT, hne⟩ := deletePerson_mem_src hfind hnd hp
  refine ⟨hne, ?_, ?_, ?_⟩
  · rw [hpT, deleteTouch_parentIds]
    by_cases hc : q0.id ∈ X.childrenIds.getD []
    · rw [if_pos hc]
      intro hmem
      have h2 := (mem_getD_map_filter.mp hmem).2
      simp at h2
    · rw [if_neg hc]
      intro hmem
      exact hc (((hsym.1 X hX q0 hq0)).mpr hmem)
  · rw [hpT, deleteTouch_childrenIds]
    by_cases hc : q0.id ∈ X.parentIds.getD []
    · rw [if_pos hc]
      intro hmem
      have h2 := (mem_getD_map_filter.mp hmem).2
      simp at h2
    · rw [if_neg hc]
      intro hmem
      exact hc (((hsym.1 q0 hq0 X hX)).mp hmem)
  · rw [hpT, deleteTouch_marriages]
    by_cases hc : q0.id ∈ (X.marriages.getD []).map (fun m => m.spouseId)
    · rw [if_pos hc]
      intro m hm hsp
      have := mem_getD_map_filter.mp hm
      exact absurd hsp (by simpa using this.2)
    · rw [if_neg hc]
      intro m hm hsp
      obtain ⟨m', hm', hsp', _⟩ := hsym.2 q0 hq0 X hX m hm hsp
      exact hc (by
        refine List.mem_map.mpr ⟨m', hm', hsp'⟩)

theorem marriages_getD_map_filter_nodup {o : Option (List Marriage)} {f : Marriage → Bool}
    (h : ((o.getD []).map (fun m => m.spouseId)).Nodup) :
    (((o.map (fun l => l.filter f)).getD []).map (fun m => m.spouseId)).Nodup := by
  cases o with
  | none => simp
  | some l =>
      simp only [Option.map_some', Option.getD_some] at *
      exact ((List.filter_sublist l).map (fun m => m.spouseId)).nodup h

theorem WFState_deletePerson {ps : List Person} (hwf : WFState ps) (pid : String) :
    WFState (deletePerson pid ps) := by
  obtain ⟨hnd, hmn, hcp, hms⟩ : idsNodup ps ∧ marriagesNodup ps ∧ childParentSym ps ∧ marriageSym ps :=
    ⟨hwf.1, hwf.2.1, hwf.2.2.1, hwf.2.2.2⟩
  rcases hfind : ps.find? (fun p => p.id = pid) with _ | ptd
  · unfold deletePerson
    rw [hfind]
    exact hwf
  · refine ⟨idsNodup_deletePerson pid hnd, ?_, ?_, ?_⟩
    · intro p hp
      obtain ⟨q0, hq0, hq0id, hpT, hne⟩ := deletePerson_mem_src hfind hnd hp
      rw [hpT, deleteTouch_marriages]
      by_cases hc : q0.id ∈ (ptd.marriages.getD []).map (fun m => m.spouseId)
      · rw [if_pos hc]
        exact marriages_getD_map_filter_nodup (hmn q0 hq0)
      · rw [if_neg hc]
        exact hmn q0 hq0
    · intro a ha b hb
      obtain ⟨a0, ha0, ha0id, haT, hanep⟩ := deletePerson_mem_src hfind hnd ha
      obtain ⟨b0, hb0, hb0id, hbT, hbnep⟩ := deletePerson_mem_src hfind hnd hb
      have hch : b.id ∈ a.childrenIds.getD [] ↔ b.id ∈ a0.childrenIds.getD [] := by
        rw [haT, deleteTouch_childrenIds]
        by_cases hc : a0.id ∈ ptd.parentIds.getD []
        · rw [if_pos hc, mem_getD_map_filter]
          constructor
          · exact fun h => h.1
          · intro h
            exact ⟨h, by simpa using hbnep⟩
        · rw [if_neg hc]
      have hpa : a.id ∈ b.parentIds.getD [] ↔ a.id ∈ b0.parentIds.getD [] := by
        rw [hbT, deleteTouch_parentIds]
        by_cases hc : b0.id ∈ ptd.childrenIds.getD []
        · rw [if_pos hc, mem_getD_map_filter]
          constructor
          · exact fun h => h.1
          · intro h
            exact ⟨h, by simpa using hanep⟩
        · rw [if_neg hc]
      rw [hch, hpa, ← hb0id, ← ha0id]
      exact hcp a0 ha0 b0 hb0
    · intro a ha b hb m hm hsp
      obtain ⟨a0, ha0, ha0id, haT, hanep⟩ := deletePerson_mem_src hfind hnd ha
      obtain ⟨b0, hb0, hb0id, hbT, hbnep⟩ := deletePerson_mem_src hfind hnd hb
      have hm0 : m ∈ a0.marriages.getD [] := by
        rw [haT, deleteTouch_marriages] at hm
        by_cases hc : a0.id ∈ (ptd.marriages.getD []).map (fun mm => mm.spouseId)
        · rw [if_pos hc] at hm
          exact (mem_getD_map_filter.mp hm).1
        · rw [if_neg hc] at hm
          exact hm
      obtain ⟨m', hm', hsp', hst', hdt', hpl'⟩ :=
        hms a0 ha0 b0 hb0 m hm0 (hsp.trans hb0id.symm)
      refine ⟨m', ?_, hsp'.trans ha0id, hst', hdt', hpl'⟩
      rw [hbT, deleteTouch_marriages]
      by_cases hc : b0.id ∈ (ptd.marriages.getD []).map (fun mm => mm.spouseId)
      · rw [if_pos hc, mem_getD_map_filter]
        refine ⟨hm', ?_⟩
        have : m'.spouseId = a.id := hsp'.trans ha0id
        simp [this, hanep]
      · rw [if_neg hc]
        exact hm'

theorem find?_append_single (ps : List Person) (new : Person) (i : String) :
    (ps ++ [new]).find? (fun p => p.id = i) =
      match ps.find? (fun p => p.id = i) with
      | some p => some p
      | none => if new.id = i then some new else none := by
  induction ps with
  | nil => by_cases h : new.id = i <;> simp [List.find?_cons, h]
  | cons p ps ih =>
      by_cases h : p.id = i
      · simp [List.find?_cons, h]
      · simpa [List.find?_cons, h] using ih

theorem addPerson_eq_two {newId : String} {pd : PersonData} {ps : List Person} {p1 p2 : String}
    (hpid : pd.parentIds = some [p1, p2]) :
    addPerson newId pd ps =
      addChildToParent newId p2 (addChildToParent newId p1
        (addSpouseRelationship p1 p2 (ps ++ [pd.toPerson newId]))) := by
  unfold addPerson
  dsimp only
  have hP : (pd.toPerson newId).parentIds = some [p1, p2] := by
    simpa [PersonData.toPerson] using hpid
  rw [hP]

theorem addPerson_eq_plain {newId : String} {pd : PersonData} {ps : List Person}
    (hpid : ∀ p1 p2 : String, pd.parentIds ≠ some [p1, p2]) :
    addPerson newId pd ps = ps ++ [pd.toPerson newId] := by
  unfold addPerson
  dsimp only
  have hP : (pd.toPerson newId).parentIds = pd.parentIds := rfl
  rw [hP]
  rcases h : pd.parentIds with _ | l
  · rfl
  · rcases l with _ | ⟨a, l⟩
    · rfl
    · rcases l with _ | ⟨b, l⟩
      · rfl
      · rcases l with _ | ⟨c, l⟩
        · exact absurd h (hpid a b)
        · rfl

theorem addSpouseRelationship_eq_unres {p1 p2 : String} {ps : List Person}
    (h : (ps.find? (fun p => p.id = p1)).isNone ∨ (ps.find? (fun p => p.id = p2)).isNone) :
    addSpouseRelationship p1 p2 ps = ps := by
  unfold addSpouseRelationship
  rw [if_pos h]

theorem addSpouseRelationship_eq_res {p1 p2 : String} {ps : List Person}
    (h : ¬ ((ps.find? (fun p => p.id = p1)).isNone ∨ (ps.find? (fun p => p.id = p2)).isNone)) :
    addSpouseRelationship p1 p2 ps =
      updateFirst p2 (addMarriageIfAbsent p1) (updateFirst p1 (addMarriageIfAbsent p2) ps) := by
  unfold addSpouseRelationship
  rw [if_neg h]

theorem find?_addChildToParent (cid t i : String) (ps : List Person) :
    (addChildToParent cid t ps).find? (fun p => p.id = i) =
      if i = t then (ps.find? (fun p => p.id = t)).map (addChildIfAbsent cid)
      else ps.find? (fun p => p.id = i) := by
  unfold addChildToParent
  exact find?_updateFirst (addChildIfAbsent_id cid) t i ps

theorem idsNodup_append_new {ps : List Person} {newP : Person} (hnd : idsNodup ps)
    (hfresh : ∀ p ∈ ps, p.id ≠ newP.id) : idsNodup (ps ++ [newP]) := by
  unfold idsNodup at *
  rw [List.map_append]
  rw [List.nodup_append]
  refine ⟨hnd, List.nodup_singleton _, ?_⟩
  intro x hx hx2
  rcases List.mem_map.mp hx with ⟨p, hp, hpx⟩
  have hxn : x = newP.id := by simpa using hx2
  exact hfresh p hp (hpx.trans hxn)

theorem WFState_addPerson_plain {ps : List Person} {newId : String} {pd : PersonData}
    (hwf : WFState ps) (hfresh : FreshId newId ps)
    (hempty : (pd.parentIds.getD []).length = 0)
    (hpid : ∀ p1 p2 : String, pd.parentIds ≠ some [p1, p2]) :
    WFState (addPerson newId pd ps) := by
  obtain ⟨hnd, hmn, hcp, hms⟩ : idsNodup ps ∧ marriagesNodup ps ∧ childParentSym ps ∧ marriageSym ps :=
    ⟨hwf.1, hwf.2.1, hwf.2.2.1, hwf.2.2.2⟩
  rw [addPerson_eq_plain hpid]
  have hparents : (pd.toPerson newId).parentIds.getD [] = [] := by
    have : (pd.toPerson newId).parentIds = pd.parentIds := rfl
    rw [this]
    exact List.length_eq_zero.mp hempty
  have hid : (pd.toPerson newId).id = newId := rfl
  have hch : (pd.toPerson newId).childrenIds = some [] := rfl
  have hma : (pd.toPerson newId).marriages = some [] := rfl
  refine ⟨?_, ?_, ?_, ?_⟩
  · exact idsNodup_append_new hnd (fun p hp => (hfresh p hp).1)
  · intro p hp
    rcases List.mem_append.mp hp with h | h
    · exact hmn p h
    · rcases List.mem_singleton.mp h with rfl
      rw [hma]
      simp
  · intro a ha b hb
    rcases List.mem_append.mp ha with ha' | ha' <;>
      rcases List.mem_append.mp hb with hb' | hb'
    · exact hcp a ha' b hb'
    · rcases List.mem_singleton.mp hb' with rfl
      rw [hid, hparents]
      constructor
      · intro hmem
        exact absurd hmem (hfresh a ha').2.2.1
      · intro hmem
        cases hmem
    · rcases List.mem_singleton.mp ha' with rfl
      rw [hid, hch]
      constructor
      · intro hmem
        simp at hmem
      · intro hmem
        exact absurd hmem (hfresh b hb').2.1
    · rcases List.mem_singleton.mp ha' with rfl
      rcases List.mem_singleton.mp hb' with rfl
      rw [hch, hparents]
      simp
  · intro a ha b hb m hm hsp
    rcases List.mem_append.mp ha with ha' | ha'
    · rcases List.mem_append.mp hb with hb' | hb'
      · obtain ⟨m', h1, h2, h3, h4, h5⟩ := hms a ha' b hb' m hm hsp
        exact ⟨m', h1, h2, h3, h4, h5⟩
      · rcases List.mem_singleton.mp hb' with rfl
        rw [hid] at hsp
        exact absurd hsp ((hfresh a ha').2.2.2 m hm)
    · rcases List.mem_singleton.mp ha' with rfl
      rw [hma] at hm
      simp at hm

theorem find?_updateFirst' (g : Person → Person) (hid : ∀ p, (g p).id = p.id)
    (t i : String) (ps : List Person) :
    (updateFirst t g ps).find? (fun p => p.id = i) =
      (ps.find? (fun p => p.id = i)).map (fun q => if i = t then g q else q) := by
  rw [find?_updateFirst hid t i ps]
  by_cases h : i = t
  · subst h
    simp
  · simp [h]

theorem find?_addTwo_res {newId p1 p2 : String} {ps' : List Person}
    (i : String) :
    (addChildToParent newId p2 (addChildToParent newId p1
        (updateFirst p2 (addMarriageIfAbsent p1)
          (updateFirst p1 (addMarriageIfAbsent p2) ps')))).find? (fun p => p.id = i) =
      (ps'.find? (fun p => p.id = i)).map (addTouch newId p1 p2 i) := by
  simp only [addChildToParent]
  rw [find?_updateFirst' _ (addChildIfAbsent_id newId) p2 i,
    find?_updateFirst' _ (addChildIfAbsent_id newId) p1 i,
    find?_updateFirst' _ (addMarriageIfAbsent_id p1) p2 i,
    find?_updateFirst' _ (addMarriageIfAbsent_id p2) p1 i,
    Option.map_map, Option.map_map, Option.map_map]
  rfl

theorem find?_addTwo_unres {newId p1 p2 : String} {ps' : List Person}
    (i : String) :
    (addChildToParent newId p2 (addChildToParent newId p1 ps')).find? (fun p => p.id = i) =
      (ps'.find? (fun p => p.id = i)).map (addTouchNoSpouse newId p1 p2 i) := by
  simp only [addChildToParent]
  rw [find?_updateFirst' _ (addChildIfAbsent_id newId) p2 i,
    find?_updateFirst' _ (addChildIfAbsent_id newId) p1 i,
    Option.map_map]
  rfl

theorem addTouch_id (newId p1 p2 i : String) (q : Person) :
    (addTouch newId p1 p2 i q).id = q.id := by
  unfold addTouch
  dsimp only
  split_ifs <;> simp [addChildIfAbsent_id, addMarriageIfAbsent_id]

theorem addTouch_parentIds (newId p1 p2 i : String) (q : Person) :
    (addTouch newId p1 p2 i q).parentIds = q.parentIds := by
  unfold addTouch
  dsimp only
  split_ifs <;> simp [addChildIfAbsent_parentIds, addMarriageIfAbsent_parentIds]

theorem mem_addTouch_children (newId p1 p2 i : String) (q : Person) (c : String) :
    c ∈ (addTouch newId p1 p2 i q).childrenIds.getD [] ↔
      c ∈ q.childrenIds.getD [] ∨ ((i = p1 ∨ i = p2) ∧ c = newId) := by
  unfold addTouch
  dsimp only
  split_ifs <;>
    simp [*, mem_addChildIfAbsent, addMarriageIfAbsent_childrenIds]

theorem addTouchNoSpouse_id (newId p1 p2 i : String) (q : Person) :
    (addTouchNoSpouse newId p1 p2 i q).id = q.id := by
  unfold addTouchNoSpouse
  dsimp only
  split_ifs <;> simp [addChildIfAbsent_id]

theorem addTouchNoSpouse_parentIds (newId p1 p2 i : String) (q : Person) :
    (addTouchNoSpouse newId p1 p2 i q).parentIds = q.parentIds := by
  unfold addTouchNoSpouse
  dsimp only
  split_ifs <;> simp [addChildIfAbsent_parentIds]

theorem addTouchNoSpouse_marriages (newId p1 p2 i : String) (q : Person) :
    (addTouchNoSpouse newId p1 p2 i q).marriages = q.marriages := by
  unfold addTouchNoSpouse
  dsimp only
  split_ifs <;> simp [addChildIfAbsent_marriages]

theorem mem_addTouchNoSpouse_children (newId p1 p2 i : String) (q : Person) (c : String) :
    c ∈ (addTouchNoSpouse newId p1 p2 i q).childrenIds.getD [] ↔
      c ∈ q.childrenIds.getD [] ∨ ((i = p1 ∨ i = p2) ∧ c = newId) := by
  unfold addTouchNoSpouse
  dsimp only
  split_ifs <;>
    simp [*, mem_addChildIfAbsent]

theorem addTouch_marriages_eq (newId p1 p2 i : String) (q : Person) :
    (addTouch newId p1 p2 i q).marriages =
      ((if i = p2 then addMarriageIfAbsent p1 else id)
        ((if i = p1 then addMarriageIfAbsent p2 else id) q)).marriages := by
  unfold addTouch
  dsimp only
  split_ifs <;> simp [addChildIfAbsent_marriages]

theorem addTouch_marriagesNodup (newId p1 p2 i : String) (q : Person)
    (h : ((q.marriages.getD []).map (fun m => m.spouseId)).Nodup) :
    (((addTouch newId p1 p2 i q).marriages.getD []).map (fun m => m.spouseId)).Nodup := by
  rw [addTouch_marriages_eq]
  split_ifs <;>
    first
    | exact map_spouseId_addMarriageIfAbsent_nodup _ _
        (map_spouseId_addMarriageIfAbsent_nodup _ _ h)
    | exact map_spouseId_addMarriageIfAbsent_nodup _ _ h
    | exact h

theorem addMarriageIfAbsent_any_self (s : String) (p : Person) :
    ((addMarriageIfAbsent s p).marriages.getD []).any (fun mm => mm.spouseId = s) := by
  unfold addMarriageIfAbsent
  by_cases h : (p.marriages.getD []).any (fun mm => mm.spouseId = s)
  · rw [if_pos h]
    exact h
  · rw [if_neg h]
    simp

theorem mem_addTouch_marriages (newId p1 p2 i : String) (q : Person) (m : Marriage) :
    m ∈ (addTouch newId p1 p2 i q).marriages.getD [] ↔
      m ∈ q.marriages.getD [] ∨
        (i = p1 ∧ ¬ ((q.marriages.getD []).any (fun mm => mm.spouseId = p2)) ∧
          m = { spouseId := p2, status := .married }) ∨
        (i = p2 ∧ ¬ (p1 = p2) ∧ ¬ ((q.marriages.getD []).any (fun mm => mm.spouseId = p1)) ∧
          m = { spouseId := p1, status := .married }) := by
  rw [show (addTouch newId p1 p2 i q).marriages.getD [] =
      (((if i = p2 then addMarriageIfAbsent p1 else id)
        ((if i = p1 then addMarriageIfAbsent p2 else id) q)).marriages.getD []) from by
    rw [addTouch_marriages_eq]]
  by_cases h1 : i = p1 <;> by_cases h2 : i = p2
  · have hp12 : p1 = p2 := h1.symm.trans h2
    simp only [if_pos h1, if_pos h2]
    rw [mem_addMarriageIfAbsent]
    have hany : ((addMarriageIfAbsent p2 q).marriages.getD []).any
        (fun mm => mm.spouseId = p1) := by
      rw [hp12]
      exact addMarriageIfAbsent_any_self p2 q
    constructor
    · rintro (hm | ⟨hno, _⟩)
      · rcases (mem_addMarriageIfAbsent p2 q m).mp hm with hm' | ⟨hno', hdef⟩
        · exact Or.inl hm'
        · exact Or.inr (Or.inl ⟨h1, hno', hdef⟩)
      · exact absurd hany hno
    · rintro (hm | ⟨_, hno, hdef⟩ | ⟨_, hne, _, _⟩)
      · exact Or.inl ((mem_addMarriageIfAbsent p2 q m).mpr (Or.inl hm))
      · exact Or.inl ((mem_addMarriageIfAbsent p2 q m).mpr (Or.inr ⟨hno, hdef⟩))
      · exact absurd hp12 hne
  · simp only [if_pos h1, if_neg h2, id]
    rw [mem_addMarriageIfAbsent]
    constructor
    · rintro (hm | ⟨hno, hdef⟩)
      · exact Or.inl hm
      · exact Or.inr (Or.inl ⟨h1, hno, hdef⟩)
    · rintro (hm | ⟨_, hno, hdef⟩ | ⟨hc, _, _, _⟩)
      · exact Or.inl hm
      · exact Or.inr ⟨hno, hdef⟩
      · exact absurd hc h2
  · simp only [if_neg h1, if_pos h2, id]
    rw [mem_addMarriageIfAbsent]
    have hne : ¬ (p1 = p2) := by
      intro hc
      exact h1 (h2.trans hc.symm)
    constructor
    · rintro (hm | ⟨hno, hdef⟩)
      · exact Or.inl hm
      · exact Or.inr (Or.inr ⟨h2, hne, hno, hdef⟩)
    · rintro (hm | ⟨hc, _, _⟩ | ⟨_, _, hno, hdef⟩)
      · exact Or.inl hm
      · exact absurd hc h1
      · exact Or.inr ⟨hno, hdef⟩
  · simp only [if_neg h1, if_neg h2, id]
    constructor
    · exact fun hm => Or.inl hm
    · rintro (hm | ⟨hc, _, _⟩ | ⟨hc, _, _, _⟩)
      · exact hm
      · exact absurd hc h1
      · exact absurd hc h2

theorem eq_of_mem_ids_nodup {ps : List Person} (hnd : idsNodup ps) {a b : Person}
    (ha : a ∈ ps) (hb : b ∈ ps) (hid : a.id = b.id) : a = b := by
  have h1 := (mem_iff_find?_nodup hnd).mp ha
  have h2 := (mem_iff_find?_nodup hnd).mp hb
  rw [hid, h2] at h1
  exact (Option.some.inj h1).symm

theorem any_spouse_of_mem {ms : List Marriage} {m : Marriage} {s : String}
    (hm : m ∈ ms) (hs : m.spouseId = s) :
    ms.any (fun mm => mm.spouseId = s) := by
  exact List.any_eq_true.mpr ⟨m, hm, by simp [hs]⟩

theorem exists_spouse_of_any {ms : List Marriage} {s : String}
    (h : ms.any (fun mm => mm.spouseId = s)) :
    ∃ mm ∈ ms, mm.spouseId = s := by
  obtain ⟨mm, hmm, hs⟩ := List.any_eq_true.mp h
  exact ⟨mm, hmm, by simpa using hs⟩

theorem childParentSym_addTwo_aux {ps T : List Person} {newId p1 p2 : String}
    {pd : PersonData} (tf : String → Person → Person)
    (hcp : childParentSym ps) (hfresh : FreshId newId ps)
    (hp1 : p1 ≠ newId) (hp2 : p2 ≠ newId)
    (hpid : pd.parentIds = some [p1, p2])
    (horig : ∀ a ∈ T, ∃ a0 ∈ ps ++ [pd.toPerson newId], a0.id = a.id ∧ a = tf a0.id a0)
    (htfpar : ∀ i q, (tf i q).parentIds = q.parentIds)
    (htfch : ∀ i q c, c ∈ (tf i q).childrenIds.getD [] ↔
      c ∈ q.childrenIds.getD [] ∨ ((i = p1 ∨ i = p2) ∧ c = newId)) :
    childParentSym T := by
  have hnewparents : (pd.toPerson newId).parentIds.getD [] = [p1, p2] := by
    show (pd.parentIds).getD [] = [p1, p2]
    rw [hpid]
    rfl
  have hnewch : (pd.toPerson newId).childrenIds.getD [] = [] := rfl
  have hnewid : (pd.toPerson newId).id = newId := rfl
  intro a ha b hb
  obtain ⟨a0, ha0, ha0id, haT⟩ := horig a ha
  obtain ⟨b0, hb0, hb0id, hbT⟩ := horig b hb
  have hach : ∀ c, (c ∈ a.childrenIds.getD [] ↔
      c ∈ a0.childrenIds.getD [] ∨ ((a0.id = p1 ∨ a0.id = p2) ∧ c = newId)) := by
    intro c
    conv_lhs => rw [haT]
    exact htfch a0.id a0 c
  have hbpar : b.parentIds = b0.parentIds := by
    conv_lhs => rw [hbT]
    exact htfpar b0.id b0
  rw [hach b.id, hbpar, ← ha0id, ← hb0id]
  rcases List.mem_append.mp ha0 with ha0' | ha0' <;>
    rcases List.mem_append.mp hb0 with hb0' | hb0'
  · have hbne : b0.id ≠ newId := (hfresh b0 hb0').1
    constructor
    · rintro (hmem | ⟨_, hc⟩)
      · exact (hcp a0 ha0' b0 hb0').mp hmem
      · exact absurd hc hbne
    · intro hmem
      exact Or.inl ((hcp a0 ha0' b0 hb0').mpr hmem)
  · rcases List.mem_singleton.mp hb0' with rfl
    rw [hnewid, hnewparents]
    constructor
    · rintro (hmem | ⟨hc, _⟩)
      · exact absurd hmem (hfresh a0 ha0').2.2.1
      · simpa using hc
    · intro hmem
      refine Or.inr ⟨?_, rfl⟩
      simpa using hmem
  · rcases List.mem_singleton.mp ha0' with rfl
    rw [hnewid, hnewch]
    constructor
    · rintro (hmem | ⟨hc, _⟩)
      · simp at hmem
      · rcases hc with hc | hc
        · exact absurd hc.symm hp1
        · exact absurd hc.symm hp2
    · intro hmem
      exact absurd hmem (hfresh b0 hb0').2.1
  · rcases List.mem_singleton.mp ha0' with rfl
    rcases List.mem_singleton.mp hb0' with rfl
    rw [hnewid, hnewch, hnewparents]
    constructor
    · rintro (hmem | ⟨hc, _⟩)
      · simp at hmem
      · rcases hc with hc | hc
        · exact absurd hc.symm hp1
        · exact absurd hc.symm hp2
    · intro hmem
      rcases (by simpa using hmem : newId = p1 ∨ newId = p2) with hc | hc
      · exact absurd hc.symm hp1
      · exact absurd hc.symm hp2

theorem marriageSym_addTwo_res_aux {ps T : List Person} {newId p1 p2 : String}
    {pd : PersonData}
    (hnd' : idsNodup (ps ++ [pd.toPerson newId]))
    (hms : marriageSym ps) (hfresh : FreshId newId ps)
    (hp1 : p1 ≠ newId) (hp2 : p2 ≠ newId)
    (horig : ∀ a ∈ T, ∃ a0 ∈ ps ++ [pd.toPerson newId], a0.id = a.id ∧
      a = addTouch newId p1 p2 a0.id a0) :
    marriageSym T := by
  intro a ha b hb m hm hsp
  obtain ⟨a0, ha0, ha0id, haT⟩ := horig a ha
  obtain ⟨b0, hb0, hb0id, hbT⟩ := horig b hb
  rw [haT] at hm
  have hbmem : ∀ m', m' ∈ b.marriages.getD [] ↔
      m' ∈ b0.marriages.getD [] ∨
        (b0.id = p1 ∧ ¬ ((b0.marriages.getD []).any (fun mm => mm.spouseId = p2)) ∧
          m' = { spouseId := p2, status := .married }) ∨
        (b0.id = p2 ∧ ¬ (p1 = p2) ∧
          ¬ ((b0.marriages.getD []).any (fun mm => mm.spouseId = p1)) ∧
          m' = { spouseId := p1, status := .married }) := by
    intro m'
    conv_lhs => rw [hbT]
    exact mem_addTouch_marriages newId p1 p2 b0.id b0 m'
  rcases (mem_addTouch_marriages newId p1 p2 a0.id a0 m).mp hm with
    hm0 | ⟨hap1, hano, hmdef⟩ | ⟨hap2, hpp, hano, hmdef⟩
  · -- pre-existing marriage entry of a0
    rcases List.mem_append.mp ha0 with ha0' | ha0'
    · rcases List.mem_append.mp hb0 with hb0' | hb0'
      · obtain ⟨m', hm', hsp', hst, hdt, hpl⟩ :=
          hms a0 ha0' b0 hb0' m hm0 (hsp.trans hb0id.symm)
        exact ⟨m', (hbmem m').mpr (Or.inl hm'), hsp'.trans ha0id, hst, hdt, hpl⟩
      · rcases List.mem_singleton.mp hb0' with rfl
        have : m.spouseId = newId := hsp.trans hb0id.symm
        exact absurd this ((hfresh a0 ha0').2.2.2 m hm0)
    · rcases List.mem_singleton.mp ha0' with rfl
      simp [PersonData.toPerson] at hm0
  · -- a gained the default entry pointing at p2
    have hbid : b0.id = p2 := by
      rw [hb0id, ← hsp, hmdef]
    have ha0ps : a0 ∈ ps := by
      rcases List.mem_append.mp ha0 with h | h
      · exact h
      · rcases List.mem_singleton.mp h with rfl
        exact absurd hap1.symm hp1
    by_cases hpp : p1 = p2
    · have hab : a0 = b0 :=
        eq_of_mem_ids_nodup hnd' ha0 hb0 (by rw [hap1, hpp, hbid])
      refine ⟨{ spouseId := p2, status := .married }, ?_, ?_, ?_, ?_, ?_⟩
      · refine (hbmem _).mpr (Or.inr (Or.inl ?_))
        rw [← hab]
        exact ⟨hap1, hano, rfl⟩
      · show p2 = a.id
        rw [← ha0id, hap1, hpp]
      · rw [hmdef]
      · rw [hmdef]
      · rw [hmdef]
    · have hb0ps : b0 ∈ ps := by
        rcases List.mem_append.mp hb0 with h | h
        · exact h
        · rcases List.mem_singleton.mp h with rfl
          exact absurd hbid.symm hp2
      have hbno : ¬ ((b0.marriages.getD []).any (fun mm => mm.spouseId = p1)) := by
        intro hany
        obtain ⟨mm, hmm, hmmsp⟩ := exists_spouse_of_any hany
        obtain ⟨mm', hmm', hmmsp', _⟩ :=
          hms b0 hb0ps a0 ha0ps mm hmm (by rw [hmmsp, hap1])
        exact hano (any_spouse_of_mem hmm' (by rw [hmmsp', hbid]))
      refine ⟨{ spouseId := p1, status := .married }, ?_, ?_, ?_, ?_, ?_⟩
      · exact (hbmem _).mpr (Or.inr (Or.inr ⟨hbid, hpp, hbno, rfl⟩))
      · show p1 = a.id
        rw [← ha0id, hap1]
      · rw [hmdef]
      · rw [hmdef]
      · rw [hmdef]
  · -- a gained the default entry pointing at p1 (a at p2, p1 ≠ p2)
    have hbid : b0.id = p1 := by
      rw [hb0id, ← hsp, hmdef]
    have ha0ps : a0 ∈ ps := by
      rcases List.mem_append.mp ha0 with h | h
      · exact h
      · rcases List.mem_singleton.mp h with rfl
        exact absurd hap2.symm hp2
    have hb0ps : b0 ∈ ps := by
      rcases List.mem_append.mp hb0 with h | h
      · exact h
      · rcases List.mem_singleton.mp h with rfl
        exact absurd hbid.symm hp1
    have hbno : ¬ ((b0.marriages.getD []).any (fun mm => mm.spouseId = p2)) := by
      intro hany
      obtain ⟨mm, hmm, hmmsp⟩ := exists_spouse_of_any hany
      obtain ⟨mm', hmm', hmmsp', _⟩ :=
        hms b0 hb0ps a0 ha0ps mm hmm (by rw [hmmsp, hap2])
      exact hano (any_spouse_of_mem hmm' (by rw [hmmsp', hbid]))
    refine ⟨{ spouseId := p2, status := .married }, ?_, ?_, ?_, ?_, ?_⟩
    · exact (hbmem _).mpr (Or.inr (Or.inl ⟨hbid, hbno, rfl⟩))
    · show p2 = a.id
      rw [← ha0id, hap2]
    · rw [hmdef]
    · rw [hmdef]
    · rw [hmdef]

theorem marriageSym_addTwo_unres_aux {ps T : List Person} {newId p1 p2 : String}
    {pd : PersonData}
    (hms : marriageSym ps) (hfresh : FreshId newId ps)
    (horig : ∀ a ∈ T, ∃ a0 ∈ ps ++ [pd.toPerson newId], a0.id = a.id ∧
      a = addTouchNoSpouse newId p1 p2 a0.id a0) :
    marriageSym T := by
  intro a ha b hb m hm hsp
  obtain ⟨a0, ha0, ha0id, haT⟩ := horig a ha
  obtain ⟨b0, hb0, hb0id, hbT⟩ := horig b hb
  rw [haT] at hm
  rw [show (addTouchNoSpouse newId p1 p2 a0.id a0).marriages = a0.marriages from
    addTouchNoSpouse_marriages newId p1 p2 a0.id a0] at hm
  rcases List.mem_append.mp ha0 with ha0' | ha0'
  · rcases List.mem_append.mp hb0 with hb0' | hb0'
    · obtain ⟨m', hm', hsp', hst, hdt, hpl⟩ :=
        hms a0 ha0' b0 hb0' m hm (hsp.trans hb0id.symm)
      refine ⟨m', ?_, hsp'.trans ha0id, hst, hdt, hpl⟩
      rw [hbT, show (addTouchNoSpouse newId p1 p2 b0.id b0).marriages = b0.marriages from
        addTouchNoSpouse_marriages newId p1 p2 b0.id b0]
      exact hm'
    · rcases List.mem_singleton.mp hb0' with rfl
      have : m.spouseId = newId := hsp.trans hb0id.symm
      exact absurd this ((hfresh a0 ha0').2.2.2 m hm)
  · rcases List.mem_singleton.mp ha0' with rfl
    simp [PersonData.toPerson] at hm

theorem WFState_addPerson_two {ps : List Person} {newId : String} {pd : PersonData}
    {p1 p2 : String}
    (hwf : WFState ps) (hfresh : FreshId newId ps)
    (hpid : pd.parentIds = some [p1, p2])
    (hnp : newId ∉ pd.parentIds.getD []) :
    WFState (addPerson newId pd ps) := by
  obtain ⟨hnd, hmn, hcp, hms⟩ : idsNodup ps ∧ marriagesNodup ps ∧ childParentSym ps ∧ marriageSym ps :=
    ⟨hwf.1, hwf.2.1, hwf.2.2.1, hwf.2.2.2⟩
  have hnp' : newId ∉ [p1, p2] := by
    rw [hpid] at hnp
    simpa using hnp
  have hp1 : p1 ≠ newId := by
    intro hc
    exact hnp' (by simp [hc])
  have hp2 : p2 ≠ newId := by
    intro hc
    exact hnp' (by simp [hc])
  have hnd' : idsNodup (ps ++ [pd.toPerson newId]) :=
    idsNodup_append_new hnd (fun p hp => (hfresh p hp).1)
  have hmn' : marriagesNodup (ps ++ [pd.toPerson newId]) := by
    intro p hp
    rcases List.mem_append.mp hp with h | h
    · exact hmn p h
    · rcases List.mem_singleton.mp h with rfl
      simp [PersonData.toPerson]
  rw [addPerson_eq_two hpid]
  by_cases hres : ((ps ++ [pd.toPerson newId]).find? (fun p => p.id = p1)).isNone
      ∨ ((ps ++ [pd.toPerson newId]).find? (fun p => p.id = p2)).isNone
  · rw [addSpouseRelationship_eq_unres hres]
    have hmapT : (addChildToParent newId p2 (addChildToParent newId p1
        (ps ++ [pd.toPerson newId]))).map (fun p => p.id) =
        (ps ++ [pd.toPerson newId]).map (fun p => p.id) := by
      simp only [addChildToParent]
      rw [updateFirst_map_id (addChildIfAbsent_id newId),
        updateFirst_map_id (addChildIfAbsent_id newId)]
    have hndT : idsNodup (addChildToParent newId p2 (addChildToParent newId p1
        (ps ++ [pd.toPerson newId]))) := idsNodup_of_map_eq hmapT hnd'
    have horig : ∀ a ∈ addChildToParent newId p2 (addChildToParent newId p1
        (ps ++ [pd.toPerson newId])),
        ∃ a0 ∈ ps ++ [pd.toPerson newId], a0.id = a.id ∧
          a = addTouchNoSpouse newId p1 p2 a0.id a0 := by
      intro a ha
      have hfa := (mem_iff_find?_nodup hndT).mp ha
      rw [find?_addTwo_unres a.id] at hfa
      rcases hfa2 : (ps ++ [pd.toPerson newId]).find? (fun p => p.id = a.id) with _ | a0
      · rw [hfa2] at hfa
        cases hfa
      · rw [hfa2] at hfa
        simp only [Option.map_some'] at hfa
        have ha0id : a0.id = a.id := find?_id_of_eq_some hfa2
        refine ⟨a0, List.mem_of_find?_eq_some hfa2, ha0id, ?_⟩
        rw [← ha0id] at hfa
        exact (Option.some.inj hfa).symm
    refine ⟨hndT, ?_, ?_, ?_⟩
    · intro p hp
      obtain ⟨p0, hp0, hp0id, hpT⟩ := horig p hp
      rw [hpT, show (addTouchNoSpouse newId p1 p2 p0.id p0).marriages = p0.marriages from
        addTouchNoSpouse_marriages newId p1 p2 p0.id p0]
      exact hmn' p0 hp0
    · exact childParentSym_addTwo_aux (addTouchNoSpouse newId p1 p2) hcp hfresh hp1 hp2 hpid
        horig (addTouchNoSpouse_parentIds newId p1 p2) (mem_addTouchNoSpouse_children newId p1 p2)
    · exact marriageSym_addTwo_unres_aux hms hfresh horig
  · rw [addSpouseRelationship_eq_res hres]
    have hmapT : (addChildToParent newId p2 (addChildToParent newId p1
        (updateFirst p2 (addMarriageIfAbsent p1)
          (updateFirst p1 (addMarriageIfAbsent p2) (ps ++ [pd.toPerson newId]))))).map (fun p => p.id) =
        (ps ++ [pd.toPerson newId]).map (fun p => p.id) := by
      simp only [addChildToParent]
      rw [updateFirst_map_id (addChildIfAbsent_id newId),
        updateFirst_map_id (addChildIfAbsent_id newId),
        updateFirst_map_id (addMarriageIfAbsent_id p1),
        updateFirst_map_id (addMarriageIfAbsent_id p2)]
    have hndT : idsNodup (addChildToParent newId p2 (addChildToParent newId p1
        (updateFirst p2 (addMarriageIfAbsent p1)
          (updateFirst p1 (addMarriageIfAbsent p2) (ps ++ [pd.toPerson newId]))))) :=
      idsNodup_of_map_eq hmapT hnd'
    have horig : ∀ a ∈ addChildToParent newId p2 (addChildToParent newId p1
        (updateFirst p2 (addMarriageIfAbsent p1)
          (updateFirst p1 (addMarriageIfAbsent p2) (ps ++ [pd.toPerson newId])))),
        ∃ a0 ∈ ps ++ [pd.toPerson newId], a0.id = a.id ∧
          a = addTouch newId p1 p2 a0.id a0 := by
      intro a ha
      have hfa := (mem_iff_find?_nodup hndT).mp ha
      rw [find?_addTwo_res a.id] at hfa
      rcases hfa2 : (ps ++ [pd.toPerson newId]).find? (fun p => p.id = a.id) with _ | a0
      · rw [hfa2] at hfa
        cases hfa
      · rw [hfa2] at hfa
        simp only [Option.map_some'] at hfa
        have ha0id : a0.id = a.id := find?_id_of_eq_some hfa2
        refine ⟨a0, List.mem_of_find?_eq_some hfa2, ha0id, ?_⟩
        rw [← ha0id] at hfa
        exact (Option.some.inj hfa).symm
    refine ⟨hndT, ?_, ?_, ?_⟩
    · intro p hp
      obtain ⟨p0, hp0, hp0id, hpT⟩ := horig p hp
      rw [hpT]
      exact addTouch_marriagesNodup newId p1 p2 p0.id p0 (hmn' p0 hp0)
    · exact childParentSym_addTwo_aux (addTouch newId p1 p2) hcp hfresh hp1 hp2 hpid
        horig (addTouch_parentIds newId p1 p2) (mem_addTouch_children newId p1 p2)
    · exact marriageSym_addTwo_res_aux hnd' hms hfresh hp1 hp2 horig

theorem WFState_addPerson {ps : List Person} {newId : String} {pd : PersonData}
    (hwf : WFState ps) (hfresh : FreshId newId ps)
    (hnp : newId ∉ pd.parentIds.getD [])
    (hlen : (pd.parentIds.getD []).length = 0 ∨ (pd.parentIds.getD []).length = 2) :
    WFState (addPerson newId pd ps) := by
  rcases hlen with hlen | hlen
  · refine WFState_addPerson_plain hwf hfresh hlen ?_
    intro q1 q2 hc
    rw [hc] at hlen
    simp at hlen
  · rcases hpd : pd.parentIds with _ | l
    · rw [hpd] at hlen
      simp at hlen
    · rw [hpd] at hlen
      simp only [Option.getD_some] at hlen
      rcases l with _ | ⟨x1, l⟩
      · simp at hlen
      · rcases l with _ | ⟨x2, l⟩
        · simp at hlen
        · rcases l with _ | ⟨x3, l⟩
          · exact WFState_addPerson_two hwf hfresh hpd hnp
          · simp at hlen

theorem find?_addSpouseRelationship_res {a b : String} {ps : List Person}
    (h : ¬ ((ps.find? (fun p => p.id = a)).isNone ∨ (ps.find? (fun p => p.id = b)).isNone))
    (i : String) :
    (addSpouseRelationship a b ps).find? (fun p => p.id = i) =
      (ps.find? (fun p => p.id = i)).map (spouseTouch a b i) := by
  rw [addSpouseRelationship_eq_res h]
  rw [find?_updateFirst' _ (addMarriageIfAbsent_id a) b i,
    find?_updateFirst' _ (addMarriageIfAbsent_id b) a i, Option.map_map]
  rfl

theorem spouseTouch_id (a b i : String) (q : Person) : (spouseTouch a b i q).id = q.id := by
  unfold spouseTouch
  dsimp only
  split_ifs <;> simp [addMarriageIfAbsent_id]

theorem spouseTouch_parentIds (a b i : String) (q : Person) :
    (spouseTouch a b i q).parentIds = q.parentIds := by
  unfold spouseTouch
  dsimp only
  split_ifs <;> simp [addMarriageIfAbsent_parentIds]

theorem spouseTouch_childrenIds (a b i : String) (q : Person) :
    (spouseTouch a b i q).childrenIds = q.childrenIds := by
  unfold spouseTouch
  dsimp only
  split_ifs <;> simp [addMarriageIfAbsent_childrenIds]

theorem mem_spouseTouch_marriages (a b i : String) (q : Person) (m : Marriage) :
    m ∈ (spouseTouch a b i q).marriages.getD [] ↔
      m ∈ q.marriages.getD [] ∨
        (i = a ∧ ¬ ((q.marriages.getD []).any (fun mm => mm.spouseId = b)) ∧
          m = { spouseId := b, status := .married }) ∨
        (i = b ∧ ¬ (a = b) ∧ ¬ ((q.marriages.getD []).any (fun mm => mm.spouseId = a)) ∧
          m = { spouseId := a, status := .married }) := by
  unfold spouseTouch
  dsimp only
  by_cases h1 : i = a <;> by_cases h2 : i = b
  · have hab : a = b := h1.symm.trans h2
    rw [if_pos h1, if_pos h2]
    rw [mem_addMarriageIfAbsent]
    have hany : ((addMarriageIfAbsent b q).marriages.getD []).any
        (fun mm => mm.spouseId = a) := by
      rw [hab]
      exact addMarriageIfAbsent_any_self b q
    constructor
    · rintro (hm | ⟨hno, _⟩)
      · rcases (mem_addMarriageIfAbsent b q m).mp hm with hm' | ⟨hno', hdef⟩
        · exact Or.inl hm'
        · exact Or.inr (Or.inl ⟨h1, hno', hdef⟩)
      · exact absurd hany hno
    · rintro (hm | ⟨_, hno, hdef⟩ | ⟨_, hne, _, _⟩)
      · exact Or.inl ((mem_addMarriageIfAbsent b q m).mpr (Or.inl hm))
      · exact Or.inl ((mem_addMarriageIfAbsent b q m).mpr (Or.inr ⟨hno, hdef⟩))
      · exact absurd hab hne
  · rw [if_pos h1, if_neg h2]
    rw [mem_addMarriageIfAbsent]
    constructor
    · rintro (hm | ⟨hno, hdef⟩)
      · exact Or.inl hm
      · exact Or.inr (Or.inl ⟨h1, hno, hdef⟩)
    · rintro (hm | ⟨_, hno, hdef⟩ | ⟨hc, _, _, _⟩)
      · exact Or.inl hm
      · exact Or.inr ⟨hno, hdef⟩
      · exact absurd hc h2
  · rw [if_neg h1, if_pos h2]
    rw [mem_addMarriageIfAbsent]
    have hne : ¬ (a = b) := by
      intro hc
      exact h1 (h2.trans hc.symm)
    constructor
    · rintro (hm | ⟨hno, hdef⟩)
      · exact Or.inl hm
      · exact Or.inr (Or.inr ⟨h2, hne, hno, hdef⟩)
    · rintro (hm | ⟨hc, _, _⟩ | ⟨_, _, hno, hdef⟩)
      · exact Or.inl hm
      · exact absurd hc h1
      · exact Or.inr ⟨hno, hdef⟩
  · rw [if_neg h1, if_neg h2]
    constructor
    · exact fun hm => Or.inl hm
    · rintro (hm | ⟨hc, _, _⟩ | ⟨hc, _, _, _⟩)
      · exact hm
      · exact absurd hc h1
      · exact absurd hc h2

theorem spouseTouch_marriagesNodup (a b i : String) (q : Person)
    (h : ((q.marriages.getD []).map (fun m => m.spouseId)).Nodup) :
    (((spouseTouch a b i q).marriages.getD []).map (fun m => m.spouseId)).Nodup := by
  unfold spouseTouch
  dsimp only
  split_ifs <;>
    first
    | exact map_spouseId_addMarriageIfAbsent_nodup _ _
        (map_spouseId_addMarriageIfAbsent_nodup _ _ h)
    | exact map_spouseId_addMarriageIfAbsent_nodup _ _ h
    | exact h

theorem addSpouseRelationship_map_id (a b : String) (ps : List Person) :
    (addSpouseRelationship a b ps).map (fun p => p.id) = ps.map (fun p => p.id) := by
  by_cases h : ((ps.find? (fun p => p.id = a)).isNone ∨ (ps.find? (fun p => p.id = b)).isNone)
  · rw [addSpouseRelationship_eq_unres h]
  · rw [addSpouseRelationship_eq_res h]
    rw [updateFirst_map_id (addMarriageIfAbsent_id a),
      updateFirst_map_id (addMarriageIfAbsent_id b)]

theorem marriageSym_addSpouseRelationship {ps : List Person} (a b : String)
    (hnd : idsNodup ps) (hms : marriageSym ps) :
    marriageSym (addSpouseRelationship a b ps) := by
  by_cases hres : ((ps.find? (fun p => p.id = a)).isNone ∨ (ps.find? (fun p => p.id = b)).isNone)
  · rw [addSpouseRelationship_eq_unres hres]
    exact hms
  · have hndT : idsNodup (addSpouseRelationship a b ps) :=
      idsNodup_of_map_eq (addSpouseRelationship_map_id a b ps) hnd
    have horig : ∀ x ∈ addSpouseRelationship a b ps,
        ∃ x0 ∈ ps, x0.id = x.id ∧ x = spouseTouch a b x0.id x0 := by
      intro x hx
      have hfx := (mem_iff_find?_nodup hndT).mp hx
      rw [find?_addSpouseRelationship_res hres x.id] at hfx
      rcases hfx2 : ps.find? (fun p => p.id = x.id) with _ | x0
      · rw [hfx2] at hfx
        cases hfx
      · rw [hfx2] at hfx
        simp only [Option.map_some'] at hfx
        have hx0id : x0.id = x.id := find?_id_of_eq_some hfx2
        refine ⟨x0, List.mem_of_find?_eq_some hfx2, hx0id, ?_⟩
        rw [← hx0id] at hfx
        exact (Option.some.inj hfx).symm
    intro x hx y hy m hm hsp
    obtain ⟨x0, hx0, hx0id, hxT⟩ := horig x hx
    obtain ⟨y0, hy0, hy0id, hyT⟩ := horig y hy
    rw [hxT] at hm
    have hymem : ∀ m', m' ∈ y.marriages.getD [] ↔
        m' ∈ y0.marriages.getD [] ∨
          (y0.id = a ∧ ¬ ((y0.marriages.getD []).any (fun mm => mm.spouseId = b)) ∧
            m' = { spouseId := b, status := .married }) ∨
          (y0.id = b ∧ ¬ (a = b) ∧
            ¬ ((y0.marriages.getD []).any (fun mm => mm.spouseId = a)) ∧
            m' = { spouseId := a, status := .married }) := by
      intro m'
      conv_lhs => rw [hyT]
      exact mem_spouseTouch_marriages a b y0.id y0 m'
    rcases (mem_spouseTouch_marriages a b x0.id x0 m).mp hm with
      hm0 | ⟨hxa, hano, hmdef⟩ | ⟨hxb, hab, hano, hmdef⟩
    · obtain ⟨m', hm', hsp', hst, hdt, hpl⟩ :=
        hms x0 hx0 y0 hy0 m hm0 (hsp.trans hy0id.symm)
      exact ⟨m', (hymem m').mpr (Or.inl hm'), hsp'.trans hx0id, hst, hdt, hpl⟩
    · have hyb : y0.id = b := by
        rw [hy0id, ← hsp, hmdef]
      by_cases hab : a = b
      · have hxy : x0 = y0 := eq_of_mem_ids_nodup hnd hx0 hy0 (by rw [hxa, hab, hyb])
        refine ⟨{ spouseId := b, status := .married }, ?_, ?_, ?_, ?_, ?_⟩
        · refine (hymem _).mpr (Or.inr (Or.inl ?_))
          rw [← hxy]
          exact ⟨hxa, hano, rfl⟩
        · show b = x.id
          rw [← hx0id, hxa, hab]
        · rw [hmdef]
        · rw [hmdef]
        · rw [hmdef]
      · have hyno : ¬ ((y0.marriages.getD []).any (fun mm => mm.spouseId = a)) := by
          intro hany
          obtain ⟨mm, hmm, hmmsp⟩ := exists_spouse_of_any hany
          obtain ⟨mm', hmm', hmmsp', _⟩ :=
            hms y0 hy0 x0 hx0 mm hmm (by rw [hmmsp, hxa])
          exact hano (any_spouse_of_mem hmm' (by rw [hmmsp', hyb]))
        refine ⟨{ spouseId := a, status := .married }, ?_, ?_, ?_, ?_, ?_⟩
        · exact (hymem _).mpr (Or.inr (Or.inr ⟨hyb, hab, hyno, rfl⟩))
        · show a = x.id
          rw [← hx0id, hxa]
        · rw [hmdef]
        · rw [hmdef]
        · rw [hmdef]
    · have hya : y0.id = a := by
        rw [hy0id, ← hsp, hmdef]
      have hyno : ¬ ((y0.marriages.getD []).any (fun mm => mm.spouseId = b)) := by
        intro hany
        obtain ⟨mm, hmm, hmmsp⟩ := exists_spouse_of_any hany
        obtain ⟨mm', hmm', hmmsp', _⟩ :=
          hms y0 hy0 x0 hx0 mm hmm (by rw [hmmsp, hxb])
        exact hano (any_spouse_of_mem hmm' (by rw [hmmsp', hya]))
      refine ⟨{ spouseId := b, status := .married }, ?_, ?_, ?_, ?_, ?_⟩
      · exact (hymem _).mpr (Or.inr (Or.inl ⟨hya, hyno, rfl⟩))
      · show b = x.id
        rw [← hx0id, hxb]
      · rw [hmdef]
      · rw [hmdef]
      · rw [hmdef]

theorem marriagesNodup_addSpouseRelationship {ps : List Person} (a b : String)
    (hnd : idsNodup ps) (hmn : marriagesNodup ps) :
    marriagesNodup (addSpouseRelationship a b ps) := by
  by_cases hres : ((ps.find? (fun p => p.id = a)).isNone ∨ (ps.find? (fun p => p.id = b)).isNone)
  · rw [addSpouseRelationship_eq_unres hres]
    exact hmn
  · have hndT : idsNodup (addSpouseRelationship a b ps) :=
      idsNodup_of_map_eq (addSpouseRelationship_map_id a b ps) hnd
    intro x hx
    have hfx := (mem_iff_find?_nodup hndT).mp hx
    rw [find?_addSpouseRelationship_res hres x.id] at hfx
    rcases hfx2 : ps.find? (fun p => p.id = x.id) with _ | x0
    · rw [hfx2] at hfx
      cases hfx
    · rw [hfx2] at hfx
      simp only [Option.map_some'] at hfx
      have hx0 : x0 ∈ ps := List.mem_of_find?_eq_some hfx2
      rw [← (Option.some.inj hfx)]
      exact spouseTouch_marriagesNodup a b x.id x0 (hmn x0 hx0)

theorem addChildIfAbsent_idem (cid : String) (q : Person) :
    addChildIfAbsent cid (addChildIfAbsent cid q) = addChildIfAbsent cid q := by
  unfold addChildIfAbsent
  by_cases h : cid ∈ q.childrenIds.getD []
  · rw [if_pos h, if_pos h]
  · rw [if_neg h]
    rw [if_pos (by simp)]

/-- Generic transfer: if every person's marriage list is unchanged pointwise
(per id), `marriageSym` transfers. -/
theorem marriageSym_of_pointwise {ps T : List Person}
    (_hnd : idsNodup ps) (_hndT : idsNodup T)
    (hmem : ∀ x ∈ T, ∃ x0 ∈ ps, x0.id = x.id ∧ x.marriages = x0.marriages)
    (hms : marriageSym ps) : marriageSym T := by
  intro x hx y hy m hm hsp
  obtain ⟨x0, hx0, hx0id, hx0m⟩ := hmem x hx
  obtain ⟨y0, hy0, hy0id, hy0m⟩ := hmem y hy
  rw [hx0m] at hm
  obtain ⟨m', hm', hsp', hst, hdt, hpl⟩ := hms x0 hx0 y0 hy0 m hm (hsp.trans hy0id.symm)
  refine ⟨m', ?_, hsp'.trans hx0id, hst, hdt, hpl⟩
  rw [hy0m]
  exact hm'

theorem marriagesNodup_of_pointwise {ps T : List Person}
    (hmem : ∀ x ∈ T, ∃ x0 ∈ ps, x0.id = x.id ∧ x.marriages = x0.marriages)
    (hmn : marriagesNodup ps) : marriagesNodup T := by
  intro x hx
  obtain ⟨x0, hx0, _, hx0m⟩ := hmem x hx
  rw [hx0m]
  exact hmn x0 hx0

theorem find?_foldRem (personId : String) (oldP : List String) (ps : List Person) (i : String) :
    ((oldP.foldl (fun acc parentId => removeChildFromParent personId parentId acc) ps).find?
      (fun p => p.id = i)) =
      if i ∈ oldP then (ps.find? (fun p => p.id = i)).map (removeChildRef personId)
      else ps.find? (fun p => p.id = i) := by
  simp only [removeChildFromParent]
  exact find?_foldl_updateFirst_idem (removeChildRef personId) (fun _ => rfl)
    (removeChildRef_idem personId) i oldP ps

theorem find?_foldAdd (personId : String) (nP : List String) (ps : List Person) (i : String) :
    ((nP.foldl (fun acc parentId => addChildToParent personId parentId acc) ps).find?
      (fun p => p.id = i)) =
      if i ∈ nP then (ps.find? (fun p => p.id = i)).map (addChildIfAbsent personId)
      else ps.find? (fun p => p.id = i) := by
  simp only [addChildToParent]
  exact find?_foldl_updateFirst_idem (addChildIfAbsent personId) (addChildIfAbsent_id personId)
    (addChildIfAbsent_idem personId) i nP ps

theorem find?_parentBlock (personId : String) (oldP nP : List String) (ps : List Person)
    (i : String) (res : Bool)
    (hres_corr : ∀ a b, nP = [a, b] →
      (res = true ↔ ¬ ((ps.find? (fun p => p.id = a)).isNone
        ∨ (ps.find? (fun p => p.id = b)).isNone))) :
    ((nP.foldl (fun acc parentId => addChildToParent personId parentId acc)
      (spouseStep nP
        (oldP.foldl (fun acc parentId => removeChildFromParent personId parentId acc) ps))).find?
        (fun p => p.id = i)) =
      (ps.find? (fun p => p.id = i)).map (parentTouch personId res oldP nP i) := by
  unfold spouseStep
  have hrem : ∀ j, ((oldP.foldl (fun acc parentId =>
      removeChildFromParent personId parentId acc) ps).find? (fun p => p.id = j)) =
      if j ∈ oldP then (ps.find? (fun p => p.id = j)).map (removeChildRef personId)
      else ps.find? (fun p => p.id = j) := fun j => find?_foldRem personId oldP ps j
  have hremNone : ∀ j, ((oldP.foldl (fun acc parentId =>
      removeChildFromParent personId parentId acc) ps).find? (fun p => p.id = j)).isNone =
      ((ps.find? (fun p => p.id = j)).isNone) := by
    intro j
    rw [hrem j]
    by_cases h : j ∈ oldP
    · rw [if_pos h]
      cases ps.find? (fun p => p.id = j) <;> rfl
    · rw [if_neg h]
  revert hres_corr
  rcases hnp : nP with _ | ⟨a, l⟩ <;>
    [skip; rcases l with _ | ⟨b, l⟩] <;>
    [skip; skip; rcases l with _ | ⟨c, l⟩] <;>
    intro hres_corr
  · rw [find?_foldAdd]
    simp only [List.not_mem_nil, if_false, if_neg (fun h => List.not_mem_nil i h)]
    rw [hrem i]
    unfold parentTouch
    by_cases h : i ∈ oldP <;> cases hps : ps.find? (fun p => p.id = i) <;>
      simp [h, hps, apply_ite Option.some]
  · rw [find?_foldAdd, hrem i]
    unfold parentTouch
    by_cases h1 : i ∈ ([a] : List String) <;> by_cases h : i ∈ oldP <;>
      cases hps : ps.find? (fun p => p.id = i) <;>
      simp [h1, h, hps, apply_ite Option.some]
  · -- the [a, b] case
    dsimp only
    by_cases hcond : ((ps.find? (fun p => p.id = a)).isNone
        ∨ (ps.find? (fun p => p.id = b)).isNone)
    · have hresF : res = false := by
        rcases res with _ | _
        · rfl
        · exact absurd hcond ((hres_corr a b rfl).mp rfl)
      have hres2 : (((oldP.foldl (fun acc parentId =>
          removeChildFromParent personId parentId acc) ps).find?
            (fun p => p.id = a)).isNone ∨
          ((oldP.foldl (fun acc parentId =>
            removeChildFromParent personId parentId acc) ps).find?
            (fun p => p.id = b)).isNone) := by
        rcases hcond with h | h
        · exact Or.inl (by rw [hremNone a]; exact h)
        · exact Or.inr (by rw [hremNone b]; exact h)
      rw [find?_foldAdd, addSpouseRelationship_eq_unres hres2, hrem i]
      unfold parentTouch
      rw [hresF]
      by_cases h1 : i ∈ ([a, b] : List String) <;> by_cases h : i ∈ oldP <;>
        cases hps : ps.find? (fun p => p.id = i) <;>
        simp [h1, h, hps, apply_ite Option.some]
    · have hresT : res = true := (hres_corr a b rfl).mpr hcond
      have hres2 : ¬ ((((oldP.foldl (fun acc parentId =>
          removeChildFromParent personId parentId acc) ps).find?
            (fun p => p.id = a)).isNone) ∨
          (((oldP.foldl (fun acc parentId =>
            removeChildFromParent personId parentId acc) ps).find?
            (fun p => p.id = b)).isNone)) := by
        intro hc
        refine hcond ?_
        rcases hc with h | h
        · exact Or.inl (by rw [← hremNone a]; exact h)
        · exact Or.inr (by rw [← hremNone b]; exact h)
      rw [find?_foldAdd, find?_addSpouseRelationship_res hres2, hrem i]
      unfold parentTouch
      rw [hresT]
      by_cases h1 : i ∈ ([a, b] : List String) <;> by_cases h : i ∈ oldP <;>
        cases hps : ps.find? (fun p => p.id = i) <;>
        simp [h1, h, hps, apply_ite Option.some]
  · rw [find?_foldAdd, hrem i]
    unfold parentTouch
    by_cases h1 : i ∈ (a :: b :: c :: l) <;> by_cases h : i ∈ oldP <;>
      cases hps : ps.find? (fun p => p.id = i) <;>
      simp [h1, h, hps, apply_ite Option.some]

theorem updatePerson_eq {ps : List Person} {pid : String} {u : PersonUpdate} {old : Person}
    (hfind : ps.find? (fun p => p.id = pid) = some old) :
    updatePerson pid u ps =
      updateFirst pid
        (fun _ => mergePerson
          (((mStage pid u (((pStage pid u old ps).find? (fun p => p.id = pid)).getD old)
              (pStage pid u old ps)).find? (fun p => p.id = pid)).getD old) u)
        (mStage pid u (((pStage pid u old ps).find? (fun p => p.id = pid)).getD old)
          (pStage pid u old ps)) := by
  unfold updatePerson
  rw [hfind]

theorem find?_pStage (pid : String) (u : PersonUpdate) (old : Person) (res : Bool)
    (ps : List Person)
    (hres_corr : ∀ a b, (updKey u.parentIds) = some [a, b] → ¬ old.parentIds = some [a, b] →
      (res = true ↔ ¬ ((ps.find? (fun p => p.id = a)).isNone
        ∨ (ps.find? (fun p => p.id = b)).isNone)))
    (j : String) :
    (pStage pid u old ps).find? (fun p => p.id = j) =
      (ps.find? (fun p => p.id = j)).map (parentTouchU pid u old res j) := by
  unfold pStage parentTouchU
  rcases hup : (updKey u.parentIds) with _ | nP
  · cases hps : ps.find? (fun p => p.id = j) <;> simp [hps]
  · by_cases heq : old.parentIds = some nP
    · simp only [if_pos heq]
      cases hps : ps.find? (fun p => p.id = j) <;> simp [hps]
    · simp only [if_neg heq]
      refine find?_parentBlock pid (old.parentIds.getD []) nP ps j res ?_
      intro a b hab
      exact hres_corr a b (by rw [hup, hab]) (hab ▸ heq)

theorem find?_marriageBlock (personId : String) (removed : List String)
    (newMs : List Marriage) (ps : List Person) (i : String)
    (hK : (newMs.map (fun m => m.spouseId)).Nodup) :
    ((newMs.foldl (fun acc m => updateFirst m.spouseId (setReciprocalMarriage personId m) acc)
      (removed.foldl (fun acc spouseId => updateFirst spouseId (removeMarriageTo personId) acc)
        ps)).find? (fun p => p.id = i)) =
      (ps.find? (fun p => p.id = i)).map (marriageTouch personId removed newMs i) := by
  rw [find?_foldl_updateFirst_keyed (fun m => m.spouseId)
      (fun m => setReciprocalMarriage personId m)
      (fun m p => setReciprocalMarriage_id personId m p) i newMs _ hK]
  rw [find?_foldl_updateFirst_idem (removeMarriageTo personId)
      (fun p => rfl) (removeMarriageTo_idem personId) i removed ps]
  unfold marriageTouch
  rcases hf : newMs.find? (fun m => m.spouseId = i) with _ | m <;>
    by_cases h : i ∈ removed <;>
    cases hps : ps.find? (fun p => p.id = i) <;>
    simp [hf, h, hps]

theorem find?_mStage (pid : String) (u : PersonUpdate) (cur1 : Person) (ps1 : List Person)
    (hK : (((updKey u.marriages).getD []).map (fun m => m.spouseId)).Nodup) (j : String) :
    (mStage pid u cur1 ps1).find? (fun p => p.id = j) =
      (ps1.find? (fun p => p.id = j)).map (marriageTouchU pid u cur1 j) := by
  unfold mStage marriageTouchU
  rcases hum : (updKey u.marriages) with _ | newMs
  · cases hps : ps1.find? (fun p => p.id = j) <;> simp [hps]
  · dsimp only
    refine find?_marriageBlock pid _ newMs ps1 j ?_
    rw [hum] at hK
    simpa using hK

theorem find?_updateFirst_found (g : Person → Person) (t i : String) :
    ∀ (ps : List Person) (w : Person), ps.find? (fun p => p.id = t) = some w →
      (g w).id = t →
      (updateFirst t g ps).find? (fun p => p.id = i) =
        (ps.find? (fun p => p.id = i)).map (fun q => if i = t then g w else q)
  | [], w, hw, _ => by simp at hw
  | p :: ps, w, hw, hgid => by
      by_cases h1 : p.id = t
      · have hwp : w = p := by
          rw [List.find?_cons_of_pos _ (by simp [h1])] at hw
          exact (Option.some.inj hw).symm
        subst hwp
        by_cases h2 : i = t
        · subst h2
          rw [List.find?_cons_of_pos _ (by simp [h1])]
          simp only [updateFirst, if_pos h1]
          rw [List.find?_cons_of_pos _ (by simp [hgid])]
          simp
        · have hgi : ¬ ((g w).id = i) := by rw [hgid]; exact fun hc => h2 hc.symm
          have hwi : ¬ (w.id = i) := by rw [h1]; exact fun hc => h2 hc.symm
          simp only [updateFirst, if_pos h1]
          rw [List.find?_cons_of_neg _ (by simp [hgi])]
          rw [List.find?_cons_of_neg _ (by simp [hwi])]
          cases hps : ps.find? (fun p => p.id = i) <;> simp [h2]
      · rw [List.find?_cons_of_neg _ (by simp [h1])] at hw
        simp only [updateFirst, if_neg h1]
        by_cases hp : p.id = i
        · have hit : ¬ (i = t) := fun hc => h1 (by rw [hp, hc])
          rw [List.find?_cons_of_pos _ (by simp [hp])]
          rw [List.find?_cons_of_pos _ (by simp [hp])]
          simp [hit]
        · rw [List.find?_cons_of_neg _ (by simp [hp])]
          rw [List.find?_cons_of_neg _ (by simp [hp])]
          exact find?_updateFirst_found g t i ps w hw hgid

theorem updateFirst_map_id_found (g : Person → Person) (t : String) :
    ∀ (ps : List Person) (w : Person), ps.find? (fun p => p.id = t) = some w →
      (g w).id = w.id →
      (updateFirst t g ps).map (fun p => p.id) = ps.map (fun p => p.id)
  | [], w, hw, _ => by simp at hw
  | p :: ps, w, hw, hgid => by
      by_cases h1 : p.id = t
      · have hwp : w = p := by
          rw [List.find?_cons_of_pos _ (by simp [h1])] at hw
          exact (Option.some.inj hw).symm
        subst hwp
        simp only [updateFirst, if_pos h1, List.map_cons, hgid]
      · rw [List.find?_cons_of_neg _ (by simp [h1])] at hw
        simp only [updateFirst, if_neg h1, List.map_cons]
        rw [updateFirst_map_id_found g t ps w hw hgid]

/-! field facts about the per-person touch functions of `updatePerson` -/

theorem removeChildRef_id (cid : String) (q : Person) :
    (removeChildRef cid q).id = q.id := rfl

theorem removeChildRef_parentIds (cid : String) (q : Person) :
    (removeChildRef cid q).parentIds = q.parentIds := rfl

theorem removeChildRef_marriages (cid : String) (q : Person) :
    (removeChildRef cid q).marriages = q.marriages := rfl

theorem removeChildRef_childrenIds (cid : String) (q : Person) :
    (removeChildRef cid q).childrenIds.getD [] =
      (q.childrenIds.getD []).filter (fun id => id ≠ cid) := by
  unfold removeChildRef
  cases q.childrenIds <;> simp

theorem addMarriageIfAbsent_marriages_eq {q q' : Person}
    (h : q.marriages = q'.marriages) (s : String) :
    (addMarriageIfAbsent s q).marriages = (addMarriageIfAbsent s q').marriages := by
  unfold addMarriageIfAbsent
  rw [h]
  split_ifs <;> simp [h]

theorem spouseTouch_marriages_eq {q q' : Person} (h : q.marriages = q'.marriages)
    (a b i : String) :
    (spouseTouch a b i q).marriages = (spouseTouch a b i q').marriages := by
  unfold spouseTouch
  dsimp only
  split_ifs <;>
    first
      | exact addMarriageIfAbsent_marriages_eq (addMarriageIfAbsent_marriages_eq h _) _
      | exact addMarriageIfAbsent_marriages_eq h _
      | exact h

theorem parentTouch_id (pid : String) (res : Bool) (oldP nP : List String) (i : String)
    (q : Person) : (parentTouch pid res oldP nP i q).id = q.id := by
  unfold parentTouch
  rcases nP with _ | ⟨a, _ | ⟨b, _ | ⟨c, l⟩⟩⟩ <;> dsimp only <;> split_ifs <;>
    simp [addChildIfAbsent_id, spouseTouch_id, removeChildRef_id]

theorem parentTouch_parentIds (pid : String) (res : Bool) (oldP nP : List String) (i : String)
    (q : Person) : (parentTouch pid res oldP nP i q).parentIds = q.parentIds := by
  unfold parentTouch
  rcases nP with _ | ⟨a, _ | ⟨b, _ | ⟨c, l⟩⟩⟩ <;> dsimp only <;> split_ifs <;>
    simp [addChildIfAbsent_parentIds, spouseTouch_parentIds, removeChildRef_parentIds]

theorem parentTouch_marriages (pid : String) (res : Bool) (oldP nP : List String) (i : String)
    (q : Person) :
    (parentTouch pid res oldP nP i q).marriages =
      (match nP with
        | [a, b] => if res then (spouseTouch a b i q).marriages else q.marriages
        | _ => q.marriages) := by
  unfold parentTouch
  rcases nP with _ | ⟨a, _ | ⟨b, _ | ⟨c, l⟩⟩⟩ <;> dsimp only <;> split_ifs <;>
    (try simp only [addChildIfAbsent_marriages]) <;>
    first
      | rfl
      | exact spouseTouch_marriages_eq (removeChildRef_marriages pid q) a b i

theorem marriageTouch_id (pid : String) (R : List String) (K : List Marriage) (i : String)
    (q : Person) : (marriageTouch pid R K i q).id = q.id := by
  unfold marriageTouch
  dsimp only
  rcases hf : K.find? (fun m => m.spouseId = i) with _ | m <;>
    by_cases h : i ∈ R <;>
    simp [hf, h, setReciprocalMarriage_id, removeMarriageTo_id]

theorem marriageTouch_parentIds (pid : String) (R : List String) (K : List Marriage)
    (i : String) (q : Person) :
    (marriageTouch pid R K i q).parentIds = q.parentIds := by
  unfold marriageTouch
  dsimp only
  rcases hf : K.find? (fun m => m.spouseId = i) with _ | m <;>
    by_cases h : i ∈ R <;>
    simp [hf, h, setReciprocalMarriage_parentIds, removeMarriageTo_parentIds]

theorem marriageTouch_childrenIds (pid : String) (R : List String) (K : List Marriage)
    (i : String) (q : Person) :
    (marriageTouch pid R K i q).childrenIds = q.childrenIds := by
  unfold marriageTouch
  dsimp only
  rcases hf : K.find? (fun m => m.spouseId = i) with _ | m <;>
    by_cases h : i ∈ R <;>
    simp [hf, h, setReciprocalMarriage_childrenIds, removeMarriageTo_childrenIds]

theorem parentTouchU_id (pid : String) (u : PersonUpdate) (old : Person) (res : Bool)
    (i : String) (q : Person) : (parentTouchU pid u old res i q).id = q.id := by
  unfold parentTouchU
  rcases (updKey u.parentIds) with _ | nP
  · rfl
  · dsimp only
    split_ifs
    · rfl
    · exact parentTouch_id pid res _ nP i q

theorem parentTouchU_parentIds (pid : String) (u : PersonUpdate) (old : Person) (res : Bool)
    (i : String) (q : Person) : (parentTouchU pid u old res i q).parentIds = q.parentIds := by
  unfold parentTouchU
  rcases (updKey u.parentIds) with _ | nP
  · rfl
  · dsimp only
    split_ifs
    · rfl
    · exact parentTouch_parentIds pid res _ nP i q

theorem marriageTouchU_id (pid : String) (u : PersonUpdate) (cur1 : Person)
    (i : String) (q : Person) : (marriageTouchU pid u cur1 i q).id = q.id := by
  unfold marriageTouchU
  rcases (updKey u.marriages) with _ | newMs
  · rfl
  · exact marriageTouch_id pid _ newMs i q

theorem marriageTouchU_parentIds (pid : String) (u : PersonUpdate) (cur1 : Person)
    (i : String) (q : Person) :
    (marriageTouchU pid u cur1 i q).parentIds = q.parentIds := by
  unfold marriageTouchU
  rcases (updKey u.marriages) with _ | newMs
  · rfl
  · exact marriageTouch_parentIds pid _ newMs i q

theorem marriageTouchU_childrenIds (pid : String) (u : PersonUpdate) (cur1 : Person)
    (i : String) (q : Person) :
    (marriageTouchU pid u cur1 i q).childrenIds = q.childrenIds := by
  unfold marriageTouchU
  rcases (updKey u.marriages) with _ | newMs
  · rfl
  · exact marriageTouch_childrenIds pid _ newMs i q

theorem updKey_none {α : Type} : updKey (none : Option (Option α)) = none := rfl

theorem updSpread_none {α : Type} (old : Option α) :
    updSpread (none : Option (Option α)) old = old := rfl

theorem updSpread_eq_mergeField {α : Type} {u : Option (Option α)} (h : u ≠ some none)
    (old : Option α) : updSpread u old = mergeField (updKey u) old := by
  rcases u with _ | v
  · rfl
  · rcases v with _ | x
    · exact absurd rfl h
    · rfl

theorem upd_none_of_key_none {α : Type} {u : Option (Option α)} (hne : u ≠ some none)
    (h : updKey u = none) : u = none := by
  rcases u with _ | v
  · rfl
  · rcases v with _ | x
    · exact absurd rfl hne
    · cases h

theorem upd_some_of_key_some {α : Type} {u : Option (Option α)} {k : α}
    (h : updKey u = some k) : u = some (some k) := by
  rcases u with _ | v
  · cases h
  · rcases v with _ | x
    · cases h
    · rw [Option.some.inj h]

theorem mergePerson_id (old : Person) (u : PersonUpdate) :
    (mergePerson old u).id = (updKey u.id).getD old.id := rfl

/-! the end-to-end pointwise characterization of `updatePerson` -/

theorem find?_updatePerson {ps : List Person} {pid : String} {u : PersonUpdate} {old : Person}
    (res : Bool)
    (hfind : ps.find? (fun p => p.id = pid) = some old)
    (huid : u.id = none)
    (hK : (((updKey u.marriages).getD []).map (fun m => m.spouseId)).Nodup)
    (hres_corr : ∀ a b, (updKey u.parentIds) = some [a, b] → ¬ old.parentIds = some [a, b] →
      (res = true ↔ ¬ ((ps.find? (fun p => p.id = a)).isNone
        ∨ (ps.find? (fun p => p.id = b)).isNone)))
    (i : String) :
    (updatePerson pid u ps).find? (fun p => p.id = i) =
      (ps.find? (fun p => p.id = i)).map (updateTouch pid u old res i) := by
  have hpid : old.id = pid := find?_id_of_eq_some hfind
  have hP : ∀ j, (pStage pid u old ps).find? (fun p => p.id = j) =
      (ps.find? (fun p => p.id = j)).map (parentTouchU pid u old res j) :=
    fun j => find?_pStage pid u old res ps hres_corr j
  have hcur1 : ((pStage pid u old ps).find? (fun p => p.id = pid)).getD old =
      parentTouchU pid u old res pid old := by
    rw [hP pid, hfind]
    rfl
  have hMP : ∀ j, (mStage pid u (parentTouchU pid u old res pid old)
        (pStage pid u old ps)).find? (fun p => p.id = j) =
      (ps.find? (fun p => p.id = j)).map
        (fun q => marriageTouchU pid u (parentTouchU pid u old res pid old) j
          (parentTouchU pid u old res j q)) := by
    intro j
    rw [find?_mStage pid u _ _ hK j, hP j, Option.map_map]
    rfl
  have hw : (mStage pid u (parentTouchU pid u old res pid old)
        (pStage pid u old ps)).find? (fun p => p.id = pid) =
      some (marriageTouchU pid u (parentTouchU pid u old res pid old) pid
        (parentTouchU pid u old res pid old)) := by
    rw [hMP pid, hfind]
    rfl
  have hgid : (mergePerson (marriageTouchU pid u (parentTouchU pid u old res pid old) pid
      (parentTouchU pid u old res pid old)) u).id = pid := by
    rw [mergePerson_id, huid, updKey_none, Option.getD_none, marriageTouchU_id,
      parentTouchU_id, hpid]
  rw [updatePerson_eq hfind, hcur1, hw]
  rw [find?_updateFirst_found _ pid i _ _ hw hgid]
  rw [hMP i, Option.map_map]
  rcases hq : ps.find? (fun p => p.id = i) with _ | q
  · rfl
  · rfl

/-! ## helpers towards the `updatePerson` invariant proof -/

theorem mem_origin_of_find?_char {T ps : List Person} {f : String → Person → Person}
    (hndT : idsNodup T)
    (hchar : ∀ i, T.find? (fun p => p.id = i) = (ps.find? (fun p => p.id = i)).map (f i)) :
    ∀ x ∈ T, ∃ x0 ∈ ps, x0.id = x.id ∧ x = f x.id x0 := by
  intro x hx
  have hfx : T.find? (fun p => p.id = x.id) = some x := (mem_iff_find?_nodup hndT).mp hx
  rw [hchar x.id] at hfx
  rcases hps : ps.find? (fun p => p.id = x.id) with _ | x0
  · rw [hps] at hfx
    cases hfx
  · rw [hps] at hfx
    exact ⟨x0, List.mem_of_find?_eq_some hps, find?_id_of_eq_some hps,
      (Option.some.inj hfx).symm⟩

theorem updateFirst_eq_self_of_find?_none (g : Person → Person) (t : String) :
    ∀ ps : List Person, ps.find? (fun p => p.id = t) = none → updateFirst t g ps = ps
  | [], _ => rfl
  | p :: ps, h => by
      by_cases h1 : p.id = t
      · rw [List.find?_cons_of_pos _ (by simp [h1])] at h
        cases h
      · rw [List.find?_cons_of_neg _ (by simp [h1])] at h
        simp only [updateFirst, if_neg h1]
        rw [updateFirst_eq_self_of_find?_none g t ps h]

theorem parentResolvable_spec (u : PersonUpdate) (ps : List Person) (a b : String)
    (h : (updKey u.parentIds) = some [a, b]) :
    parentResolvable u ps = true ↔
      ¬ ((ps.find? (fun p => p.id = a)).isNone ∨ (ps.find? (fun p => p.id = b)).isNone) := by
  unfold parentResolvable
  rw [h]
  cases h1 : (ps.find? (fun p => p.id = a)).isNone <;>
    cases h2 : (ps.find? (fun p => p.id = b)).isNone <;>
      simp [h1, h2]

theorem pStage_map_id (pid : String) (u : PersonUpdate) (old : Person) (ps : List Person) :
    (pStage pid u old ps).map (fun p => p.id) = ps.map (fun p => p.id) := by
  unfold pStage
  rcases (updKey u.parentIds) with _ | nP
  · rfl
  · dsimp only
    split_ifs
    · rfl
    · simp only [addChildToParent, removeChildFromParent]
      rw [foldl_updateFirst_map_id (fun x : String => x) (fun _ => addChildIfAbsent pid)
        (fun _ p => addChildIfAbsent_id pid p)]
      unfold spouseStep
      rcases nP with _ | ⟨a, _ | ⟨b, _ | ⟨c, l⟩⟩⟩ <;> dsimp only <;>
        (try rw [addSpouseRelationship_map_id]) <;>
        rw [foldl_updateFirst_map_id (fun x : String => x) (fun _ => removeChildRef pid)
          (fun _ _ => rfl)]

theorem mStage_map_id (pid : String) (u : PersonUpdate) (cur1 : Person) (ps1 : List Person) :
    (mStage pid u cur1 ps1).map (fun p => p.id) = ps1.map (fun p => p.id) := by
  unfold mStage
  rcases (updKey u.marriages) with _ | newMs
  · rfl
  · dsimp only
    rw [foldl_updateFirst_map_id (fun m : Marriage => m.spouseId)
      (fun m => setReciprocalMarriage pid m) (fun m p => setReciprocalMarriage_id pid m p)]
    rw [foldl_updateFirst_map_id (fun x : String => x) (fun _ => removeMarriageTo pid)
      (fun _ _ => rfl)]

theorem updatePerson_map_id (pid : String) (u : PersonUpdate) (ps : List Person)
    (huid : u.id = none) :
    (updatePerson pid u ps).map (fun p => p.id) = ps.map (fun p => p.id) := by
  rcases hfind : ps.find? (fun p => p.id = pid) with _ | old
  · unfold updatePerson
    rw [hfind]
  · rw [updatePerson_eq hfind]
    rcases hw2 : (mStage pid u (((pStage pid u old ps).find? (fun p => p.id = pid)).getD old)
        (pStage pid u old ps)).find? (fun p => p.id = pid) with _ | w
    · rw [updateFirst_eq_self_of_find?_none _ pid _ hw2, mStage_map_id, pStage_map_id]
    · rw [updateFirst_map_id_found _ pid _ w hw2 (by
        rw [hw2]; simp [mergePerson_id, huid, updKey_none])]
      rw [mStage_map_id, pStage_map_id]

theorem idsNodup_updatePerson (pid : String) (u : PersonUpdate) (ps : List Person)
    (huid : u.id = none) (hnd : idsNodup ps) : idsNodup (updatePerson pid u ps) :=
  idsNodup_of_map_eq (updatePerson_map_id pid u ps huid) hnd

/-! marriage lists seen through the per-person touch functions -/

theorem map_spouseId_filter (pid : String) :
    ∀ ms : List Marriage,
      (ms.filter (fun m => m.spouseId ≠ pid)).map (fun m => m.spouseId) =
        (ms.map (fun m => m.spouseId)).filter (fun s => s ≠ pid)
  | [] => rfl
  | m :: ms => by
      by_cases h : m.spouseId = pid
      · rw [List.filter_cons_of_neg (by simp [h]), List.map_cons,
          List.filter_cons_of_neg (by simp [h])]
        exact map_spouseId_filter pid ms
      · rw [List.filter_cons_of_pos (by simp [h]), List.map_cons, List.map_cons,
          List.filter_cons_of_pos (by simp [h])]
        rw [map_spouseId_filter pid ms]

theorem removeMarriageTo_keys (pid : String) (q : Person) :
    ((removeMarriageTo pid q).marriages.getD []).map (fun m => m.spouseId) =
      ((q.marriages.getD []).map (fun m => m.spouseId)).filter (fun s => s ≠ pid) := by
  unfold removeMarriageTo
  cases q.marriages with
  | none => rfl
  | some l =>
      simp only [Option.map_some', Option.getD_some]
      exact map_spouseId_filter pid l

theorem find?_eq_of_mem_keys_nodup {K : List Marriage} {m : Marriage}
    (hK : (K.map (fun mm => mm.spouseId)).Nodup) (hm : m ∈ K) :
    K.find? (fun mm => mm.spouseId = m.spouseId) = some m := by
  induction K with
  | nil => cases hm
  | cons a K ih =>
      have hpair : (∀ x ∈ K, ¬ x.spouseId = a.spouseId) ∧
          (K.map (fun mm => mm.spouseId)).Nodup := by simpa using hK
      rcases List.mem_cons.mp hm with h | h
      · subst h
        rw [List.find?_cons_of_pos _ (by simp)]
      · have hne : ¬ (a.spouseId = m.spouseId) := by
          intro hc
          exact hpair.1 m h hc.symm
        rw [List.find?_cons_of_neg _ (by simpa using hne)]
        exact ih hpair.2 h

theorem isSome_find?_of_mem_keys {K : List Marriage} {j : String}
    (h : ∃ m ∈ K, m.spouseId = j) : (K.find? (fun mm => mm.spouseId = j)).isSome := by
  obtain ⟨m, hm, hj⟩ := h
  rcases hf : K.find? (fun mm => mm.spouseId = j) with _ | m1
  · have := List.find?_eq_none.mp hf m hm
    simp [hj] at this
  · rw [hf]
    rfl

theorem mem_marriageTouch_ne (pid : String) (R : List String) (K : List Marriage)
    (i : String) (q : Person)
    (hndq : ((q.marriages.getD []).map (fun mm => mm.spouseId)).Nodup)
    (m' : Marriage) (hne : m'.spouseId ≠ pid) :
    m' ∈ (marriageTouch pid R K i q).marriages.getD [] ↔ m' ∈ q.marriages.getD [] := by
  unfold marriageTouch
  dsimp only
  have hndq1 : (((if i ∈ R then removeMarriageTo pid q else q).marriages.getD []).map
      (fun mm => mm.spouseId)).Nodup := by
    split_ifs
    · rw [removeMarriageTo_keys]
      exact hndq.filter _
    · exact hndq
  rcases hf : K.find? (fun m => m.spouseId = i) with _ | m
  · simp only [hf]
    split_ifs with h
    · simp [mem_removeMarriageTo, hne]
    · exact Iff.rfl
  · simp only [hf]
    rw [mem_setReciprocalMarriage pid m _ hndq1 m']
    constructor
    · intro hx
      rcases hx with ⟨hx1, _⟩ | hx2
      · revert hx1
        split_ifs with h
        · intro hx1
          exact (mem_removeMarriageTo pid q m').mp hx1 |>.1
        · exact fun hx1 => hx1
      · exact absurd (by rw [hx2]) hne
    · intro hx
      refine Or.inl ⟨?_, hne⟩
      split_ifs with h
      · exact (mem_removeMarriageTo pid q m').mpr ⟨hx, hne⟩
      · exact hx

theorem mem_marriageTouch_pid_key (pid : String) (R : List String) (K : List Marriage)
    (i : String) (q : Person)
    (hndq : ((q.marriages.getD []).map (fun mm => mm.spouseId)).Nodup)
    {m : Marriage} (hf : K.find? (fun mm => mm.spouseId = i) = some m) (m' : Marriage) :
    (m' ∈ (marriageTouch pid R K i q).marriages.getD [] ∧ m'.spouseId = pid) ↔
      m' = { m with spouseId := pid } := by
  unfold marriageTouch
  dsimp only
  rw [hf]
  have hndq1 : (((if i ∈ R then removeMarriageTo pid q else q).marriages.getD []).map
      (fun mm => mm.spouseId)).Nodup := by
    split_ifs
    · rw [removeMarriageTo_keys]
      exact hndq.filter _
    · exact hndq
  rw [mem_setReciprocalMarriage pid m _ hndq1 m']
  constructor
  · rintro ⟨⟨_, hne⟩ | h2, hsp⟩
    · exact absurd hsp hne
    · exact h2
  · intro h
    exact ⟨Or.inr h, by rw [h]⟩

theorem mem_marriageTouch_pid_nokey (pid : String) (R : List String) (K : List Marriage)
    (i : String) (q : Person)
    (hf : K.find? (fun mm => mm.spouseId = i) = none) (m' : Marriage) :
    (m' ∈ (marriageTouch pid R K i q).marriages.getD [] ∧ m'.spouseId = pid) ↔
      (i ∉ R ∧ m' ∈ q.marriages.getD [] ∧ m'.spouseId = pid) := by
  unfold marriageTouch
  dsimp only
  rw [hf]
  split_ifs with h
  · simp only [mem_removeMarriageTo]
    constructor
    · rintro ⟨⟨_, hne⟩, hsp⟩
      exact absurd hsp hne
    · rintro ⟨hni, _, _⟩
      exact absurd h hni
  · constructor
    · rintro ⟨hm, hsp⟩
      exact ⟨h, hm, hsp⟩
    · rintro ⟨_, hm, hsp⟩
      exact ⟨hm, hsp⟩

theorem marriageTouch_keys_nodup (pid : String) (R : List String) (K : List Marriage)
    (i : String) (q : Person)
    (hndq : ((q.marriages.getD []).map (fun mm => mm.spouseId)).Nodup) :
    (((marriageTouch pid R K i q).marriages.getD []).map (fun mm => mm.spouseId)).Nodup := by
  unfold marriageTouch
  dsimp only
  have hndq1 : (((if i ∈ R then removeMarriageTo pid q else q).marriages.getD []).map
      (fun mm => mm.spouseId)).Nodup := by
    split_ifs
    · rw [removeMarriageTo_keys]
      exact hndq.filter _
    · exact hndq
  rcases hf : K.find? (fun m => m.spouseId = i) with _ | m
  · simp only [hf]
    exact hndq1
  · simp only [hf]
    exact map_spouseId_setReciprocalMarriage_nodup pid m _ hndq1

/-! the parent block preserves the marriage-side invariants -/

theorem foldRem_marriages_pointwise {pid : String} {oldP : List String} {ps : List Person}
    (hnd : idsNodup ps) :
    ∀ x ∈ (oldP.foldl (fun acc parentId => removeChildFromParent pid parentId acc) ps),
      ∃ x0 ∈ ps, x0.id = x.id ∧ x.marriages = x0.marriages := by
  have hm : (oldP.foldl (fun acc parentId => removeChildFromParent pid parentId acc) ps).map
      (fun p => p.id) = ps.map (fun p => p.id) := by
    simp only [removeChildFromParent]
    rw [foldl_updateFirst_map_id (fun x : String => x) (fun _ => removeChildRef pid)
      (fun _ _ => rfl)]
  have hchar : ∀ i, (oldP.foldl (fun acc parentId =>
      removeChildFromParent pid parentId acc) ps).find? (fun p => p.id = i) =
      (ps.find? (fun p => p.id = i)).map
        (fun q => if i ∈ oldP then removeChildRef pid q else q) := by
    intro i
    rw [find?_foldRem]
    by_cases h : i ∈ oldP
    · rw [if_pos h]
      cases hps : ps.find? (fun p => p.id = i) <;> simp [hps, h]
    · rw [if_neg h]
      cases hps : ps.find? (fun p => p.id = i) <;> simp [hps, h]
  intro x hx
  obtain ⟨x0, hx0, hid0, heq⟩ := mem_origin_of_find?_char (idsNodup_of_map_eq hm hnd) hchar x hx
  refine ⟨x0, hx0, hid0, ?_⟩
  rw [heq]
  split_ifs <;> rfl

theorem foldAdd_marriages_pointwise {pid : String} {nP : List String} {ps : List Person}
    (hnd : idsNodup ps) :
    ∀ x ∈ (nP.foldl (fun acc parentId => addChildToParent pid parentId acc) ps),
      ∃ x0 ∈ ps, x0.id = x.id ∧ x.marriages = x0.marriages := by
  have hm : (nP.foldl (fun acc parentId => addChildToParent pid parentId acc) ps).map
      (fun p => p.id) = ps.map (fun p => p.id) := by
    simp only [addChildToParent]
    rw [foldl_updateFirst_map_id (fun x : String => x) (fun _ => addChildIfAbsent pid)
      (fun _ p => addChildIfAbsent_id pid p)]
  have hchar : ∀ i, (nP.foldl (fun acc parentId =>
      addChildToParent pid parentId acc) ps).find? (fun p => p.id = i) =
      (ps.find? (fun p => p.id = i)).map
        (fun q => if i ∈ nP then addChildIfAbsent pid q else q) := by
    intro i
    rw [find?_foldAdd]
    by_cases h : i ∈ nP
    · rw [if_pos h]
      cases hps : ps.find? (fun p => p.id = i) <;> simp [hps, h]
    · rw [if_neg h]
      cases hps : ps.find? (fun p => p.id = i) <;> simp [hps, h]
  intro x hx
  obtain ⟨x0, hx0, hid0, heq⟩ := mem_origin_of_find?_char (idsNodup_of_map_eq hm hnd) hchar x hx
  refine ⟨x0, hx0, hid0, ?_⟩
  rw [heq]
  split_ifs
  · exact addChildIfAbsent_marriages pid x0
  · rfl

theorem spouseStep_map_id (nP : List String) (ps : List Person) :
    (spouseStep nP ps).map (fun p => p.id) = ps.map (fun p => p.id) := by
  unfold spouseStep
  rcases nP with _ | ⟨a, _ | ⟨b, _ | ⟨c, l⟩⟩⟩
  · rfl
  · rfl
  · exact addSpouseRelationship_map_id a b ps
  · rfl

theorem marriageSym_spouseStep {ps : List Person} (nP : List String)
    (hnd : idsNodup ps) (hms : marriageSym ps) : marriageSym (spouseStep nP ps) := by
  unfold spouseStep
  rcases nP with _ | ⟨a, _ | ⟨b, _ | ⟨c, l⟩⟩⟩ <;> dsimp only <;>
    first
      | exact hms
      | exact marriageSym_addSpouseRelationship a b hnd hms

theorem marriagesNodup_spouseStep {ps : List Person} (nP : List String)
    (hnd : idsNodup ps) (hmn : marriagesNodup ps) : marriagesNodup (spouseStep nP ps) := by
  unfold spouseStep
  rcases nP with _ | ⟨a, _ | ⟨b, _ | ⟨c, l⟩⟩⟩ <;> dsimp only <;>
    first
      | exact hmn
      | exact marriagesNodup_addSpouseRelationship a b hnd hmn

theorem marriageSym_pStage {ps : List Person} (pid : String) (u : PersonUpdate) (old : Person)
    (hnd : idsNodup ps) (hms : marriageSym ps) : marriageSym (pStage pid u old ps) := by
  unfold pStage
  rcases (updKey u.parentIds) with _ | nP
  · exact hms
  · dsimp only
    split_ifs
    · exact hms
    · have hmA : ((old.parentIds.getD []).foldl (fun acc parentId =>
          removeChildFromParent pid parentId acc) ps).map (fun p => p.id) =
          ps.map (fun p => p.id) := by
        simp only [removeChildFromParent]
        rw [foldl_updateFirst_map_id (fun x : String => x) (fun _ => removeChildRef pid)
          (fun _ _ => rfl)]
      have hndA : idsNodup _ := idsNodup_of_map_eq hmA hnd
      have hmsA := marriageSym_of_pointwise hnd hndA (foldRem_marriages_pointwise hnd) hms
      have hndB : idsNodup (spouseStep nP ((old.parentIds.getD []).foldl
          (fun acc parentId => removeChildFromParent pid parentId acc) ps)) :=
        idsNodup_of_map_eq (by rw [spouseStep_map_id, hmA]) hnd
      have hmsB := marriageSym_spouseStep nP hndA hmsA
      have hndT : idsNodup (nP.foldl (fun acc parentId => addChildToParent pid parentId acc)
          (spouseStep nP ((old.parentIds.getD []).foldl
            (fun acc parentId => removeChildFromParent pid parentId acc) ps))) := by
        refine idsNodup_of_map_eq ?_ hnd
        simp only [addChildToParent]
        rw [foldl_updateFirst_map_id (fun x : String => x) (fun _ => addChildIfAbsent pid)
          (fun _ p => addChildIfAbsent_id pid p)]
        rw [spouseStep_map_id, hmA]
      exact marriageSym_of_pointwise hndB hndT (foldAdd_marriages_pointwise hndB) hmsB

theorem marriagesNodup_pStage {ps : List Person} (pid : String) (u : PersonUpdate) (old : Person)
    (hnd : idsNodup ps) (hmn : marriagesNodup ps) : marriagesNodup (pStage pid u old ps) := by
  unfold pStage
  rcases (updKey u.parentIds) with _ | nP
  · exact hmn
  · dsimp only
    split_ifs
    · exact hmn
    · have hmA : ((old.parentIds.getD []).foldl (fun acc parentId =>
          removeChildFromParent pid parentId acc) ps).map (fun p => p.id) =
          ps.map (fun p => p.id) := by
        simp only [removeChildFromParent]
        rw [foldl_updateFirst_map_id (fun x : String => x) (fun _ => removeChildRef pid)
          (fun _ _ => rfl)]
      have hndA : idsNodup _ := idsNodup_of_map_eq hmA hnd
      have hmnA := marriagesNodup_of_pointwise
        (@foldRem_marriages_pointwise pid (old.parentIds.getD []) ps hnd) hmn
      have hndB : idsNodup (spouseStep nP ((old.parentIds.getD []).foldl
          (fun acc parentId => removeChildFromParent pid parentId acc) ps)) :=
        idsNodup_of_map_eq (by rw [spouseStep_map_id, hmA]) hnd
      have hmnB := marriagesNodup_spouseStep nP hndA hmnA
      exact marriagesNodup_of_pointwise
        (@foldAdd_marriages_pointwise pid nP _ hndB) hmnB

theorem idsNodup_pStage {ps : List Person} (pid : String) (u : PersonUpdate) (old : Person)
    (hnd : idsNodup ps) : idsNodup (pStage pid u old ps) :=
  idsNodup_of_map_eq (pStage_map_id pid u old ps) hnd

/-! children and parents seen through the per-person touch functions -/

theorem parentTouch_children_ne {j pid : String} (hj : j ≠ pid) (res : Bool)
    (oldP nP : List String) (i : String) (q : Person) :
    j ∈ (parentTouch pid res oldP nP i q).childrenIds.getD [] ↔
      j ∈ q.childrenIds.getD [] := by
  unfold parentTouch
  rcases nP with _ | ⟨a, _ | ⟨b, _ | ⟨c, l⟩⟩⟩ <;> dsimp only <;> split_ifs <;>
    simp [mem_addChildIfAbsent, spouseTouch_childrenIds, removeChildRef_childrenIds,
      List.mem_filter, hj]

theorem parentTouch_children_pid {pid : String} (res : Bool)
    (oldP nP : List String) (i : String) (q : Person) :
    pid ∈ (parentTouch pid res oldP nP i q).childrenIds.getD [] ↔
      (i ∈ nP ∨ (i ∉ oldP ∧ pid ∈ q.childrenIds.getD [])) := by
  unfold parentTouch
  rcases nP with _ | ⟨a, _ | ⟨b, _ | ⟨c, l⟩⟩⟩ <;> dsimp only <;> split_ifs <;>
    simp_all [mem_addChildIfAbsent, spouseTouch_childrenIds, removeChildRef_childrenIds,
      List.mem_filter]

theorem parentTouchU_children_ne {j pid : String} (hj : j ≠ pid) (u : PersonUpdate)
    (old : Person) (res : Bool) (i : String) (q : Person) :
    j ∈ (parentTouchU pid u old res i q).childrenIds.getD [] ↔
      j ∈ q.childrenIds.getD [] := by
  unfold parentTouchU
  rcases (updKey u.parentIds) with _ | nP
  · exact Iff.rfl
  · dsimp only
    split_ifs
    · exact Iff.rfl
    · exact parentTouch_children_ne hj res (old.parentIds.getD []) nP i q

theorem mergePerson_parentIds (old : Person) (u : PersonUpdate) :
    (mergePerson old u).parentIds = updSpread u.parentIds old.parentIds := rfl

theorem mergePerson_childrenIds (old : Person) (u : PersonUpdate) :
    (mergePerson old u).childrenIds = updSpread u.childrenIds old.childrenIds := rfl

theorem mergePerson_marriages (old : Person) (u : PersonUpdate) :
    (mergePerson old u).marriages = updSpread u.marriages old.marriages := rfl

theorem updateTouch_parentIds (pid : String) (u : PersonUpdate) (old : Person) (res : Bool)
    (hpk : u.parentIds ≠ some none) (i : String) (q : Person) :
    (updateTouch pid u old res i q).parentIds =
      if i = pid then mergeField (updKey u.parentIds) old.parentIds else q.parentIds := by
  unfold updateTouch
  dsimp only
  by_cases h : i = pid
  · rw [if_pos h, if_pos h, mergePerson_parentIds, updSpread_eq_mergeField hpk,
      marriageTouchU_parentIds, parentTouchU_parentIds]
  · rw [if_neg h, if_neg h, marriageTouchU_parentIds, parentTouchU_parentIds]

theorem updateTouch_childrenIds (pid : String) (u : PersonUpdate) (old : Person) (res : Bool)
    (i : String) (q : Person) (hucid : u.childrenIds = none) :
    (updateTouch pid u old res i q).childrenIds =
      if i = pid then (parentTouchU pid u old res pid old).childrenIds
      else (parentTouchU pid u old res i q).childrenIds := by
  unfold updateTouch
  dsimp only
  by_cases h : i = pid
  · rw [if_pos h, if_pos h, mergePerson_childrenIds, hucid, updSpread_none,
      marriageTouchU_childrenIds]
  · rw [if_neg h, if_neg h, marriageTouchU_childrenIds]

theorem updateTouch_marriages_ne (pid : String) (u : PersonUpdate) (old : Person) (res : Bool)
    {i : String} (hne : i ≠ pid) (q : Person) :
    (updateTouch pid u old res i q).marriages =
      (marriageTouchU pid u (parentTouchU pid u old res pid old) i
        (parentTouchU pid u old res i q)).marriages := by
  unfold updateTouch
  dsimp only
  rw [if_neg hne]

theorem updateTouch_marriages_pid (pid : String) (u : PersonUpdate) (old : Person) (res : Bool)
    (hmk : u.marriages ≠ some none) (q : Person) :
    (updateTouch pid u old res pid q).marriages =
      mergeField (updKey u.marriages)
        (marriageTouchU pid u (parentTouchU pid u old res pid old) pid
          (parentTouchU pid u old res pid old)).marriages := by
  unfold updateTouch
  dsimp only
  rw [if_pos rfl, mergePerson_marriages, updSpread_eq_mergeField hmk]

theorem parentTouchU_children_pid (pid : String) (u : PersonUpdate) (old : Person) (res : Bool)
    (i : String) (q : Person)
    (hinv : pid ∈ q.childrenIds.getD [] ↔ i ∈ old.parentIds.getD []) :
    (pid ∈ (parentTouchU pid u old res i q).childrenIds.getD [] ↔
      i ∈ (mergeField (updKey u.parentIds) old.parentIds).getD []) := by
  unfold parentTouchU
  rcases (updKey u.parentIds) with _ | nP
  · simpa [mergeField] using hinv
  · dsimp only
    split_ifs with h
    · rw [hinv, h]
      simp [mergeField]
    · rw [parentTouch_children_pid res (old.parentIds.getD []) nP i q, hinv]
      simp only [mergeField, Option.getD_some]
      constructor
      · rintro (h1 | ⟨h1, h2⟩)
        · exact h1
        · exact absurd h2 h1
      · intro h1
        exact Or.inl h1

theorem childParentSym_updatePerson {ps : List Person} (pid : String) (u : PersonUpdate)
    (hnd : idsNodup ps) (hcp : childParentSym ps)
    (huid : u.id = none) (hucid : u.childrenIds = none)
    (hpk : u.parentIds ≠ some none)
    (hK : (((updKey u.marriages).getD []).map (fun m => m.spouseId)).Nodup) :
    childParentSym (updatePerson pid u ps) := by
  rcases hfind : ps.find? (fun p => p.id = pid) with _ | old
  · unfold updatePerson
    rw [hfind]
    exact hcp
  · have hpid : old.id = pid := find?_id_of_eq_some hfind
    have hold_mem : old ∈ ps := List.mem_of_find?_eq_some hfind
    set res := parentResolvable u ps with hres
    have hres_corr : ∀ a b, (updKey u.parentIds) = some [a, b] → ¬ old.parentIds = some [a, b] →
        (res = true ↔ ¬ ((ps.find? (fun p => p.id = a)).isNone
          ∨ (ps.find? (fun p => p.id = b)).isNone)) :=
      fun a b h _ => parentResolvable_spec u ps a b h
    have hchar := fun i => find?_updatePerson res hfind huid hK hres_corr i
    have hndT : idsNodup (updatePerson pid u ps) := idsNodup_updatePerson pid u ps huid hnd
    have horig := mem_origin_of_find?_char hndT hchar
    intro x hx y hy
    obtain ⟨x0, hx0, hx0id, hx0eq⟩ := horig x hx
    obtain ⟨y0, hy0, hy0id, hy0eq⟩ := horig y hy
    have hyp : y.parentIds = if y.id = pid then mergeField (updKey u.parentIds) old.parentIds
        else y0.parentIds := by
      conv_lhs => rw [hy0eq]
      rw [updateTouch_parentIds pid u old res hpk]
    have hxc : x.childrenIds = if x.id = pid
        then (parentTouchU pid u old res pid old).childrenIds
        else (parentTouchU pid u old res x.id x0).childrenIds := by
      conv_lhs => rw [hx0eq]
      exact updateTouch_childrenIds pid u old res x.id x0 hucid
    rw [hyp, hxc]
    by_cases cx : x.id = pid <;> by_cases cy : y.id = pid
    · rw [if_pos cx, if_pos cy, cy, cx]
      refine parentTouchU_children_pid pid u old res pid old ?_
      have h0 := hcp old hold_mem old hold_mem
      rwa [hpid] at h0
    · rw [if_pos cx, if_neg cy]
      rw [parentTouchU_children_ne cy u old res pid old]
      have h0 := hcp old hold_mem y0 hy0
      rw [hpid, hy0id] at h0
      rw [cx]
      exact h0
    · rw [if_neg cx, if_pos cy, cy]
      refine parentTouchU_children_pid pid u old res x.id x0 ?_
      have h0 := hcp x0 hx0 old hold_mem
      rwa [hpid, hx0id] at h0
    · rw [if_neg cx, if_neg cy]
      rw [parentTouchU_children_ne cy u old res x.id x0]
      have h0 := hcp x0 hx0 y0 hy0
      rwa [hx0id, hy0id] at h0

theorem marriageTouchU_eq_none {pid : String} {u : PersonUpdate} (hum : (updKey u.marriages) = none)
    (cur1 : Person) (i : String) (q : Person) : marriageTouchU pid u cur1 i q = q := by
  unfold marriageTouchU
  rw [hum]

theorem marriageTouchU_eq_some {pid : String} {u : PersonUpdate} {K : List Marriage}
    (hum : (updKey u.marriages) = some K) (cur1 : Person) (i : String) (q : Person) :
    marriageTouchU pid u cur1 i q =
      marriageTouch pid (((cur1.marriages.getD []).map (fun m => m.spouseId)).filter
        (fun id => ¬ ((K.map (fun m => m.spouseId)).contains id))) K i q := by
  unfold marriageTouchU
  rw [hum]

theorem mem_keys_of_contains {keys : List String} {j : String}
    (hc : keys.contains j = true) : j ∈ keys := by
  simpa using hc

theorem marriageSym_updatePerson {ps : List Person} (pid : String) (u : PersonUpdate)
    (hnd : idsNodup ps) (hms : marriageSym ps) (hmn : marriagesNodup ps)
    (huid : u.id = none) (hmk : u.marriages ≠ some none)
    (hK : (((updKey u.marriages).getD []).map (fun m => m.spouseId)).Nodup) :
    marriageSym (updatePerson pid u ps) := by
  rcases hfind : ps.find? (fun p => p.id = pid) with _ | old
  · unfold updatePerson
    rw [hfind]
    exact hms
  · have hpid : old.id = pid := find?_id_of_eq_some hfind
    set res := parentResolvable u ps with hres
    have hres_corr : ∀ a b, (updKey u.parentIds) = some [a, b] → ¬ old.parentIds = some [a, b] →
        (res = true ↔ ¬ ((ps.find? (fun p => p.id = a)).isNone
          ∨ (ps.find? (fun p => p.id = b)).isNone)) :=
      fun a b h _ => parentResolvable_spec u ps a b h
    have hchar := fun i => find?_updatePerson res hfind huid hK hres_corr i
    have hndT : idsNodup (updatePerson pid u ps) := idsNodup_updatePerson pid u ps huid hnd
    have hnd1 : idsNodup (pStage pid u old ps) := idsNodup_pStage pid u old hnd
    have hms1 : marriageSym (pStage pid u old ps) := marriageSym_pStage pid u old hnd hms
    have hmn1 : marriagesNodup (pStage pid u old ps) := marriagesNodup_pStage pid u old hnd hmn
    have hfind1 : (pStage pid u old ps).find? (fun p => p.id = pid) =
        some (parentTouchU pid u old res pid old) := by
      rw [find?_pStage pid u old res ps hres_corr pid, hfind]
      rfl
    have hcur1_mem : parentTouchU pid u old res pid old ∈ pStage pid u old ps :=
      List.mem_of_find?_eq_some hfind1
    have hcur1_id : (parentTouchU pid u old res pid old).id = pid := by
      rw [parentTouchU_id, hpid]
    have hchar1 : ∀ i, (updatePerson pid u ps).find? (fun p => p.id = i) =
        ((pStage pid u old ps).find? (fun p => p.id = i)).map
          (fun q => if i = pid
            then mergePerson (marriageTouchU pid u (parentTouchU pid u old res pid old) pid
              (parentTouchU pid u old res pid old)) u
            else marriageTouchU pid u (parentTouchU pid u old res pid old) i q) := by
      intro i
      rw [hchar i, find?_pStage pid u old res ps hres_corr i, Option.map_map]
      rcases ps.find? (fun p => p.id = i) with _ | q
      · rfl
      · rfl
    have horig1 := mem_origin_of_find?_char hndT hchar1
    rcases hum : (updKey u.marriages) with _ | K
    · -- no marriage payload: marriage lists are unchanged pointwise
      refine marriageSym_of_pointwise hnd1 hndT ?_ hms1
      intro x hx
      obtain ⟨x1, hx1, hx1id, hx1eq⟩ := horig1 x hx
      by_cases cx : x.id = pid
      · refine ⟨parentTouchU pid u old res pid old, hcur1_mem, by rw [hcur1_id, cx], ?_⟩
        rw [hx1eq, if_pos cx, mergePerson_marriages, upd_none_of_key_none hmk hum,
          updSpread_none, marriageTouchU_eq_none hum]
      · refine ⟨x1, hx1, hx1id, ?_⟩
        rw [hx1eq, if_neg cx, marriageTouchU_eq_none hum]
    · -- marriage payload K
      have hKnd : (K.map (fun m => m.spouseId)).Nodup := by
        rw [hum] at hK
        simpa using hK
      have hamar_pid : ∀ x1 : Person,
          ((if (pid : String) = pid
            then mergePerson (marriageTouchU pid u (parentTouchU pid u old res pid old) pid
              (parentTouchU pid u old res pid old)) u
            else marriageTouchU pid u (parentTouchU pid u old res pid old) pid x1) :
              Person).marriages = some K := by
        intro x1
        rw [if_pos rfl, mergePerson_marriages, upd_some_of_key_some hum]
        rfl
      intro a ha b hb m hm hsp
      obtain ⟨a1, ha1, ha1id, ha1eq⟩ := horig1 a ha
      obtain ⟨b1, hb1, hb1id, hb1eq⟩ := horig1 b hb
      by_cases ca : a.id = pid
      · have hamar : a.marriages = some K := by
          rw [ha1eq, ca]
          exact hamar_pid a1
        rw [hamar] at hm
        simp only [Option.getD_some] at hm
        by_cases cb : b.id = pid
        · have hbmar : b.marriages = some K := by
            rw [hb1eq, cb]
            exact hamar_pid b1
          refine ⟨m, ?_, ?_, rfl, rfl, rfl⟩
          · rw [hbmar]
            simpa using hm
          · rw [hsp, cb, ca]
        · have hfb : K.find? (fun mm => mm.spouseId = b.id) = some m := by
            have := find?_eq_of_mem_keys_nodup hKnd hm
            rwa [hsp] at this
          have hbmem := (mem_marriageTouch_pid_key pid
            ((((parentTouchU pid u old res pid old).marriages.getD []).map
              (fun m => m.spouseId)).filter
              (fun id => ¬ ((K.map (fun m => m.spouseId)).contains id)))
            K b.id b1 (hmn1 b1 hb1) hfb { m with spouseId := pid }).mpr rfl
          refine ⟨{ m with spouseId := pid }, ?_, by rw [ca], rfl, rfl, rfl⟩
          rw [hb1eq, if_neg cb, marriageTouchU_eq_some hum]
          exact hbmem.1
      · have hamem : m ∈ (marriageTouch pid
            ((((parentTouchU pid u old res pid old).marriages.getD []).map
              (fun m => m.spouseId)).filter
              (fun id => ¬ ((K.map (fun m => m.spouseId)).contains id))) K a.id
            a1).marriages.getD [] := by
          rw [ha1eq, if_neg ca, marriageTouchU_eq_some hum] at hm
          exact hm
        by_cases cb : b.id = pid
        · have hmsp : m.spouseId = pid := by rw [hsp, cb]
          have hbmar : b.marriages = some K := by
            rw [hb1eq, cb]
            exact hamar_pid b1
          rcases hf : K.find? (fun mm => mm.spouseId = a.id) with _ | m1
          · -- the entry survived untouched: contradiction with the removal filter
            obtain ⟨hnotR, hma1, _⟩ :=
              (mem_marriageTouch_pid_nokey pid _ K a.id a1 hf m).mp ⟨hamem, hmsp⟩
            obtain ⟨m2, hm2, hm2sp, _, _, _⟩ := hms1 a1 ha1
              (parentTouchU pid u old res pid old) hcur1_mem m hma1
              (by rw [hmsp, hcur1_id])
            have hkeys : a.id ∈ ((parentTouchU pid u old res pid old).marriages.getD []).map
                (fun m => m.spouseId) :=
              List.mem_map.mpr ⟨m2, hm2, by rw [hm2sp, ha1id]⟩
            exfalso
            refine hnotR (List.mem_filter.mpr ⟨hkeys, ?_⟩)
            simp only [decide_eq_true_eq]
            intro hc
            have hmem := mem_keys_of_contains hc
            rcases List.mem_map.mp hmem with ⟨mk, hmk, hky⟩
            have := isSome_find?_of_mem_keys ⟨mk, hmk, hky⟩
            rw [hf] at this
            cases this
          · have hmeq : m = { m1 with spouseId := pid } :=
              (mem_marriageTouch_pid_key pid _ K a.id a1 (hmn1 a1 ha1) hf m).mp ⟨hamem, hmsp⟩
            have hm1sp : m1.spouseId = a.id := by
              have := List.find?_some hf
              simpa using this
            refine ⟨m1, ?_, hm1sp, ?_, ?_, ?_⟩
            · rw [hbmar]
              simpa using List.mem_of_find?_eq_some hf
            · rw [hmeq]
            · rw [hmeq]
            · rw [hmeq]
        · have hmne : m.spouseId ≠ pid := by
            rw [hsp]
            exact cb
          have hma1 : m ∈ a1.marriages.getD [] :=
            (mem_marriageTouch_ne pid _ K a.id a1 (hmn1 a1 ha1) m hmne).mp hamem
          obtain ⟨m2, hm2, hm2sp, hst, hdt, hpl⟩ := hms1 a1 ha1 b1 hb1 m hma1
            (by rw [hsp, hb1id])
          have hm2ne : m2.spouseId ≠ pid := by
            rw [hm2sp, ha1id]
            exact ca
          refine ⟨m2, ?_, by rw [hm2sp, ha1id], hst, hdt, hpl⟩
          rw [hb1eq, if_neg cb, marriageTouchU_eq_some hum]
          exact (mem_marriageTouch_ne pid _ K b.id b1 (hmn1 b1 hb1) m2 hm2ne).mpr hm2

theorem marriagesNodup_updatePerson {ps : List Person} (pid : String) (u : PersonUpdate)
    (hnd : idsNodup ps) (hmn : marriagesNodup ps)
    (huid : u.id = none) (hmk : u.marriages ≠ some none)
    (hK : (((updKey u.marriages).getD []).map (fun m => m.spouseId)).Nodup) :
    marriagesNodup (updatePerson pid u ps) := by
  rcases hfind : ps.find? (fun p => p.id = pid) with _ | old
  · unfold updatePerson
    rw [hfind]
    exact hmn
  · have hpid : old.id = pid := find?_id_of_eq_some hfind
    set res := parentResolvable u ps with hres
    have hres_corr : ∀ a b, (updKey u.parentIds) = some [a, b] → ¬ old.parentIds = some [a, b] →
        (res = true ↔ ¬ ((ps.find? (fun p => p.id = a)).isNone
          ∨ (ps.find? (fun p => p.id = b)).isNone)) :=
      fun a b h _ => parentResolvable_spec u ps a b h
    have hchar := fun i => find?_updatePerson res hfind huid hK hres_corr i
    have hndT : idsNodup (updatePerson pid u ps) := idsNodup_updatePerson pid u ps huid hnd
    have hnd1 : idsNodup (pStage pid u old ps) := idsNodup_pStage pid u old hnd
    have hmn1 : marriagesNodup (pStage pid u old ps) := marriagesNodup_pStage pid u old hnd hmn
    have hfind1 : (pStage pid u old ps).find? (fun p => p.id = pid) =
        some (parentTouchU pid u old res pid old) := by
      rw [find?_pStage pid u old res ps hres_corr pid, hfind]
      rfl
    have hcur1_mem : parentTouchU pid u old res pid old ∈ pStage pid u old ps :=
      List.mem_of_find?_eq_some hfind1
    have hchar1 : ∀ i, (updatePerson pid u ps).find? (fun p => p.id = i) =
        ((pStage pid u old ps).find? (fun p => p.id = i)).map
          (fun q => if i = pid
            then mergePerson (marriageTouchU pid u (parentTouchU pid u old res pid old) pid
              (parentTouchU pid u old res pid old)) u
            else marriageTouchU pid u (parentTouchU pid u old res pid old) i q) := by
      intro i
      rw [hchar i, find?_pStage pid u old res ps hres_corr i, Option.map_map]
      rcases ps.find? (fun p => p.id = i) with _ | q
      · rfl
      · rfl
    have horig1 := mem_origin_of_find?_char hndT hchar1
    intro x hx
    obtain ⟨x1, hx1, hx1id, hx1eq⟩ := horig1 x hx
    rcases hum : (updKey u.marriages) with _ | K
    · by_cases cx : x.id = pid
      · rw [hx1eq, if_pos cx, mergePerson_marriages, upd_none_of_key_none hmk hum,
          updSpread_none, marriageTouchU_eq_none hum]
        exact hmn1 _ hcur1_mem
      · rw [hx1eq, if_neg cx, marriageTouchU_eq_none hum]
        exact hmn1 x1 hx1
    · have hKnd : (K.map (fun m => m.spouseId)).Nodup := by
        rw [hum] at hK
        simpa using hK
      by_cases cx : x.id = pid
      · rw [hx1eq, if_pos cx, mergePerson_marriages, upd_some_of_key_some hum]
        simpa [updSpread] using hKnd
      · rw [hx1eq, if_neg cx, marriageTouchU_eq_some hum]
        exact marriageTouch_keys_nodup pid _ K x.id x1 (hmn1 x1 hx1)

/-- The well-formedness invariant is preserved by `updatePerson` whenever the
payload does not overwrite `id` or `childrenIds` and its new marriage list
has pairwise-distinct spouse ids. -/
theorem WFState_updatePerson {ps : List Person} (pid : String) (u : PersonUpdate)
    (hwf : WFState ps)
    (huid : u.id = none) (hucid : u.childrenIds = none)
    (hpk : u.parentIds ≠ some none) (hmk : u.marriages ≠ some none)
    (hK : (((updKey u.marriages).getD []).map (fun m => m.spouseId)).Nodup) :
    WFState (updatePerson pid u ps) := by
  obtain ⟨hnd, hmn, hcp, hms⟩ :
      idsNodup ps ∧ marriagesNodup ps ∧ childParentSym ps ∧ marriageSym ps :=
    ⟨hwf.1, hwf.2.1, hwf.2.2.1, hwf.2.2.2⟩
  exact ⟨idsNodup_updatePerson pid u ps huid hnd,
    marriagesNodup_updatePerson pid u hnd hmn huid hmk hK,
    childParentSym_updatePerson pid u hnd hcp huid hucid hpk hK,
    marriageSym_updatePerson pid u hnd hms hmn huid hmk hK⟩

/-- A single well-conditioned operation preserves the invariant. -/
theorem WFState_applyOp {ps : List Person} (op : Op) (hwf : WFState ps)
    (hok : OkOp op ps) : WFState (applyOp op ps) := by
  rcases op with ⟨newId, data⟩ | ⟨pid, u⟩ | pid
  · exact WFState_addPerson hwf hok.1 hok.2.1 hok.2.2
  · exact WFState_updatePerson pid u hwf hok.1 hok.2.1 hok.2.2.1 hok.2.2.2.1 hok.2.2.2.2
  · exact WFState_deletePerson hwf pid

/-- A sequence of well-conditioned operations preserves the invariant. -/
theorem WFState_applyOps : ∀ (ops : List Op) (ps : List Person),
    WFState ps → OkOps ops ps → WFState (applyOps ops ps)
  | [], _, hwf, _ => hwf
  | op :: rest, ps, hwf, hok =>
      WFState_applyOps rest (applyOp op ps) (WFState_applyOp op hwf hok.1) hok.2

/-- C1 counterexample: from a well-formed single-person state, an `addPerson`
whose data supplies exactly one parent identifier breaks the symmetry
invariant — the new person records `a` as parent but `a` gains no child
entry, because `addPerson` mirrors links only when `parentIds.length === 2`.
Likewise, from a mirrored parent/child pair, `updatePerson` with the payload
`{parentIds: undefined}` breaks it: the truthiness guard skips the repair
block, yet the object spread still clobbers the child's `parentIds`, so the
parent keeps a child entry that is no longer mirrored. -/
theorem claim_C1_counterexample :
    (WFState c1Base ∧ ¬ symmetryInvariant (applyOps [Op.add "c" c1Data] c1Base)) ∧
    (WFState c1UBase ∧
      ¬ symmetryInvariant (applyOps [Op.update "k" c1UData] c1UBase)) := by
  refine ⟨⟨?_, ?_⟩, ?_, ?_⟩ <;> decide

/-- C1 (amended): after any sequence of `addPerson`/`updatePerson`/
`deletePerson` operations whose side conditions hold — every `addPerson`
gets a fresh id and 0 or 2 parent ids, every `updatePerson` payload leaves
`id` and `childrenIds` absent, passes neither `parentIds` nor `marriages`
as a present-but-`undefined` key, and has pairwise-distinct new spouse
ids — a well-formed state keeps the symmetry invariant: `B.id ∈
A.childrenIds ⇔ A.id ∈ B.parentIds`, and every marriage entry has a
reciprocal entry with matching status/date/place.  (The original claim is
refuted by `claim_C1_counterexample` twice over: `addPerson` with exactly
1 parent id, and `updatePerson` with `{parentIds: undefined}`.) -/
theorem claim_C1 (ops : List Op) (ps : List Person) (hwf : WFState ps)
    (hok : OkOps ops ps) : symmetryInvariant (applyOps ops ps) :=
  (WFState_applyOps ops ps hwf hok).2.2

theorem claim_C1_witness :
    WFState c1WitBase ∧ OkOps c1WitOps c1WitBase ∧
      symmetryInvariant (applyOps c1WitOps c1WitBase) :=
  ⟨by decide, by decide, claim_C1 c1WitOps c1WitBase (by decide) (by decide)⟩

/-- C4 counterexample: on a non-mirrored input list, `deletePerson "x"`
leaves a dangling parent reference to `x` inside `y`, because the delete
walks only the links recorded on `x`'s own record. -/
theorem claim_C4_counterexample : ¬ noDangling "x" (deletePerson "x" c4Base) := by
  decide

/-- C4 (amended): on inputs with pairwise-distinct ids that satisfy the
symmetry invariant (links mirrored), deleting person `X` removes `X`'s
record and leaves no reference to `X.id` in any remaining `parentIds`,
`childrenIds`, or `marriages`.  (The original claim's "for arbitrary input
lists (including ones where X's links were not symmetrically mirrored)" is
refuted by `claim_C4_counterexample`.) -/
theorem claim_C4 {ps : List Person} (hnd : idsNodup ps)
    (hsym : symmetryInvariant ps) {X : Person} (hX : X ∈ ps) :
    noDangling X.id (deletePerson X.id ps) :=
  deletePerson_no_dangling hnd hsym hX

theorem claim_C4_witness :
    idsNodup c4Sym ∧ symmetryInvariant c4Sym ∧ c4X ∈ c4Sym ∧
      noDangling c4X.id (deletePerson c4X.id c4Sym) :=
  ⟨by decide, by decide, by decide, claim_C4 (by decide) (by decide) (by decide)⟩

/-! ## Claim C5 -/

/-- C5: when the LCA is neither person and the sibling special case
(`d1 = 1 ∧ d2 = 1`) does not apply, `describeBloodRelationship` computes
exactly the spec's formula: `cousinLevel = min(d1,d2) - 1`,
`removalLevel = |d1 - d2|`; `cousinLevel = 0` gives the gendered
aunt/uncle sentence for the closer party, "grand"-prefixed when
`removalLevel > 1`; otherwise `{ordinal(cousinLevel)} cousins` with
`cousinLevel = 1` rendered as "first" and a ", once/twice/N times removed"
suffix when `removalLevel > 0`. -/
theorem claim_C5 (person1 person2 lca : Person) (path1 path2 : List Person)
    (h1 : ¬ lca.id = person1.id) (h2 : ¬ lca.id = person2.id)
    (hns : ¬ (((path1.length : Int) - 1) = 1 ∧ ((path2.length : Int) - 1) = 1)) :
    describeBloodRelationship person1 person2 lca path1 path2 =
      specBloodDescription person1 person2 ((path1.length : Int) - 1)
        ((path2.length : Int) - 1) := by
  unfold describeBloodRelationship specBloodDescription
  rw [if_neg h1, if_neg h2, if_neg hns]

theorem claim_C5_witness :
    (¬ c5L.id = c5A.id) ∧ (¬ c5L.id = c5B.id) ∧
      ¬ (((([c5A, c5L, c5L] : List Person).length : Int) - 1) = 1 ∧
        ((([c5B, c5L, c5L] : List Person).length : Int) - 1) = 1) ∧
      describeBloodRelationship c5A c5B c5L [c5A, c5L, c5L] [c5B, c5L, c5L] =
        "Ann and Bob are first cousins." ∧
      describeBloodRelationship c5A c5B c5L [c5A, c5L, c5L] [c5B, c5L, c5L, c5L] =
        "Ann and Bob are first cousins, once removed." :=
  ⟨by decide, by decide, by decide,
    by
      rw [claim_C5 c5A c5B c5L [c5A, c5L, c5L] [c5B, c5L, c5L]
        (by decide) (by decide) (by decide)]
      decide,
    by
      rw [claim_C5 c5A c5B c5L [c5A, c5L, c5L] [c5B, c5L, c5L, c5L]
        (by decide) (by decide) (by decide)]
      decide⟩

/-- C2 (code bug): the round trip does not preserve the parent-child edge
set.  `exportToGedcom` writes `FAMC`/`CHIL` links only inside `FAM` records,
and `FAM` records exist only for marriages, so on a two-person tree whose
only relationship is one parent-child edge the export-import round trip
returns both individuals with no parent edge at all. -/
theorem claim_C2 :
    (∃ p ∈ c2Input, p.parentIds.getD [] ≠ []) ∧
      (roundTrip c2Input).isSome ∧
      ((roundTrip c2Input).getD []).length = c2Input.length ∧
      ∀ p ∈ (roundTrip c2Input).getD [],
        p.parentIds.getD [] = [] ∧ p.childrenIds.getD [] = [] := by
  decide

theorem gedStep_isOk (st : GedState) (l : String) (h : lineOk l = true) :
    (gedStep st l).isOk = true := by
  unfold lineOk at h
  unfold gedStep
  by_cases h0 : jsParseInt ((strSplit (strTrim l) ' ').headD "") = some 0
  · rw [if_pos h0] at h ⊢
    rcases htag : (strSplit (strTrim l) ' ')[1]? with _ | t
    · rw [htag] at h
      simp at h
    · simp only [htag]
      split_ifs <;> rfl
  · rw [if_neg h0] at h ⊢
    by_cases h1 : jsParseInt ((strSplit (strTrim l) ' ').headD "") = some 1
    · rw [if_pos h1]
      dsimp only
      rcases hci : st.currentIndi with _ | ci
      · simp only [hci]
        split_ifs <;>
          first
            | rfl
            | (rcases st.currentFam with _ | cf2 <;> rfl)
      · simp only [hci]
        by_cases hN : (strSplit (strTrim l) ' ')[1]? = some "NAME"
        · rw [if_pos (show _ ∧ _ from ⟨h1, hN⟩)] at h
          rw [if_pos hN]
          rcases hsp : strSplit (String.intercalate " " ((strSplit (strTrim l) ' ').drop 2)) '/'
            with _ | ⟨a, _ | ⟨b, rest⟩⟩
          · rw [hsp] at h
            simp at h
          · rw [hsp] at h
            simp at h
          · simp only [hsp]
            rcases st.currentFam with _ | cf2 <;> split_ifs <;> rfl
        · rw [if_neg hN]
          split_ifs <;>
            first
              | rfl
              | (rcases st.currentFam with _ | cf2 <;> rfl)
    · rw [if_neg h1]
      split_ifs <;> rfl

theorem foldlM_gedStep_isOk :
    ∀ (lines : List String) (st : GedState), (∀ l ∈ lines, lineOk l = true) →
      (lines.foldlM gedStep st).isOk = true
  | [], _, _ => rfl
  | l :: lines, st, h => by
      rw [List.foldlM_cons]
      have h1 := gedStep_isOk st l (h l (List.mem_cons_self l lines))
      rcases hg : gedStep st l with e | st'
      · rw [hg] at h1
        cases h1
      · exact foldlM_gedStep_isOk lines st' (fun x hx => h x (List.mem_cons_of_mem l hx))

/-- C3 counterexample: a `NAME` line whose value has no `/` separator makes
`parseGedcom` throw (`nameParts[1].trim()` on `undefined`), so the parse
does not terminate normally; a bare level line does too, also when the
level is exposed only after trimming JS whitespace such as `\v`. -/
theorem claim_C3_counterexample :
    parseGedcomE "0 @I1@ INDI\n1 NAME John" = .error () ∧
      parseGedcomE "0" = .error () ∧
      parseGedcomE "\x0B0" = .error () := by
  refine ⟨?_, ?_, ?_⟩
  · rfl
  · rfl
  · rfl

/-- C3 (amended): `parseGedcom` terminates normally on every input whose
lines all avoid the two crashing shapes — a level-0 line with no second
token, and a level-1 `NAME` line whose value lacks `/`.  All other
malformed or unrecognized lines (unknown tags, unknown levels, NaN levels)
are skipped without aborting the parse.  (The original "for every input
text" is refuted by `claim_C3_counterexample`.) -/
theorem claim_C3 (s : String) (h : ∀ l ∈ splitLines s, lineOk l = true) :
    (parseGedcomE s).isOk = true := by
  unfold parseGedcomE
  have h1 := foldlM_gedStep_isOk (splitLines s) {} h
  rcases hg : (splitLines s).foldlM gedStep {} with e | st
  · rw [hg] at h1
    cases h1
  · rfl

theorem claim_C3_witness :
    (∀ l ∈ splitLines "garbage\n5 FOO\n0 HEAD\n0 @X@ WHAT\n1 NAME A/B\n9 9 9",
      lineOk l = true) ∧
      (parseGedcomE "garbage\n5 FOO\n0 HEAD\n0 @X@ WHAT\n1 NAME A/B\n9 9 9").isOk = true :=
  ⟨by decide, claim_C3 "garbage\n5 FOO\n0 HEAD\n0 @X@ WHAT\n1 NAME A/B\n9 9 9" (by decide)⟩

theorem famSeenM_eq (p : Person) :
    ∀ (ms : List Marriage) (seen : List String),
      famSeenM p ms seen =
        seen ++ (famScanM p ms seen).map (fun pr => pairKey pr.1.id pr.2.spouseId)
  | [], seen => by simp [famSeenM, famScanM]
  | m :: ms, seen => by
      unfold famSeenM famScanM
      by_cases h : pairKey p.id m.spouseId ∈ seen
      · rw [if_pos h, if_pos h]
        exact famSeenM_eq p ms seen
      · rw [if_neg h, if_neg h]
        rw [famSeenM_eq p ms (seen ++ [pairKey p.id m.spouseId])]
        simp

theorem famScanM_keys_fresh (p : Person) :
    ∀ (ms : List Marriage) (seen : List String),
      ((famScanM p ms seen).map (fun pr => pairKey pr.1.id pr.2.spouseId)).Nodup ∧
        ∀ k ∈ (famScanM p ms seen).map (fun pr => pairKey pr.1.id pr.2.spouseId), k ∉ seen
  | [], seen => by simp [famScanM]
  | m :: ms, seen => by
      unfold famScanM
      by_cases h : pairKey p.id m.spouseId ∈ seen
      · rw [if_pos h]
        exact famScanM_keys_fresh p ms seen
      · rw [if_neg h]
        obtain ⟨ih1, ih2⟩ := famScanM_keys_fresh p ms (seen ++ [pairKey p.id m.spouseId])
        simp only [List.map_cons]
        constructor
        · rw [List.nodup_cons]
          exact ⟨fun hc => ih2 _ hc (by simp), ih1⟩
        · intro k hk
          rcases List.mem_cons.mp hk with hk | hk
          · rw [hk]
            exact h
          · intro hks
            exact ih2 k hk (by simp [hks])

theorem mem_famSeenM (p : Person) :
    ∀ (ms : List Marriage) (seen : List String) {k : String},
      k ∈ seen → k ∈ famSeenM p ms seen
  | [], _, _, hk => hk
  | m :: ms, seen, k, hk => by
      unfold famSeenM
      dsimp only
      split_ifs with h
      · exact mem_famSeenM p ms seen hk
      · exact mem_famSeenM p ms _ (List.mem_append_left _ hk)

theorem key_mem_famSeenM (p : Person) :
    ∀ (ms : List Marriage) (seen : List String), ∀ m ∈ ms,
      pairKey p.id m.spouseId ∈ famSeenM p ms seen
  | [], _, m, hm => absurd hm (List.not_mem_nil m)
  | m0 :: ms, seen, m, hm => by
      unfold famSeenM
      dsimp only
      rcases List.mem_cons.mp hm with h | h
      · subst h
        split_ifs with hk
        · exact mem_famSeenM p ms seen hk
        · exact mem_famSeenM p ms _ (by simp)
      · split_ifs with hk <;> exact key_mem_famSeenM p ms _ m h

theorem famSeenP_eq :
    ∀ (qs : List Person) (seen : List String),
      famSeenP qs seen =
        seen ++ (famScanP qs seen).map (fun pr => pairKey pr.1.id pr.2.spouseId)
  | [], seen => by simp [famSeenP, famScanP]
  | q :: qs, seen => by
      unfold famSeenP famScanP
      rw [famSeenP_eq qs _, famSeenM_eq q _ seen]
      simp

theorem famScanP_keys_fresh :
    ∀ (qs : List Person) (seen : List String),
      ((famScanP qs seen).map (fun pr => pairKey pr.1.id pr.2.spouseId)).Nodup ∧
        ∀ k ∈ (famScanP qs seen).map (fun pr => pairKey pr.1.id pr.2.spouseId), k ∉ seen
  | [], seen => by simp [famScanP]
  | q :: qs, seen => by
      unfold famScanP
      obtain ⟨hM1, hM2⟩ := famScanM_keys_fresh q (q.marriages.getD []) seen
      obtain ⟨hP1, hP2⟩ := famScanP_keys_fresh qs (famSeenM q (q.marriages.getD []) seen)
      have hfreshP : ∀ k ∈ (famScanP qs (famSeenM q (q.marriages.getD []) seen)).map
          (fun pr => pairKey pr.1.id pr.2.spouseId),
          k ∉ seen ∧ k ∉ (famScanM q (q.marriages.getD []) seen).map
            (fun pr => pairKey pr.1.id pr.2.spouseId) := by
        intro k hk
        have := hP2 k hk
        rw [famSeenM_eq q _ seen] at this
        simp only [List.mem_append] at this
        exact ⟨fun hc => this (Or.inl hc), fun hc => this (Or.inr hc)⟩
      constructor
      · rw [List.map_append]
        refine List.Nodup.append hM1 hP1 ?_
        intro k hk1 hk2
        exact (hfreshP k hk2).2 hk1
      · intro k hk
        rw [List.map_append, List.mem_append] at hk
        rcases hk with hk | hk
        · exact hM2 k hk
        · exact (hfreshP k hk).1

theorem key_mem_famSeenP :
    ∀ (qs : List Person) (seen : List String), ∀ q ∈ qs, ∀ m ∈ q.marriages.getD [],
      pairKey q.id m.spouseId ∈ famSeenP qs seen
  | [], _, q, hq, _, _ => absurd hq (List.not_mem_nil q)
  | q0 :: qs, seen, q, hq, m, hm => by
      unfold famSeenP
      rcases List.mem_cons.mp hq with h | h
      · subst h
        have h1 := key_mem_famSeenM q (q.marriages.getD []) seen m hm
        rw [famSeenP_eq]
        exact List.mem_append_left _ h1
      · exact key_mem_famSeenP qs _ q h m hm

/-- C8 counterexample: the marriage between `"a"` and `"b-c"` never produces
a FAM record, because its dedup key `"a-b-c"` collides with the key of the
distinct pair `{"a-b","c"}` — two distinct unordered pairs are conflated by
the `sort().join('-')` key. -/
theorem claim_C8_counterexample :
    (∃ p ∈ c8People, ∃ m ∈ p.marriages.getD [], p.id = "a" ∧ m.spouseId = "b-c") ∧
      (famPairList c8People).length = 1 ∧
      ¬ (∃ pr ∈ famPairList c8People,
          (pr.1.id = "a" ∧ pr.2.spouseId = "b-c") ∨
            (pr.1.id = "b-c" ∧ pr.2.spouseId = "a")) := by
  decide

/-- C8 (amended): `exportToGedcom` emits exactly one FAM record per distinct
*sorted-join key* `[p1Id,p2Id].sort().join('-')`: the emitted entries have
pairwise-distinct keys, and every marriage entry of every person is covered
by an emitted entry with the same key (only the first encountered one
produces the record).  The original claim's "no two distinct unordered
pairs are ever conflated" is refuted by `claim_C8_counterexample`: distinct
pairs can share a key when ids contain `'-'`. -/
theorem claim_C8 (people : List Person) :
    ((famPairList people).map (fun pr => pairKey pr.1.id pr.2.spouseId)).Nodup ∧
      ∀ p ∈ people, ∀ m ∈ p.marriages.getD [],
        ∃ pr ∈ famPairList people,
          pairKey pr.1.id pr.2.spouseId = pairKey p.id m.spouseId := by
  constructor
  · exact (famScanP_keys_fresh people []).1
  · intro p hp m hm
    have h1 := key_mem_famSeenP people [] p hp m hm
    rw [famSeenP_eq] at h1
    simp only [List.nil_append] at h1
    rcases List.mem_map.mp h1 with ⟨pr, hpr, hk⟩
    exact ⟨pr, hpr, hk⟩

/-- C9 counterexample: in a male–male marriage the record owner goes on
HUSB and the (also Male) spouse goes on WIFE — the assignment is by the
owner's gender, not by each spouse's gender. -/
theorem claim_C9_counterexample :
    c9M2.gender = some Gender.male ∧
      (husbWife c9M1 c9M2).2 = c9M2 ∧
      famRecord [c9M1, c9M2] (gedcomIdList [c9M1, c9M2]) 0 c9M1 { spouseId := "m2" } =
        "0 @F1@ FAM\n1 HUSB @I1@\n1 WIFE @I2@\n" := by
  refine ⟨rfl, by decide, ?_⟩
  rfl

/-- C9 (amended): the HUSB/WIFE split of a FAM record is decided by the
record owner's gender alone (owner Male → owner on HUSB, else spouse on
HUSB).  For pairs with exactly one Male spouse this agrees with the spec
(Male on HUSB, non-Male on WIFE); for same-gender pairs the per-spouse rule
fails (`claim_C9_counterexample`). -/
theorem claim_C9 (p1 p2 : Person)
    (hx : (p1.gender = some Gender.male) ↔ ¬ (p2.gender = some Gender.male)) :
    (husbWife p1 p2).1.gender = some Gender.male ∧
      ¬ (husbWife p1 p2).2.gender = some Gender.male ∧
      husbWife p1 p2 = (if p1.gender = some Gender.male then (p1, p2) else (p2, p1)) := by
  unfold husbWife
  by_cases h : p1.gender = some Gender.male
  · refine ⟨?_, ?_, ?_⟩ <;> simp [h, hx.mp h]
  · have h2 : p2.gender = some Gender.male := by
      by_contra hc
      exact h (hx.mpr hc)
    refine ⟨?_, ?_, ?_⟩ <;> simp [h, h2]

theorem claim_C9_witness :
    ((c9W1.gender = some Gender.male) ↔ ¬ (c9W2.gender = some Gender.male)) ∧
      ((husbWife c9W1 c9W2).1.gender = some Gender.male ∧
        ¬ (husbWife c9W1 c9W2).2.gender = some Gender.male ∧
        husbWife c9W1 c9W2 =
          (if c9W1.gender = some Gender.male then (c9W1, c9W2) else (c9W2, c9W1))) :=
  ⟨by decide, claim_C9 c9W1 c9W2 (by decide)⟩

theorem loopF_term {σ ρ : Type} (f : σ → σ ⊕ ρ) (P : σ → Prop) (μ : σ → Nat)
    (hP : ∀ s s', P s → f s = .inl s' → P s')
    (hdec : ∀ s s', P s → f s = .inl s' → μ s' < μ s) :
    ∀ (fuel : Nat) (s : σ), P s → μ s < fuel → (loopF f fuel s).isSome = true
  | 0, _, _, h => absurd h (Nat.not_lt_zero _)
  | fuel + 1, s, hPs, h => by
      unfold loopF
      rcases hf : f s with s' | r
      · exact loopF_term f P μ hP hdec fuel s' (hP s s' hPs hf)
          (Nat.lt_of_lt_of_le (hdec s s' hPs hf) (Nat.lt_succ_iff.mp h))
      · rfl

theorem loopF_inv {σ ρ : Type} (f : σ → σ ⊕ ρ) (P : σ → Prop) (Q : ρ → Prop)
    (hP : ∀ s s', P s → f s = .inl s' → P s')
    (hQ : ∀ s r, P s → f s = .inr r → Q r) :
    ∀ (fuel : Nat) (s : σ) (r : ρ), P s → loopF f fuel s = some r → Q r
  | 0, _, _, _, h => by cases h
  | fuel + 1, s, r, hPs, h => by
      unfold loopF at h
      rcases hf : f s with s' | r' <;> rw [hf] at h
      · exact loopF_inv f P Q hP hQ fuel s' r (hP s s' hPs hf) h
      · cases h
        exact hQ s r hPs hf

theorem length_filter_imp {α : Type} {p q : α → Bool}
    (h : ∀ a, p a = true → q a = true) :
    ∀ l : List α, (l.filter p).length ≤ (l.filter q).length
  | [] => Nat.le_refl _
  | a :: l => by
      by_cases hp : p a = true
      · rw [List.filter_cons_of_pos hp, List.filter_cons_of_pos (h a hp)]
        exact Nat.succ_le_succ (length_filter_imp h l)
      · rw [List.filter_cons_of_neg (by simpa using hp)]
        by_cases hq : q a = true
        · rw [List.filter_cons_of_pos hq]
          exact Nat.le_succ_of_le (length_filter_imp h l)
        · rw [List.filter_cons_of_neg (by simpa using hq)]
          exact length_filter_imp h l

theorem unvisited_mono {U vis add : List String} :
    unvisitedCount U (vis ++ add) ≤ unvisitedCount U vis := by
  refine length_filter_imp ?_ U.dedup
  intro a ha
  simp only [decide_eq_true_eq] at ha ⊢
  intro hc
  exact ha (List.mem_append_left _ hc)

theorem filter_notmem_lt {i : String} {vis : List String} (hni : i ∉ vis) :
    ∀ l : List String, i ∈ l →
      (l.filter (fun j => j ∉ vis ++ [i])).length < (l.filter (fun j => j ∉ vis)).length
  | [], h => absurd h (List.not_mem_nil i)
  | a :: l, h => by
      by_cases ha : a = i
      · subst ha
        rw [List.filter_cons_of_neg (by simp), List.filter_cons_of_pos (by simpa using hni)]
        refine Nat.lt_succ_of_le (length_filter_imp ?_ l)
        intro b hb
        simp only [decide_eq_true_eq] at hb ⊢
        intro hc
        exact hb (List.mem_append_left _ hc)
      · have hil : i ∈ l := by
          rcases List.mem_cons.mp h with h1 | h1
          · exact absurd h1.symm ha
          · exact h1
        by_cases hav : a ∈ vis
        · rw [List.filter_cons_of_neg (by simp [hav]),
            List.filter_cons_of_neg (by simpa using hav)]
          exact filter_notmem_lt hni l hil
        · rw [List.filter_cons_of_pos (by
              simp only [decide_eq_true_eq]
              intro hc
              rcases List.mem_append.mp hc with hc | hc
              · exact hav hc
              · exact ha (by simpa using hc)),
            List.filter_cons_of_pos (by simpa using hav)]
          exact Nat.succ_lt_succ (filter_notmem_lt hni l hil)

theorem unvisited_strict {U vis : List String} {i : String} (hU : i ∈ U) (hni : i ∉ vis) :
    unvisitedCount U (vis ++ [i]) < unvisitedCount U vis :=
  filter_notmem_lt hni U.dedup (List.mem_dedup.mpr hU)

theorem flatMap_part_le {α : Type} (f : α → List String) :
    ∀ (l : List α) (a : α), a ∈ l → (f a).length ≤ (l.flatMap f).length
  | [], a, h => absurd h (List.not_mem_nil a)
  | b :: l, a, h => by
      rw [List.flatMap_cons, List.length_append]
      rcases List.mem_cons.mp h with h1 | h1
      · subst h1
        exact Nat.le_add_right _ _
      · exact Nat.le_trans (flatMap_part_le f l a h1) (Nat.le_add_left _ _)

theorem id_mem_of_find? {ps : List Person} {i : String} {p : Person}
    (h : getPersonById i ps = some p) : i ∈ ps.map (fun q => q.id) := by
  unfold getPersonById at h
  have h1 : p ∈ ps := List.mem_of_find?_eq_some h
  have h2 : p.id = i := by simpa using List.find?_some h
  exact List.mem_map.mpr ⟨p, h1, h2⟩

theorem gahStep_dec (ps : List Person) (s s' : List (String × Nat) × List String × List (Person × Nat))
    (h : gahStep ps s = .inl s') :
    dqMeasure ps (parentUniverse ps).length s'.1.length s'.2.1 <
      dqMeasure ps (parentUniverse ps).length s.1.length s.2.1 := by
  unfold gahStep at h
  rcases hq : s.1 with _ | ⟨⟨personId, level⟩, rest⟩ <;> rw [hq] at h <;> dsimp only at h
  · cases h
  · by_cases hskip : personId = "" ∨ personId ∈ s.2.1
    · rw [if_pos hskip] at h
      cases h
      unfold dqMeasure
      simp only [hq]
      exact Nat.add_lt_add_left (Nat.lt_succ_self _) _
    · rw [if_neg hskip] at h
      rcases hres : getPersonById personId ps with _ | p <;> rw [hres] at h <;> cases h
      · unfold dqMeasure
        simp only [hq, List.length_cons]
        have h1 : unvisitedCount (ps.map (fun q => q.id)) (s.2.1 ++ [personId]) ≤
            unvisitedCount (ps.map (fun q => q.id)) s.2.1 := unvisited_mono
        have := Nat.mul_le_mul_right ((parentUniverse ps).length + 2) h1
        omega
      · unfold dqMeasure
        simp only [hq, List.length_append, List.length_cons, List.length_map]
        have h1 : unvisitedCount (ps.map (fun q => q.id)) (s.2.1 ++ [personId]) <
            unvisitedCount (ps.map (fun q => q.id)) s.2.1 :=
          unvisited_strict (id_mem_of_find? hres) (fun hc => hskip (Or.inr hc))
        have h2 : ((p.parentIds.getD []).filter (fun pid => pid ∉ s.2.1 ++ [personId])).length ≤
            (parentUniverse ps).length := by
          unfold parentUniverse
          refine Nat.le_trans (List.length_filter_le _ _)
            (flatMap_part_le (fun q => q.parentIds.getD []) ps p ?_)
          unfold getPersonById at hres
          exact List.mem_of_find?_eq_some hres
        have h3 := Nat.mul_le_mul_right ((parentUniverse ps).length + 2)
          (Nat.succ_le_of_lt h1)
        rw [Nat.succ_mul] at h3
        omega

theorem gahLoop_isSome (ps : List Person) (q0 : List (String × Nat)) :
    (loopF (gahStep ps) (dqParentFuel ps q0.length) (q0, [], [])).isSome = true := by
  refine loopF_term (gahStep ps) (fun _ => True)
    (fun s => dqMeasure ps (parentUniverse ps).length s.1.length s.2.1)
    (fun _ _ _ _ => trivial) (fun s s' _ h => gahStep_dec ps s s' h) _ _ trivial ?_
  dsimp only
  unfold dqMeasure dqParentFuel unvisitedCount
  have h1 : ((ps.map (fun q => q.id)).dedup.filter (fun i => i ∉ ([] : List String))).length ≤
      ps.length := by
    refine Nat.le_trans (List.length_filter_le _ _) ?_
    have := (ps.map (fun q => q.id)).dedup_sublist.length_le
    simpa using this
  have := Nat.mul_le_mul_right ((parentUniverse ps).length + 2) h1
  omega

theorem gdwrStep_dec (ps : List Person)
    (s s' : List (String × Nat) × List String × List (Person × String × Nat))
    (h : gdwrStep ps s = .inl s') :
    dqMeasure ps (childUniverse ps).length s'.1.length s'.2.1 <
      dqMeasure ps (childUniverse ps).length s.1.length s.2.1 := by
  unfold gdwrStep at h
  rcases hq : s.1 with _ | ⟨⟨personId, generation⟩, rest⟩ <;> rw [hq] at h <;> dsimp only at h
  · cases h
  · by_cases hskip : personId = "" ∨ personId ∈ s.2.1
    · rw [if_pos hskip] at h
      cases h
      unfold dqMeasure
      simp only [hq]
      exact Nat.add_lt_add_left (Nat.lt_succ_self _) _
    · rw [if_neg hskip] at h
      rcases hres : getPersonById personId ps with _ | p <;> rw [hres] at h <;> cases h
      · unfold dqMeasure
        simp only [hq, List.length_cons]
        have h1 : unvisitedCount (ps.map (fun q => q.id)) (s.2.1 ++ [personId]) ≤
            unvisitedCount (ps.map (fun q => q.id)) s.2.1 := unvisited_mono
        have := Nat.mul_le_mul_right ((childUniverse ps).length + 2) h1
        omega
      · unfold dqMeasure
        simp only [hq, List.length_append, List.length_cons, List.length_map]
        have h1 : unvisitedCount (ps.map (fun q => q.id)) (s.2.1 ++ [personId]) <
            unvisitedCount (ps.map (fun q => q.id)) s.2.1 :=
          unvisited_strict (id_mem_of_find? hres) (fun hc => hskip (Or.inr hc))
        have h2 : ((p.childrenIds.getD []).filter (fun cid => cid ∉ s.2.1 ++ [personId])).length ≤
            (childUniverse ps).length := by
          unfold childUniverse
          refine Nat.le_trans (List.length_filter_le _ _)
            (flatMap_part_le (fun q => q.childrenIds.getD []) ps p ?_)
          unfold getPersonById at hres
          exact List.mem_of_find?_eq_some hres
        have h3 := Nat.mul_le_mul_right ((childUniverse ps).length + 2)
          (Nat.succ_le_of_lt h1)
        rw [Nat.succ_mul] at h3
        omega

theorem gdwrLoop_isSome (ps : List Person) (q0 : List (String × Nat)) :
    (loopF (gdwrStep ps) (childFuel ps q0.length) (q0, [], [])).isSome = true := by
  refine loopF_term (gdwrStep ps) (fun _ => True)
    (fun s => dqMeasure ps (childUniverse ps).length s.1.length s.2.1)
    (fun _ _ _ _ => trivial) (fun s s' _ h => gdwrStep_dec ps s s' h) _ _ trivial ?_
  dsimp only
  unfold dqMeasure childFuel unvisitedCount
  have h1 : ((ps.map (fun q => q.id)).dedup.filter (fun i => i ∉ ([] : List String))).length ≤
      ps.length := by
    refine Nat.le_trans (List.length_filter_le _ _) ?_
    have := (ps.map (fun q => q.id)).dedup_sublist.length_le
    simpa using this
  have := Nat.mul_le_mul_right ((childUniverse ps).length + 2) h1
  omega

theorem lcaQueue1Step_dec (ps : List Person)
    (s s' : List String × List String × List (String × Person))
    (h : lcaQueue1Step ps s = .inl s') :
    dqMeasure ps (parentUniverse ps).length s'.1.length s'.2.1 <
      dqMeasure ps (parentUniverse ps).length s.1.length s.2.1 := by
  unfold lcaQueue1Step at h
  rcases hq : s.1 with _ | ⟨currentId, rest⟩ <;> rw [hq] at h <;> dsimp only at h
  · cases h
  · by_cases hskip : currentId ∈ s.2.1
    · rw [if_pos hskip] at h
      cases h
      unfold dqMeasure
      simp only [hq]
      exact Nat.add_lt_add_left (Nat.lt_succ_self _) _
    · rw [if_neg hskip] at h
      rcases hres : getPersonById currentId ps with _ | p <;> rw [hres] at h <;> cases h
      · unfold dqMeasure
        simp only [hq, List.length_cons]
        have h1 : unvisitedCount (ps.map (fun q => q.id)) (s.2.1 ++ [currentId]) ≤
            unvisitedCount (ps.map (fun q => q.id)) s.2.1 := unvisited_mono
        have := Nat.mul_le_mul_right ((parentUniverse ps).length + 2) h1
        omega
      · unfold dqMeasure
        simp only [hq, List.length_append, List.length_cons]
        have h1 : unvisitedCount (ps.map (fun q => q.id)) (s.2.1 ++ [currentId]) <
            unvisitedCount (ps.map (fun q => q.id)) s.2.1 :=
          unvisited_strict (id_mem_of_find? hres) hskip
        have h2 : (p.parentIds.getD []).length ≤ (parentUniverse ps).length := by
          unfold parentUniverse
          refine flatMap_part_le (fun q => q.parentIds.getD []) ps p ?_
          unfold getPersonById at hres
          exact List.mem_of_find?_eq_some hres
        have h3 := Nat.mul_le_mul_right ((parentUniverse ps).length + 2)
          (Nat.succ_le_of_lt h1)
        rw [Nat.succ_mul] at h3
        omega

theorem lcaQueue1Loop_isSome (ps : List Person) (i0 : String) :
    (loopF (lcaQueue1Step ps) (dqParentFuel ps 1) ([i0], [], [])).isSome = true := by
  refine loopF_term (lcaQueue1Step ps) (fun _ => True)
    (fun s => dqMeasure ps (parentUniverse ps).length s.1.length s.2.1)
    (fun _ _ _ _ => trivial) (fun s s' _ h => lcaQueue1Step_dec ps s s' h) _ _ trivial ?_
  dsimp only
  simp only [List.length_singleton]
  unfold dqMeasure dqParentFuel unvisitedCount
  have h1 : ((ps.map (fun q => q.id)).dedup.filter (fun i => i ∉ ([] : List String))).length ≤
      ps.length := by
    refine Nat.le_trans (List.length_filter_le _ _) ?_
    have := (ps.map (fun q => q.id)).dedup_sublist.length_le
    simpa using this
  have := Nat.mul_le_mul_right ((parentUniverse ps).length + 2) h1
  omega

theorem expandParents_bound (ps : List Person) (endId : String) (path : List Person)
    (U : List String) :
    ∀ (pids : List String) (qAcc : List (String × List Person)) (vis : List String),
      (∀ pid ∈ pids, pid ∈ U) →
      ∀ {q' : List (String × List Person)} {v' : List String},
        expandParents ps endId path pids qAcc vis = .inl (q', v') →
        q'.length + unvisitedCount U v' ≤ qAcc.length + unvisitedCount U vis
  | [], qAcc, vis, _, q', v', h => by
      unfold expandParents at h
      cases h
      exact Nat.le_refl _
  | pid :: rest, qAcc, vis, hU, q', v', h => by
      unfold expandParents at h
      by_cases hv : pid ∈ vis
      · rw [if_pos hv] at h
        exact expandParents_bound ps endId path U rest qAcc vis
          (fun x hx => hU x (List.mem_cons_of_mem _ hx)) h
      · rw [if_neg hv] at h
        dsimp only at h
        have hlt : unvisitedCount U (vis ++ [pid]) < unvisitedCount U vis :=
          unvisited_strict (hU pid (List.mem_cons_self _ _)) hv
        rcases hres : getPersonById pid ps with _ | pp <;> rw [hres] at h <;> dsimp only at h
        · have := expandParents_bound ps endId path U rest qAcc (vis ++ [pid])
            (fun x hx => hU x (List.mem_cons_of_mem _ hx)) h
          omega
        · by_cases he : pid = endId
          · rw [if_pos he] at h
            cases h
          · rw [if_neg he] at h
            have := expandParents_bound ps endId path U rest (qAcc ++ [(pid, path ++ [pp])])
              (vis ++ [pid]) (fun x hx => hU x (List.mem_cons_of_mem _ hx)) h
            simp only [List.length_append, List.length_singleton] at this
            omega

theorem parents_sub_universe {ps : List Person} {p : Person} (hp : p ∈ ps) :
    ∀ pid ∈ p.parentIds.getD [], pid ∈ parentUniverse ps := by
  intro pid hpid
  exact List.mem_flatMap.mpr ⟨p, hp, hpid⟩

theorem ptaStep_dec (ps : List Person) (endId : String)
    (s s' : List (String × List Person) × List String)
    (h : ptaStep ps endId s = .inl s') :
    eqMeasure (parentUniverse ps) s'.1.length s'.2 <
      eqMeasure (parentUniverse ps) s.1.length s.2 := by
  unfold ptaStep at h
  rcases hq : s.1 with _ | ⟨⟨personId, path⟩, rest⟩ <;> rw [hq] at h <;> dsimp only at h
  · cases h
  · rcases hres : getPersonById personId ps with _ | cur <;> rw [hres] at h <;>
      dsimp only at h
    · cases h
      unfold eqMeasure
      simp only [hq, List.length_cons]
      omega
    · rcases hexp : expandParents ps endId path (cur.parentIds.getD []) [] s.2
        with ⟨newEntries, vis⟩ | found <;> rw [hexp] at h
      · cases h
        have hb := expandParents_bound ps endId path (parentUniverse ps)
          (cur.parentIds.getD []) [] s.2
          (parents_sub_universe (by
            unfold getPersonById at hres
            exact List.mem_of_find?_eq_some hres)) hexp
        unfold eqMeasure
        simp only [hq, List.length_append, List.length_cons, List.length_nil] at hb ⊢
        omega
      · cases h

theorem ptaLoop_isSome (ps : List Person) (endId startId : String) (startPerson : Person) :
    (loopF (ptaStep ps endId) (parentFuel ps)
      ([(startId, [startPerson])], [startId])).isSome = true := by
  refine loopF_term (ptaStep ps endId) (fun _ => True)
    (fun s => eqMeasure (parentUniverse ps) s.1.length s.2)
    (fun _ _ _ _ => trivial) (fun s s' _ h => ptaStep_dec ps endId s s' h) _ _ trivial ?_
  dsimp only
  unfold eqMeasure parentFuel unvisitedCount
  simp only [List.length_singleton]
  have h1 : ((parentUniverse ps).dedup.filter
      (fun i => i ∉ ([startId] : List String))).length ≤ (parentUniverse ps).length := by
    refine Nat.le_trans (List.length_filter_le _ _) ?_
    have := (parentUniverse ps).dedup_sublist.length_le
    simpa using this
  omega

theorem visitFold_bound (U : List String) :
    ∀ (pids : List String) (acc : List String × List String),
      (∀ pid ∈ pids, pid ∈ U) →
      ((pids.foldl (fun acc pid =>
          if pid ∈ acc.2 then acc else (acc.1 ++ [pid], acc.2 ++ [pid])) acc).1.length +
        unvisitedCount U (pids.foldl (fun acc pid =>
          if pid ∈ acc.2 then acc else (acc.1 ++ [pid], acc.2 ++ [pid])) acc).2) ≤
        acc.1.length + unvisitedCount U acc.2
  | [], _, _ => Nat.le_refl _
  | pid :: rest, acc, hU => by
      rw [List.foldl_cons]
      by_cases hv : pid ∈ acc.2
      · rw [if_pos hv]
        exact visitFold_bound U rest acc (fun x hx => hU x (List.mem_cons_of_mem _ hx))
      · rw [if_neg hv]
        have hlt : unvisitedCount U (acc.2 ++ [pid]) < unvisitedCount U acc.2 :=
          unvisited_strict (hU pid (List.mem_cons_self _ _)) hv
        have := visitFold_bound U rest (acc.1 ++ [pid], acc.2 ++ [pid])
          (fun x hx => hU x (List.mem_cons_of_mem _ hx))
        simp only [List.length_append, List.length_singleton] at this
        omega

theorem lcaQueue2Step_dec (ps : List Person) (p1Id p2Id : String)
    (anc : List (String × Person)) (s s' : List String × List String)
    (h : lcaQueue2Step ps p1Id p2Id anc s = .inl s') :
    eqMeasure (parentUniverse ps) s'.1.length s'.2 <
      eqMeasure (parentUniverse ps) s.1.length s.2 := by
  unfold lcaQueue2Step at h
  rcases hq : s.1 with _ | ⟨currentId, rest⟩ <;> rw [hq] at h <;> dsimp only at h
  · cases h
  · rcases hhit : (match anc.find? (fun e => e.1 = currentId) with
      | some e =>
          match getPathToAncestor ps p1Id e.2.id, getPathToAncestor ps p2Id e.2.id with
          | some path1, some path2 => some (e.2, path1, path2)
          | _, _ => none
      | none => none : Option (Person × List Person × List Person)) with _ | r <;>
      rw [hhit] at h
    · rcases hres : getPersonById currentId ps with _ | person <;> rw [hres] at h <;>
        dsimp only at h <;> cases h
      · unfold eqMeasure
        simp only [hq, List.length_cons]
        omega
      · have hb := visitFold_bound (parentUniverse ps) (person.parentIds.getD [])
          (rest, s.2) (parents_sub_universe (by
            unfold getPersonById at hres
            exact List.mem_of_find?_eq_some hres))
        unfold eqMeasure
        simp only [hq, List.length_cons] at hb ⊢
        omega
    · cases h

theorem lcaQueue2Loop_isSome (ps : List Person) (p1Id p2Id : String)
    (anc : List (String × Person)) (i0 : String) :
    (loopF (lcaQueue2Step ps p1Id p2Id anc) (parentFuel ps) ([i0], [i0])).isSome = true := by
  refine loopF_term (lcaQueue2Step ps p1Id p2Id anc) (fun _ => True)
    (fun s => eqMeasure (parentUniverse ps) s.1.length s.2)
    (fun _ _ _ _ => trivial) (fun s s' _ h => lcaQueue2Step_dec ps p1Id p2Id anc s s' h)
    _ _ trivial ?_
  dsimp only
  unfold eqMeasure parentFuel unvisitedCount
  simp only [List.length_singleton]
  have h1 : ((parentUniverse ps).dedup.filter
      (fun i => i ∉ ([i0] : List String))).length ≤ (parentUniverse ps).length := by
    refine Nat.le_trans (List.length_filter_le _ _) ?_
    have := (parentUniverse ps).dedup_sublist.length_le
    simpa using this
  omega

theorem fgpExpand_bound (ps : List Person) (path : List Person) (U : List String) :
    ∀ (nids : List String) (acc : List (String × List Person) × List String),
      (∀ nid ∈ nids, nid ∈ U) →
      ((nids.foldl (fgpExpand ps path) acc).1.length +
        unvisitedCount U (nids.foldl (fgpExpand ps path) acc).2) ≤
        acc.1.length + unvisitedCount U acc.2
  | [], _, _ => Nat.le_refl _
  | nid :: rest, acc, hU => by
      rw [List.foldl_cons]
      unfold fgpExpand
      by_cases hv : nid ∈ acc.2
      · rw [if_pos hv]
        exact fgpExpand_bound ps path U rest acc
          (fun x hx => hU x (List.mem_cons_of_mem _ hx))
      · rw [if_neg hv]
        dsimp only
        have hlt : unvisitedCount U (acc.2 ++ [nid]) < unvisitedCount U acc.2 :=
          unvisited_strict (hU nid (List.mem_cons_self _ _)) hv
        rcases hres : getPersonById nid ps with _ | np <;> dsimp only
        · have := fgpExpand_bound ps path U rest (acc.1, acc.2 ++ [nid])
            (fun x hx => hU x (List.mem_cons_of_mem _ hx))
          unfold fgpExpand at this
          dsimp only at this
          omega
        · have := fgpExpand_bound ps path U rest
            (acc.1 ++ [(nid, path ++ [np])], acc.2 ++ [nid])
            (fun x hx => hU x (List.mem_cons_of_mem _ hx))
          unfold fgpExpand at this
          dsimp only at this
          simp only [List.length_append, List.length_singleton] at this
          omega

theorem neighbors_sub_universe {p1 : Person} {ps : List Person} {c : Person}
    (hc : c = p1 ∨ c ∈ ps) : ∀ nid ∈ neighborIds c, nid ∈ genericUniverse p1 ps := by
  intro nid hnid
  unfold genericUniverse
  rcases hc with h | h
  · subst h
    exact List.mem_append_left _ hnid
  · exact List.mem_append_right _ (List.mem_flatMap.mpr ⟨c, h, hnid⟩)

theorem fgpExpand_wf (ps : List Person) (path : List Person) (p1 : Person) :
    ∀ (nids : List String) (acc : List (String × List Person) × List String),
      (∀ e ∈ acc.1, ∀ c, e.2.getLast? = some c → (c = p1 ∨ c ∈ ps)) →
      ∀ e ∈ (nids.foldl (fgpExpand ps path) acc).1, ∀ c, e.2.getLast? = some c →
        (c = p1 ∨ c ∈ ps)
  | [], _, hacc => hacc
  | nid :: rest, acc, hacc => by
      rw [List.foldl_cons]
      unfold fgpExpand
      by_cases hv : nid ∈ acc.2
      · rw [if_pos hv]
        exact fgpExpand_wf ps path p1 rest acc hacc
      · rw [if_neg hv]
        dsimp only
        rcases hres : getPersonById nid ps with _ | np <;> dsimp only
        · exact fgpExpand_wf ps path p1 rest (acc.1, acc.2 ++ [nid]) hacc
        · refine fgpExpand_wf ps path p1 rest
            (acc.1 ++ [(nid, path ++ [np])], acc.2 ++ [nid]) ?_
          intro e he c hc
          rcases List.mem_append.mp he with he | he
          · exact hacc e he c hc
          · rcases List.mem_singleton.mp he with rfl
            simp only [List.getLast?_append, List.getLast?_singleton] at hc
            cases hc
            right
            unfold getPersonById at hres
            exact List.mem_of_find?_eq_some hres

theorem fgpStep_wf (ps : List Person) (p1 p2 : Person)
    (s s' : List (String × List Person) × List String)
    (hwf : fgpWF p1 ps s) (h : fgpStep ps p2 s = .inl s') : fgpWF p1 ps s' := by
  unfold fgpStep at h
  rcases hq : s.1 with _ | ⟨⟨personId, path⟩, rest⟩ <;> rw [hq] at h <;> dsimp only at h
  · cases h
  · have hrest : ∀ e ∈ rest, ∀ c, e.2.getLast? = some c → (c = p1 ∨ c ∈ ps) :=
      fun e he => hwf e (by rw [hq]; exact List.mem_cons_of_mem _ he)
    by_cases hp2 : personId = p2.id
    · rw [if_pos hp2] at h
      cases h
    · rw [if_neg hp2] at h
      rcases hlast : path.getLast? with _ | cur <;> rw [hlast] at h <;> cases h
      · exact hrest
      · exact fgpExpand_wf ps path p1 (neighborIds cur) (rest, s.2) hrest

theorem fgpStep_dec (ps : List Person) (p1 p2 : Person)
    (s s' : List (String × List Person) × List String)
    (hwf : fgpWF p1 ps s) (h : fgpStep ps p2 s = .inl s') :
    eqMeasure (genericUniverse p1 ps) s'.1.length s'.2 <
      eqMeasure (genericUniverse p1 ps) s.1.length s.2 := by
  unfold fgpStep at h
  rcases hq : s.1 with _ | ⟨⟨personId, path⟩, rest⟩ <;> rw [hq] at h <;> dsimp only at h
  · cases h
  · by_cases hp2 : personId = p2.id
    · rw [if_pos hp2] at h
      cases h
    · rw [if_neg hp2] at h
      rcases hlast : path.getLast? with _ | cur <;> rw [hlast] at h <;> cases h
      · unfold eqMeasure
        simp only [hq, List.length_cons]
        omega
      · have hcur : cur = p1 ∨ cur ∈ ps := by
          refine hwf (personId, path) ?_ cur hlast
          rw [hq]
          exact List.mem_cons_self _ _
        have hb := fgpExpand_bound ps path (genericUniverse p1 ps) (neighborIds cur)
          (rest, s.2) (neighbors_sub_universe hcur)
        unfold eqMeasure
        simp only [hq, List.length_cons] at hb ⊢
        omega

theorem fgpLoop_isSome (ps : List Person) (p1 p2 : Person) :
    (loopF (fgpStep ps p2) (genericFuel p1 ps)
      ([(p1.id, [p1])], [p1.id])).isSome = true := by
  refine loopF_term (fgpStep ps p2) (fgpWF p1 ps)
    (fun s => eqMeasure (genericUniverse p1 ps) s.1.length s.2)
    (fun s s' hP h => fgpStep_wf ps p1 p2 s s' hP h)
    (fun s s' hP h => fgpStep_dec ps p1 p2 s s' hP h) _ _ ?_ ?_
  · intro e he c hc
    rcases List.mem_singleton.mp he with rfl
    simp only [List.getLast?_singleton] at hc
    cases hc
    exact Or.inl rfl
  · dsimp only
    unfold eqMeasure genericFuel unvisitedCount
    simp only [List.length_singleton]
    have h1 : ((genericUniverse p1 ps).dedup.filter
        (fun i => i ∉ ([p1.id] : List String))).length ≤
        (genericUniverse p1 ps).length := by
      refine Nat.le_trans (List.length_filter_le _ _) ?_
      have := (genericUniverse p1 ps).dedup_sublist.length_le
      simpa using this
    omega

/-! ## Deduplication of the traversal results -/

theorem nodup_snoc {α : Type} {l : List α} {a : α} (h : l.Nodup) (ha : a ∉ l) :
    (l ++ [a]).Nodup := by
  rw [List.nodup_append]
  refine ⟨h, List.nodup_singleton a, ?_⟩
  intro x hx hxa
  rcases List.mem_singleton.mp hxa with rfl
  exact ha hx

theorem getPersonById_id {ps : List Person} {i : String} {p : Person}
    (h : getPersonById i ps = some p) : p.id = i := by
  unfold getPersonById at h
  exact find?_id_of_eq_some h

theorem gahStep_nodup (ps : List Person)
    (s s' : List (String × Nat) × List String × List (Person × Nat))
    (hP : visNodupInv (fun e => e.1.id) s.2.1 s.2.2)
    (h : gahStep ps s = .inl s') : visNodupInv (fun e => e.1.id) s'.2.1 s'.2.2 := by
  unfold gahStep at h
  rcases hq : s.1 with _ | ⟨⟨personId, level⟩, rest⟩ <;> rw [hq] at h <;>
    (try dsimp only at h)
  · cases h
  · by_cases hv : personId = "" ∨ personId ∈ s.2.1
    · rw [if_pos hv] at h
      cases h
      exact hP
    · rw [if_neg hv] at h
      have hnv : personId ∉ s.2.1 := fun hm => hv (Or.inr hm)
      rcases hres : getPersonById personId ps with _ | p <;> rw [hres] at h <;>
        (try dsimp only at h) <;> cases h
      · exact ⟨hP.1, fun i hi => List.mem_append_left _ (hP.2 i hi)⟩
      · have hpid : p.id = personId := getPersonById_id hres
        constructor
        · rw [List.map_append]
          dsimp only [List.map_cons, List.map_nil]
          rw [hpid]
          exact nodup_snoc hP.1 (fun hm => hnv (hP.2 _ hm))
        · intro i hi
          rw [List.map_append] at hi
          rcases List.mem_append.mp hi with hi | hi
          · exact List.mem_append_left _ (hP.2 i hi)
          · dsimp only [List.map_cons, List.map_nil] at hi
            rcases List.mem_singleton.mp hi with rfl
            rw [hpid]
            exact List.mem_append_right _ (List.mem_singleton.mpr rfl)

theorem gahLoop_nodup (ps : List Person) (fuel : Nat) (q0 : List (String × Nat))
    (r : List (Person × Nat)) (h : loopF (gahStep ps) fuel (q0, [], []) = some r) :
    (r.map (fun e => e.1.id)).Nodup := by
  refine loopF_inv (gahStep ps) (fun s => visNodupInv (fun e => e.1.id) s.2.1 s.2.2)
    (fun r => (r.map (fun e => e.1.id)).Nodup)
    (fun s s' hP hf => gahStep_nodup ps s s' hP hf) ?_ fuel (q0, [], []) r
    ⟨List.nodup_nil, fun i hi => absurd hi (List.not_mem_nil i)⟩ h
  intro s r hP hf
  unfold gahStep at hf
  rcases hq : s.1 with _ | ⟨⟨personId, level⟩, rest⟩ <;> rw [hq] at hf <;>
    (try dsimp only at hf)
  · cases hf
    exact hP.1
  · by_cases hv : personId = "" ∨ personId ∈ s.2.1
    · rw [if_pos hv] at hf
      cases hf
    · rw [if_neg hv] at hf
      rcases hres : getPersonById personId ps with _ | p <;> rw [hres] at hf <;>
        (try dsimp only at hf) <;> cases hf

theorem gdwrStep_nodup (ps : List Person)
    (s s' : List (String × Nat) × List String × List (Person × String × Nat))
    (hP : visNodupInv (fun e => e.1.id) s.2.1 s.2.2)
    (h : gdwrStep ps s = .inl s') : visNodupInv (fun e => e.1.id) s'.2.1 s'.2.2 := by
  unfold gdwrStep at h
  rcases hq : s.1 with _ | ⟨⟨personId, generation⟩, rest⟩ <;> rw [hq] at h <;>
    (try dsimp only at h)
  · cases h
  · by_cases hv : personId = "" ∨ personId ∈ s.2.1
    · rw [if_pos hv] at h
      cases h
      exact hP
    · rw [if_neg hv] at h
      have hnv : personId ∉ s.2.1 := fun hm => hv (Or.inr hm)
      rcases hres : getPersonById personId ps with _ | p <;> rw [hres] at h <;>
        (try dsimp only at h) <;> cases h
      · exact ⟨hP.1, fun i hi => List.mem_append_left _ (hP.2 i hi)⟩
      · have hpid : p.id = personId := getPersonById_id hres
        constructor
        · rw [List.map_append]
          dsimp only [List.map_cons, List.map_nil]
          rw [hpid]
          exact nodup_snoc hP.1 (fun hm => hnv (hP.2 _ hm))
        · intro i hi
          rw [List.map_append] at hi
          rcases List.mem_append.mp hi with hi | hi
          · exact List.mem_append_left _ (hP.2 i hi)
          · dsimp only [List.map_cons, List.map_nil] at hi
            rcases List.mem_singleton.mp hi with rfl
            rw [hpid]
            exact List.mem_append_right _ (List.mem_singleton.mpr rfl)

theorem gdwrLoop_nodup (ps : List Person) (fuel : Nat) (q0 : List (String × Nat))
    (r : List (Person × String × Nat))
    (h : loopF (gdwrStep ps) fuel (q0, [], []) = some r) :
    (r.map (fun e => e.1.id)).Nodup := by
  refine loopF_inv (gdwrStep ps) (fun s => visNodupInv (fun e => e.1.id) s.2.1 s.2.2)
    (fun r => (r.map (fun e => e.1.id)).Nodup)
    (fun s s' hP hf => gdwrStep_nodup ps s s' hP hf) ?_ fuel (q0, [], []) r
    ⟨List.nodup_nil, fun i hi => absurd hi (List.not_mem_nil i)⟩ h
  intro s r hP hf
  unfold gdwrStep at hf
  rcases hq : s.1 with _ | ⟨⟨personId, generation⟩, rest⟩ <;> rw [hq] at hf <;>
    (try dsimp only at hf)
  · cases hf
    exact hP.1
  · by_cases hv : personId = "" ∨ personId ∈ s.2.1
    · rw [if_pos hv] at hf
      cases hf
    · rw [if_neg hv] at hf
      rcases hres : getPersonById personId ps with _ | p <;> rw [hres] at hf <;>
        (try dsimp only at hf) <;> cases hf

theorem getAncestorsHierarchically_nodup (person : Person) (ps : List Person) :
    ((getAncestorsHierarchically person ps).map (fun e => e.1.id)).Nodup := by
  unfold getAncestorsHierarchically
  rcases hp : person.parentIds with _ | pids
  · exact List.nodup_nil
  · dsimp only
    rcases hl : loopF (gahStep ps) (dqParentFuel ps pids.length)
        (pids.map (fun i => (i, 1)), [], []) with _ | r
    · exact List.nodup_nil
    · exact gahLoop_nodup ps _ _ r hl

theorem getDescendantsWithRelationship_nodup (person : Person) (ps : List Person) :
    ((getDescendantsWithRelationship person ps).map (fun e => e.1.id)).Nodup := by
  unfold getDescendantsWithRelationship
  rcases hp : person.childrenIds with _ | cids
  · exact List.nodup_nil
  · dsimp only
    rcases hl : loopF (gdwrStep ps) (childFuel ps cids.length)
        (cids.map (fun i => (i, 1)), [], []) with _ | r
    · exact List.nodup_nil
    · exact gdwrLoop_nodup ps _ _ r hl

theorem expandParents_nodup (ps : List Person) (endId : String) (path : List Person)
    (hpath : (path.map (fun p => p.id)).Nodup) :
    ∀ (pids : List String) (qAcc : List (String × List Person)) (vis : List String),
      (∀ x ∈ path.map (fun p => p.id), x ∈ vis) →
      (∀ e ∈ qAcc, (e.2.map (fun p => p.id)).Nodup ∧
        ∀ x ∈ e.2.map (fun p => p.id), x ∈ vis) →
      (∀ (q' : List (String × List Person)) (v' : List String),
        expandParents ps endId path pids qAcc vis = .inl (q', v') →
        (∀ x ∈ vis, x ∈ v') ∧ ∀ e ∈ q', (e.2.map (fun p => p.id)).Nodup ∧
          ∀ x ∈ e.2.map (fun p => p.id), x ∈ v') ∧
      (∀ (found : List Person),
        expandParents ps endId path pids qAcc vis = .inr found →
        (found.map (fun p => p.id)).Nodup)
  | [], qAcc, vis, hsub, hacc => by
      constructor
      · intro q' v' h
        unfold expandParents at h
        cases h
        exact ⟨fun x hx => hx, hacc⟩
      · intro found h
        unfold expandParents at h
        cases h
  | pid :: rest, qAcc, vis, hsub, hacc => by
      by_cases hv : pid ∈ vis
      · have hrec := expandParents_nodup ps endId path hpath rest qAcc vis hsub hacc
        constructor
        · intro q' v' h
          unfold expandParents at h
          rw [if_pos hv] at h
          exact hrec.1 q' v' h
        · intro found h
          unfold expandParents at h
          rw [if_pos hv] at h
          exact hrec.2 found h
      · have hsub2 : ∀ x ∈ path.map (fun p => p.id), x ∈ vis ++ [pid] :=
          fun x hx => List.mem_append_left _ (hsub x hx)
        have hacc2 : ∀ e ∈ qAcc, (e.2.map (fun p => p.id)).Nodup ∧
            ∀ x ∈ e.2.map (fun p => p.id), x ∈ vis ++ [pid] :=
          fun e he => ⟨(hacc e he).1,
            fun x hx => List.mem_append_left _ ((hacc e he).2 x hx)⟩
        rcases hres : getPersonById pid ps with _ | pp
        · have hrec := expandParents_nodup ps endId path hpath rest qAcc (vis ++ [pid])
            hsub2 hacc2
          constructor
          · intro q' v' h
            unfold expandParents at h
            rw [if_neg hv] at h
            dsimp only at h
            rw [hres] at h
            have := hrec.1 q' v' h
            exact ⟨fun x hx => this.1 x (List.mem_append_left _ hx), this.2⟩
          · intro found h
            unfold expandParents at h
            rw [if_neg hv] at h
            dsimp only at h
            rw [hres] at h
            exact hrec.2 found h
        · have hppid : pp.id = pid := getPersonById_id hres
          have hnew : ((path ++ [pp]).map (fun p => p.id)).Nodup ∧
              ∀ x ∈ (path ++ [pp]).map (fun p => p.id), x ∈ vis ++ [pid] := by
            rw [List.map_append]
            dsimp only [List.map_cons, List.map_nil]
            rw [hppid]
            refine ⟨nodup_snoc hpath (fun hm => hv (hsub _ hm)), ?_⟩
            intro x hx
            rcases List.mem_append.mp hx with hx | hx
            · exact List.mem_append_left _ (hsub x hx)
            · rcases List.mem_singleton.mp hx with rfl
              exact List.mem_append_right _ (List.mem_singleton.mpr rfl)
          by_cases he : pid = endId
          · constructor
            · intro q' v' h
              unfold expandParents at h
              rw [if_neg hv] at h
              dsimp only at h
              rw [hres] at h
              dsimp only at h
              rw [if_pos he] at h
              cases h
            · intro found h
              unfold expandParents at h
              rw [if_neg hv] at h
              dsimp only at h
              rw [hres] at h
              dsimp only at h
              rw [if_pos he] at h
              cases h
              exact hnew.1
          · have hacc3 : ∀ e ∈ qAcc ++ [(pid, path ++ [pp])],
                (e.2.map (fun p => p.id)).Nodup ∧
                ∀ x ∈ e.2.map (fun p => p.id), x ∈ vis ++ [pid] := by
              intro e heq
              rcases List.mem_append.mp heq with heq | heq
              · exact hacc2 e heq
              · rcases List.mem_singleton.mp heq with rfl
                exact hnew
            have hrec := expandParents_nodup ps endId path hpath rest
              (qAcc ++ [(pid, path ++ [pp])]) (vis ++ [pid]) hsub2 hacc3
            constructor
            · intro q' v' h
              unfold expandParents at h
              rw [if_neg hv] at h
              dsimp only at h
              rw [hres] at h
              dsimp only at h
              rw [if_neg he] at h
              have := hrec.1 q' v' h
              exact ⟨fun x hx => this.1 x (List.mem_append_left _ hx), this.2⟩
            · intro found h
              unfold expandParents at h
              rw [if_neg hv] at h
              dsimp only at h
              rw [hres] at h
              dsimp only at h
              rw [if_neg he] at h
              exact hrec.2 found h

theorem ptaStep_nodup (ps : List Person) (endId : String)
    (s s' : List (String × List Person) × List String)
    (hP : ptaInv s) (h : ptaStep ps endId s = .inl s') : ptaInv s' := by
  unfold ptaStep at h
  rcases hq : s.1 with _ | ⟨⟨personId, path⟩, rest⟩ <;> rw [hq] at h <;>
    (try dsimp only at h)
  · cases h
  · have hrest : ∀ e ∈ rest, (e.2.map (fun p => p.id)).Nodup ∧
        ∀ x ∈ e.2.map (fun p => p.id), x ∈ s.2 :=
      fun e he => hP e (by rw [hq]; exact List.mem_cons_of_mem _ he)
    have hhead := hP (personId, path) (by rw [hq]; exact List.mem_cons_self _ _)
    rcases hres : getPersonById personId ps with _ | cur <;> rw [hres] at h <;>
      (try dsimp only at h)
    · cases h
      exact hrest
    · rcases hexp : expandParents ps endId path (cur.parentIds.getD []) [] s.2
        with ⟨newEntries, vis⟩ | found <;> rw [hexp] at h <;> cases h
      have hmain := (expandParents_nodup ps endId path hhead.1 (cur.parentIds.getD [])
        [] s.2 hhead.2 (fun e he => absurd he (List.not_mem_nil e))).1 newEntries vis hexp
      intro e he
      rcases List.mem_append.mp he with he | he
      · exact ⟨(hrest e he).1, fun x hx => hmain.1 x ((hrest e he).2 x hx)⟩
      · exact hmain.2 e he

theorem getPathToAncestor_nodup (ps : List Person) (a b : String) (l : List Person)
    (h : getPathToAncestor ps a b = some l) : (l.map (fun p => p.id)).Nodup := by
  unfold getPathToAncestor at h
  rcases hres : getPersonById a ps with _ | startPerson <;> rw [hres] at h <;>
    (try dsimp only at h)
  · cases h
  · by_cases hab : a = b
    · rw [if_pos hab] at h
      cases h
      exact List.nodup_singleton _
    · rw [if_neg hab] at h
      rcases hl : loopF (ptaStep ps b) (parentFuel ps)
          ([(a, [startPerson])], [a]) with _ | r <;> rw [hl] at h
      · cases h
      · refine loopF_inv (ptaStep ps b) ptaInv
          (fun r => ∀ l, r = some l → (l.map (fun p => p.id)).Nodup)
          (fun s s' hP hf => ptaStep_nodup ps b s s' hP hf) ?_ _ _ r ?_ hl l (by
            simpa using h)
        · intro s r hP hf
          unfold ptaStep at hf
          rcases hq : s.1 with _ | ⟨⟨personId, path⟩, rest⟩ <;> rw [hq] at hf <;>
            (try dsimp only at hf)
          · cases hf
            intro l hl2
            cases hl2
          · rcases hres2 : getPersonById personId ps with _ | cur <;> rw [hres2] at hf <;>
              (try dsimp only at hf)
            · cases hf
            · rcases hexp : expandParents ps b path (cur.parentIds.getD []) [] s.2
                with ⟨newEntries, vis⟩ | found <;> rw [hexp] at hf <;> cases hf
              intro l hl2
              have hl3 : found = l := Option.some.inj hl2
              rw [hl3] at hexp
              have hhead := hP (personId, path) (by rw [hq]; exact List.mem_cons_self _ _)
              exact (expandParents_nodup ps b path hhead.1 (cur.parentIds.getD [])
                [] s.2 hhead.2 (fun e he => absurd he (List.not_mem_nil e))).2 l hexp
        · intro e he
          rcases List.mem_singleton.mp he with rfl
          dsimp only [List.map_cons, List.map_nil]
          rw [getPersonById_id hres]
          exact ⟨List.nodup_singleton _, fun x hx => hx⟩

theorem findLcaAndPaths_nodup (a b : String) (ps : List Person) (lca : Person)
    (pa pb : List Person) (h : findLcaAndPaths a b ps = some (lca, pa, pb)) :
    (pa.map (fun p => p.id)).Nodup ∧ (pb.map (fun p => p.id)).Nodup := by
  unfold findLcaAndPaths at h
  dsimp only at h
  rcases hl : loopF (lcaQueue2Step ps a b
      ((loopF (lcaQueue1Step ps) (dqParentFuel ps 1) ([a], [], [])).getD []))
      (parentFuel ps) ([b], [b]) with _ | r <;> rw [hl] at h
  · cases h
  · refine loopF_inv (lcaQueue2Step ps a b
        ((loopF (lcaQueue1Step ps) (dqParentFuel ps 1) ([a], [], [])).getD []))
      (fun _ => True)
      (fun r => ∀ lca pa pb, r = some (lca, pa, pb) →
        (pa.map (fun p => p.id)).Nodup ∧ (pb.map (fun p => p.id)).Nodup)
      (fun _ _ _ _ => trivial) ?_ _ _ r trivial hl lca pa pb (by simpa using h)
    intro s r _ hf
    unfold lcaQueue2Step at hf
    rcases hq : s.1 with _ | ⟨currentId, rest⟩ <;> rw [hq] at hf <;>
      (try dsimp only at hf)
    · cases hf
      intro lca pa pb h2
      cases h2
    · rcases hfind : ((loopF (lcaQueue1Step ps) (dqParentFuel ps 1)
          ([a], [], [])).getD []).find? (fun e => e.1 = currentId) with _ | e <;>
        rw [hfind] at hf <;> (try dsimp only at hf)
      · rcases hres : getPersonById currentId ps with _ | person <;> rw [hres] at hf <;>
          (try dsimp only at hf) <;> cases hf
      · rcases hp1 : getPathToAncestor ps a e.2.id with _ | path1 <;> rw [hp1] at hf <;>
          (try dsimp only at hf)
        · rcases hres : getPersonById currentId ps with _ | person <;> rw [hres] at hf <;>
            (try dsimp only at hf) <;> cases hf
        · rcases hp2 : getPathToAncestor ps b e.2.id with _ | path2 <;> rw [hp2] at hf <;>
            (try dsimp only at hf)
          · rcases hres : getPersonById currentId ps with _ | person <;> rw [hres] at hf <;>
              (try dsimp only at hf) <;> cases hf
          · cases hf
            intro lca pa pb h2
            have h3 := Option.some.inj h2
            have hbq : path1 = pa := congrArg (fun t => t.2.1) h3
            have hcq : path2 = pb := congrArg (fun t => t.2.2) h3
            have n1 := getPathToAncestor_nodup ps a e.2.id path1 hp1
            have n2 := getPathToAncestor_nodup ps b e.2.id path2 hp2
            rw [hbq] at n1
            rw [hcq] at n2
            exact ⟨n1, n2⟩

theorem fgpExpand_nodup (ps : List Person) (path : List Person)
    (hpath : (path.map (fun p => p.id)).Nodup) :
    ∀ (nids : List String) (acc : List (String × List Person) × List String),
      (∀ x ∈ path.map (fun p => p.id), x ∈ acc.2) →
      (∀ e ∈ acc.1, (e.2.map (fun p => p.id)).Nodup ∧
        ∀ x ∈ e.2.map (fun p => p.id), x ∈ acc.2) →
      (∀ x ∈ acc.2, x ∈ (nids.foldl (fgpExpand ps path) acc).2) ∧
      ∀ e ∈ (nids.foldl (fgpExpand ps path) acc).1,
        (e.2.map (fun p => p.id)).Nodup ∧
        ∀ x ∈ e.2.map (fun p => p.id), x ∈ (nids.foldl (fgpExpand ps path) acc).2
  | [], acc, hsub, hacc => ⟨fun x hx => hx, hacc⟩
  | nid :: rest, acc, hsub, hacc => by
      rw [List.foldl_cons]
      unfold fgpExpand
      by_cases hv : nid ∈ acc.2
      · rw [if_pos hv]
        exact fgpExpand_nodup ps path hpath rest acc hsub hacc
      · rw [if_neg hv]
        dsimp only
        have hsub2 : ∀ x ∈ path.map (fun p => p.id), x ∈ acc.2 ++ [nid] :=
          fun x hx => List.mem_append_left _ (hsub x hx)
        rcases hres : getPersonById nid ps with _ | np <;> dsimp only
        · have := fgpExpand_nodup ps path hpath rest (acc.1, acc.2 ++ [nid]) hsub2
            (fun e he => ⟨(hacc e he).1,
              fun x hx => List.mem_append_left _ ((hacc e he).2 x hx)⟩)
          exact ⟨fun x hx => this.1 x (List.mem_append_left _ hx), this.2⟩
        · have hnpid : np.id = nid := getPersonById_id hres
          have hnew : (((path ++ [np]).map (fun p => p.id)).Nodup ∧
              ∀ x ∈ (path ++ [np]).map (fun p => p.id), x ∈ acc.2 ++ [nid]) := by
            rw [List.map_append]
            dsimp only [List.map_cons, List.map_nil]
            rw [hnpid]
            refine ⟨nodup_snoc hpath (fun hm => hv (hsub _ hm)), ?_⟩
            intro x hx
            rcases List.mem_append.mp hx with hx | hx
            · exact List.mem_append_left _ (hsub x hx)
            · rcases List.mem_singleton.mp hx with rfl
              exact List.mem_append_right _ (List.mem_singleton.mpr rfl)
          have := fgpExpand_nodup ps path hpath rest
            (acc.1 ++ [(nid, path ++ [np])], acc.2 ++ [nid]) hsub2 (by
              intro e he
              rcases List.mem_append.mp he with he | he
              · exact ⟨(hacc e he).1,
                  fun x hx => List.mem_append_left _ ((hacc e he).2 x hx)⟩
              · rcases List.mem_singleton.mp he with rfl
                exact hnew)
          exact ⟨fun x hx => this.1 x (List.mem_append_left _ hx), this.2⟩

theorem fgpStep_nodup (ps : List Person) (p2 : Person)
    (s s' : List (String × List Person) × List String)
    (hP : fgpInv s) (h : fgpStep ps p2 s = .inl s') : fgpInv s' := by
  unfold fgpStep at h
  rcases hq : s.1 with _ | ⟨⟨personId, path⟩, rest⟩ <;> rw [hq] at h <;>
    (try dsimp only at h)
  · cases h
  · have hrest : ∀ e ∈ rest, (e.2.map (fun p => p.id)).Nodup ∧
        ∀ x ∈ e.2.map (fun p => p.id), x ∈ s.2 :=
      fun e he => hP e (by rw [hq]; exact List.mem_cons_of_mem _ he)
    have hhead := hP (personId, path) (by rw [hq]; exact List.mem_cons_self _ _)
    by_cases hp2 : personId = p2.id
    · rw [if_pos hp2] at h
      cases h
    · rw [if_neg hp2] at h
      rcases hlast : path.getLast? with _ | cur <;> rw [hlast] at h <;> cases h
      · exact hrest
      · exact (fgpExpand_nodup ps path hhead.1 (neighborIds cur) (rest, s.2)
          hhead.2 hrest).2

theorem findGenericPath_nodup (p1 p2 : Person) (ps : List Person) (d : String)
    (l : List Person) (h : findGenericPath p1 p2 ps = some (d, l)) :
    (l.map (fun p => p.id)).Nodup := by
  unfold findGenericPath at h
  rcases hl : loopF (fgpStep ps p2) (genericFuel p1 ps)
      ([(p1.id, [p1])], [p1.id]) with _ | r <;> rw [hl] at h
  · cases h
  · refine loopF_inv (fgpStep ps p2) fgpInv
      (fun r => ∀ d l, r = some (d, l) → (l.map (fun p => p.id)).Nodup)
      (fun s s' hP hf => fgpStep_nodup ps p2 s s' hP hf) ?_ _ _ r ?_ hl d l (by
        simpa using h)
    · intro s r hP hf
      unfold fgpStep at hf
      rcases hq : s.1 with _ | ⟨⟨personId, path⟩, rest⟩ <;> rw [hq] at hf <;>
        (try dsimp only at hf)
      · cases hf
        intro d l h2
        cases h2
      · by_cases hp2 : personId = p2.id
        · rw [if_pos hp2] at hf
          cases hf
          intro d l h2
          have h3 := Option.some.inj h2
          have hbq : path = l := congrArg (fun t => t.2) h3
          have n1 := (hP (personId, path) (by rw [hq]; exact List.mem_cons_self _ _)).1
          rw [hbq] at n1
          exact n1
        · rw [if_neg hp2] at hf
          rcases hlast : path.getLast? with _ | cur <;> rw [hlast] at hf <;> cases hf
    · intro e he
      rcases List.mem_singleton.mp he with rfl
      dsimp only [List.map_cons, List.map_nil]
      exact ⟨List.nodup_singleton _, fun x hx => hx⟩

/-- C7: every traversal terminates and deduplicates, even on malformed
cyclic data: each traversal loop (ancestor enumeration, descendant
enumeration, both queues of the LCA search, the path-to-ancestor walk, and
the generic BFS) completes within its fuel bound on every input, the
ancestor and descendant reports list no person twice, and every path
returned by the LCA search or the generic path search visits no person
twice. -/
theorem claim_C7 :
    (∀ (ps : List Person) (q0 : List (String × Nat)),
      (loopF (gahStep ps) (dqParentFuel ps q0.length) (q0, [], [])).isSome = true) ∧
    (∀ (ps : List Person) (q0 : List (String × Nat)),
      (loopF (gdwrStep ps) (childFuel ps q0.length) (q0, [], [])).isSome = true) ∧
    (∀ (ps : List Person) (i0 : String),
      (loopF (lcaQueue1Step ps) (dqParentFuel ps 1) ([i0], [], [])).isSome = true) ∧
    (∀ (ps : List Person) (p1Id p2Id : String) (anc : List (String × Person)) (i0 : String),
      (loopF (lcaQueue2Step ps p1Id p2Id anc) (parentFuel ps) ([i0], [i0])).isSome = true) ∧
    (∀ (ps : List Person) (endId startId : String) (startPerson : Person),
      (loopF (ptaStep ps endId) (parentFuel ps)
        ([(startId, [startPerson])], [startId])).isSome = true) ∧
    (∀ (ps : List Person) (p1 p2 : Person),
      (loopF (fgpStep ps p2) (genericFuel p1 ps)
        ([(p1.id, [p1])], [p1.id])).isSome = true) ∧
    (∀ (person : Person) (ps : List Person),
      ((getAncestorsHierarchically person ps).map (fun e => e.1.id)).Nodup) ∧
    (∀ (person : Person) (ps : List Person),
      ((getDescendantsWithRelationship person ps).map (fun e => e.1.id)).Nodup) ∧
    (∀ (ps : List Person) (a b : String),
      (((getPathToAncestor ps a b).getD []).map (fun p => p.id)).Nodup) ∧
    (∀ (a b : String) (ps : List Person),
      (findLcaAndPaths a b ps).elim True (fun r =>
        (r.2.1.map (fun p => p.id)).Nodup ∧ (r.2.2.map (fun p => p.id)).Nodup)) ∧
    (∀ (p1 p2 : Person) (ps : List Person),
      (findGenericPath p1 p2 ps).elim True (fun r =>
        (r.2.map (fun p => p.id)).Nodup)) := by
  refine ⟨gahLoop_isSome, gdwrLoop_isSome, lcaQueue1Loop_isSome, lcaQueue2Loop_isSome,
    ptaLoop_isSome, fgpLoop_isSome, getAncestorsHierarchically_nodup,
    getDescendantsWithRelationship_nodup, ?_, ?_, ?_⟩
  · intro ps a b
    rcases hl : getPathToAncestor ps a b with _ | l
    · exact List.nodup_nil
    · exact getPathToAncestor_nodup ps a b l hl
  · intro a b ps
    rcases hl : findLcaAndPaths a b ps with _ | ⟨lca, pa, pb⟩
    · exact trivial
    · exact findLcaAndPaths_nodup a b ps lca pa pb hl
  · intro p1 p2 ps
    rcases hl : findGenericPath p1 p2 ps with _ | ⟨d, l⟩
    · exact trivial
    · exact findGenericPath_nodup p1 p2 ps d l hl

/-- C10: `findRelationship` returns null exactly when an id is empty, the
two ids coincide, or either id fails to resolve; for distinct resolvable
ids it always returns one of the three `Relationship` values. -/
theorem claim_C10 (person1Id person2Id : String) (allPeople : List Person) :
    findRelationship person1Id person2Id allPeople = none ↔
      (person1Id = "" ∨ person2Id = "" ∨ person1Id = person2Id ∨
        getPersonById person1Id allPeople = none ∨
        getPersonById person2Id allPeople = none) := by
  unfold findRelationship
  by_cases h1 : person1Id = "" ∨ person2Id = "" ∨ person1Id = person2Id
  · rw [if_pos h1]
    constructor
    · intro _
      rcases h1 with h | h | h
      · exact Or.inl h
      · exact Or.inr (Or.inl h)
      · exact Or.inr (Or.inr (Or.inl h))
    · intro _
      rfl
  · rw [if_neg h1]
    rcases hr1 : getPersonById person1Id allPeople with _ | p1 <;>
      rcases hr2 : getPersonById person2Id allPeople with _ | p2 <;> dsimp only
    · exact ⟨fun _ => Or.inr (Or.inr (Or.inr (Or.inl rfl))), fun _ => rfl⟩
    · exact ⟨fun _ => Or.inr (Or.inr (Or.inr (Or.inl rfl))), fun _ => rfl⟩
    · exact ⟨fun _ => Or.inr (Or.inr (Or.inr (Or.inr rfl))), fun _ => rfl⟩
    · constructor
      · intro hc
        rcases hfl : findLcaAndPaths person1Id person2Id allPeople
            with _ | ⟨lca, pa, pb⟩ <;> rw [hfl] at hc <;> dsimp only at hc
        · rcases hfg : findGenericPath p1 p2 allPeople with _ | ⟨d, l⟩ <;>
            rw [hfg] at hc <;> dsimp only at hc <;> cases hc
        · cases hc
      · intro hd
        rcases hd with h | h | h | h | h
        · exact absurd (Or.inl h) h1
        · exact absurd (Or.inr (Or.inl h)) h1
        · exact absurd (Or.inr (Or.inr h)) h1
        · cases h
        · cases h

theorem walk_start {ps : List Person} {p1 : Person}
    (h : getPersonById p1.id ps = some p1) : WalkTo ps p1 p1.id [p1] := by
  refine ⟨List.cons_ne_nil _ _, ?_, List.chain'_singleton _, rfl, p1, rfl, rfl⟩
  intro q hq
  rcases List.mem_singleton.mp hq with rfl
  exact h

theorem walk_length_one {ps : List Person} {p1 : Person} {i : String} {Q : List Person}
    (h : WalkTo ps p1 i Q) (hl : Q.length = 1) : i = p1.id := by
  rcases Q with _ | ⟨a, t⟩
  · cases hl
  · rcases t with _ | ⟨b, t'⟩
    · have ha : a = p1 := by
        have := h.2.2.2.1
        simpa using this
      rcases h.2.2.2.2 with ⟨z, hz, hzi⟩
      simp only [List.getLast?_singleton, Option.some.injEq] at hz
      rw [← hzi, ← hz, ha]
    · simp at hl

theorem walk_snoc {ps : List Person} {p1 : Person} {u : String} {pth : List Person}
    {cur np : Person} (h : WalkTo ps p1 u pth) (hlast : pth.getLast? = some cur)
    (hedge : np.id ∈ neighborIds cur) (hres : getPersonById np.id ps = some np) :
    WalkTo ps p1 np.id (pth ++ [np]) := by
  obtain ⟨hne, hmem, hch, hhd, _⟩ := h
  refine ⟨by simp, ?_, ?_, ?_, np, by simp, rfl⟩
  · intro q hq
    rcases List.mem_append.mp hq with hq | hq
    · exact hmem q hq
    · rcases List.mem_singleton.mp hq with rfl
      exact hres
  · rw [List.chain'_append]
    refine ⟨hch, List.chain'_singleton _, ?_⟩
    intro x hx y hy
    rw [hlast] at hx
    have hx2 : cur = x := by simpa using hx
    have hy2 : np = y := by simpa using hy
    rw [← hx2, ← hy2]
    exact hedge
  · rcases pth with _ | ⟨a, t⟩
    · cases hne rfl
    · simpa using hhd

theorem walk_unsnoc {ps : List Person} {p1 : Person} {j : String} {Q : List Person}
    (h : WalkTo ps p1 j Q) (hl : 2 ≤ Q.length) :
    ∃ (Q' : List Person) (v z : Person), Q = Q' ++ [z] ∧ z.id = j ∧
      getPersonById j ps = some z ∧ WalkTo ps p1 v.id Q' ∧
      Q'.getLast? = some v ∧ z.id ∈ neighborIds v ∧ Q'.length + 1 = Q.length := by
  obtain ⟨hne, hmem, hch, hhd, z0, hz0, hz0i⟩ := h
  rcases List.eq_nil_or_concat Q with rfl | ⟨Q', z, hQ⟩
  · cases hne rfl
  · rw [List.concat_eq_append] at hQ
    subst hQ
    have hz : z0 = z := by
      simp only [List.getLast?_append, List.getLast?_singleton] at hz0
      exact (Option.some.inj hz0).symm
    subst hz
    have hQ'ne : Q' ≠ [] := by
      intro hnil
      subst hnil
      simp at hl
    have hv := List.getLast?_isSome.mpr hQ'ne
    rcases hvv : Q'.getLast? with _ | v
    · rw [hvv] at hv
      cases hv
    · have hch2 := List.chain'_append.mp hch
      have hedge : z0.id ∈ neighborIds v := by
        refine hch2.2.2 v ?_ z0 ?_
        · rw [hvv]; rfl
        · rfl
      refine ⟨Q', v, z0, rfl, hz0i, ?_, ?_, hvv, hedge, by simp⟩
      · rw [← hz0i]
        exact hmem z0 (List.mem_append_right _ (List.mem_singleton.mpr rfl))
      · refine ⟨hQ'ne, ?_, hch2.1, ?_, v, hvv, rfl⟩
        · intro q hq
          exact hmem q (List.mem_append_left _ hq)
        · rcases Q' with _ | ⟨a, t⟩
          · cases hQ'ne rfl
          · simpa using hhd

theorem fgpExpand_spec (ps : List Person) (path : List Person) :
    ∀ (nids : List String) (acc : List (String × List Person) × List String)
      (q' : List (String × List Person)) (v' : List String),
      nids.foldl (fgpExpand ps path) acc = (q', v') →
      (∃ news, q' = acc.1 ++ news ∧ ∀ e ∈ news, ∃ np, e.2 = path ++ [np] ∧
        getPersonById e.1 ps = some np ∧ e.1 ∉ acc.2 ∧ e.1 ∈ nids) ∧
      (∀ x ∈ acc.2, x ∈ v') ∧
      (∀ x ∈ nids, x ∈ v') ∧
      (∀ x ∈ v', x ∈ acc.2 ∨ x ∈ nids) ∧
      (∀ x ∈ nids, x ∉ acc.2 → (getPersonById x ps).isSome = true →
        ∃ e ∈ q', e.1 = x)
  | [], acc, q', v', h => by
      rw [List.foldl_nil] at h
      cases h
      refine ⟨⟨[], by simp, fun e he => absurd he (List.not_mem_nil e)⟩,
        fun x hx => hx, fun x hx => absurd hx (List.not_mem_nil x),
        fun x hx => Or.inl hx, fun x hx => absurd hx (List.not_mem_nil x)⟩
  | nid :: rest, acc, q', v', h => by
      rw [List.foldl_cons] at h
      unfold fgpExpand at h
      by_cases hv : nid ∈ acc.2
      · rw [if_pos hv] at h
        obtain ⟨⟨news, hq, hnews⟩, h3, h4, h5, h6⟩ :=
          fgpExpand_spec ps path rest acc q' v' h
        refine ⟨⟨news, hq, ?_⟩, h3, ?_, ?_, ?_⟩
        · intro e he
          obtain ⟨np, h1, h2a, h2b, h2c⟩ := hnews e he
          exact ⟨np, h1, h2a, h2b, List.mem_cons_of_mem _ h2c⟩
        · intro x hx
          rcases List.mem_cons.mp hx with rfl | hx
          · exact h3 x hv
          · exact h4 x hx
        · intro x hx
          rcases h5 x hx with hx | hx
          · exact Or.inl hx
          · exact Or.inr (List.mem_cons_of_mem _ hx)
        · intro x hx hnx hres
          rcases List.mem_cons.mp hx with rfl | hx
          · exact absurd hv hnx
          · exact h6 x hx hnx hres
      · rw [if_neg hv] at h
        dsimp only at h
        rcases hres : getPersonById nid ps with _ | np <;> rw [hres] at h <;> dsimp only at h
        · obtain ⟨⟨news, hq, hnews⟩, h3, h4, h5, h6⟩ :=
            fgpExpand_spec ps path rest (acc.1, acc.2 ++ [nid]) q' v' h
          refine ⟨⟨news, hq, ?_⟩, ?_, ?_, ?_, ?_⟩
          · intro e he
            obtain ⟨np, h1, h2a, h2b, h2c⟩ := hnews e he
            exact ⟨np, h1, h2a, fun hm => h2b (List.mem_append_left _ hm),
              List.mem_cons_of_mem _ h2c⟩
          · intro x hx
            exact h3 x (List.mem_append_left _ hx)
          · intro x hx
            rcases List.mem_cons.mp hx with rfl | hx
            · exact h3 x (List.mem_append_right _ (List.mem_singleton.mpr rfl))
            · exact h4 x hx
          · intro x hx
            rcases h5 x hx with hx | hx
            · rcases List.mem_append.mp hx with hx | hx
              · exact Or.inl hx
              · rcases List.mem_singleton.mp hx with rfl
                exact Or.inr (List.mem_cons_self _ _)
            · exact Or.inr (List.mem_cons_of_mem _ hx)
          · intro x hx hnx hres2
            rcases List.mem_cons.mp hx with rfl | hx
            · rw [hres] at hres2
              cases hres2
            · by_cases hxn : x = nid
              · subst hxn
                rw [hres] at hres2
                cases hres2
              · refine h6 x hx ?_ hres2
                intro hm
                rcases List.mem_append.mp hm with hm | hm
                · exact hnx hm
                · exact hxn (List.mem_singleton.mp hm)
        · obtain ⟨⟨news, hq, hnews⟩, h3, h4, h5, h6⟩ :=
            fgpExpand_spec ps path rest
              (acc.1 ++ [(nid, path ++ [np])], acc.2 ++ [nid]) q' v' h
          refine ⟨⟨(nid, path ++ [np]) :: news, by
              rw [hq]; simp, ?_⟩, ?_, ?_, ?_, ?_⟩
          · intro e he
            rcases List.mem_cons.mp he with rfl | he
            · exact ⟨np, rfl, hres, hv, List.mem_cons_self _ _⟩
            · obtain ⟨np', h1, h2a, h2b, h2c⟩ := hnews e he
              exact ⟨np', h1, h2a, fun hm => h2b (List.mem_append_left _ hm),
                List.mem_cons_of_mem _ h2c⟩
          · intro x hx
            exact h3 x (List.mem_append_left _ hx)
          · intro x hx
            rcases List.mem_cons.mp hx with rfl | hx
            · exact h3 x (List.mem_append_right _ (List.mem_singleton.mpr rfl))
            · exact h4 x hx
          · intro x hx
            rcases h5 x hx with hx | hx
            · rcases List.mem_append.mp hx with hx | hx
              · exact Or.inl hx
              · rcases List.mem_singleton.mp hx with rfl
                exact Or.inr (List.mem_cons_self _ _)
            · exact Or.inr (List.mem_cons_of_mem _ hx)
          · intro x hx hnx hres2
            rcases List.mem_cons.mp hx with rfl | hx
            · refine ⟨(x, path ++ [np]), ?_, rfl⟩
              rw [hq]
              exact List.mem_append_left _
                (List.mem_append_right _ (List.mem_singleton.mpr rfl))
            · by_cases hxn : x = nid
              · subst hxn
                refine ⟨(x, path ++ [np]), ?_, rfl⟩
                rw [hq]
                exact List.mem_append_left _
                  (List.mem_append_right _ (List.mem_singleton.mpr rfl))
              · refine h6 x hx ?_ hres2
                intro hm
                rcases List.mem_append.mp hm with hm | hm
                · exact hnx hm
                · exact hxn (List.mem_singleton.mp hm)

theorem mem_of_getLast?' {α : Type} {l : List α} {a : α} (h : l.getLast? = some a) :
    a ∈ l := by
  rcases List.eq_nil_or_concat l with rfl | ⟨l', b, hl⟩
  · cases h
  · rw [List.concat_eq_append] at hl
    subst hl
    simp only [List.getLast?_append, List.getLast?_singleton] at h
    cases h
    exact List.mem_append_right _ (List.mem_singleton.mpr rfl)

theorem fgpStep_BFS (ps : List Person) (p1 p2 : Person)
    (h2 : getPersonById p2.id ps = some p2)
    (s s' : List (String × List Person) × List String)
    (hP : fgpBFS ps p1 p2 s) (h : fgpStep ps p2 s = .inl s') : fgpBFS ps p1 p2 s' := by
  obtain ⟨hENT, hSRT, hCAP, hVIS, hCLO, hP1⟩ := hP
  unfold fgpStep at h
  rcases hq : s.1 with _ | ⟨⟨u, pthu⟩, rest⟩ <;> rw [hq] at h <;> (try dsimp only at h)
  · cases h
  · by_cases hup2 : u = p2.id
    · rw [if_pos hup2] at h
      cases h
    · rw [if_neg hup2] at h
      rcases hlast : pthu.getLast? with _ | cur <;> rw [hlast] at h <;> cases h
      · exfalso
        have hw := (hENT (u, pthu) (by rw [hq]; exact List.mem_cons_self _ _)).1
        rcases hw.2.2.2.2 with ⟨z, hz, _⟩
        rw [hlast] at hz
        cases hz
      · have hhead := hENT (u, pthu) (by rw [hq]; exact List.mem_cons_self _ _)
        have hcur_id : cur.id = u := by
          rcases hhead.1.2.2.2.2 with ⟨z, hz, hzi⟩
          rw [hlast] at hz
          cases hz
          exact hzi
        have hcur_res : getPersonById u ps = some cur := by
          have := hhead.1.2.1 cur (mem_of_getLast?' hlast)
          rw [hcur_id] at this
          exact this
        have hfr : ∀ b ∈ rest, pthu.length ≤ b.2.length := by
          rw [hq] at hSRT
          exact (List.pairwise_cons.mp hSRT).1
        have hSRTrest : List.Pairwise (fun a b => a.2.length ≤ b.2.length) rest := by
          rw [hq] at hSRT
          exact (List.pairwise_cons.mp hSRT).2
        have hcap : ∀ e ∈ rest, e.2.length ≤ pthu.length + 1 :=
          fun e he => hCAP e (by rw [hq]; exact List.mem_cons_of_mem _ he)
            (u, pthu) (by rw [hq]; rfl)
        have hvisF : ∀ j Q, WalkTo ps p1 j Q → Q.length < pthu.length → j ∈ s.2 :=
          hVIS (u, pthu) (by rw [hq]; rfl)
        have hvis_pre : ∀ j Q, WalkTo ps p1 j Q → Q.length ≤ pthu.length → j ∈ s.2 := by
          intro j Q hw hQl
          by_cases hlt : Q.length < pthu.length
          · exact hvisF j Q hw hlt
          · rcases Nat.lt_or_ge Q.length 2 with h2l | h2l
            · have hone : Q.length = 1 := by
                have hpos : 0 < Q.length := List.length_pos.mpr hw.1
                omega
              rw [walk_length_one hw hone]
              exact hP1
            · obtain ⟨Q', v, z, hQeq, hzj, hzres, hwQ', hQ'last, hzedge, hQ'len⟩ :=
                walk_unsnoc hw h2l
              have hQ'lt : Q'.length < pthu.length := by omega
              have hvvis : v.id ∈ s.2 := hvisF v.id Q' hwQ' hQ'lt
              rcases hCLO v.id hvvis with ⟨e, he, hei⟩ | ⟨hvp2, hclos⟩
              · rw [hq] at he
                rcases List.mem_cons.mp he with rfl | he
                · exfalso
                  have hmin := hhead.2.2 Q' (by
                    have hx : (u, pthu).1 = v.id := hei
                    dsimp only at hx
                    rw [hx]
                    exact hwQ')
                  have hmin2 : pthu.length ≤ Q'.length := hmin
                  omega
                · exfalso
                  have hmin := (hENT e (by rw [hq]; exact List.mem_cons_of_mem _ he)).2.2
                  have h3 := hmin Q' (by rw [hei]; exact hwQ')
                  have h4 := hfr e he
                  omega
              · have hvres : getPersonById v.id ps = some v :=
                  hwQ'.2.1 v (mem_of_getLast?' hQ'last)
                have hj2 : z.id ∈ s.2 := hclos v hvres z.id hzedge
                rw [← hzj]
                exact hj2
        rcases hfold : (neighborIds cur).foldl (fgpExpand ps pthu) (rest, s.2)
          with ⟨q2, v2⟩
        obtain ⟨⟨news, hq2, hnews⟩, hS3, hS4, hS5, hS6⟩ :=
          fgpExpand_spec ps pthu (neighborIds cur) (rest, s.2) q2 v2 hfold
        dsimp only at hq2 hnews hS3 hS4 hS5 hS6
        have hnewsE : ∀ e ∈ news, WalkTo ps p1 e.1 e.2 ∧ e.1 ∈ v2 ∧
            e.2.length = pthu.length + 1 ∧ e.1 ∉ s.2 ∧
            ∀ Q, WalkTo ps p1 e.1 Q → e.2.length ≤ Q.length := by
          intro e he
          obtain ⟨np, he2, hres, hnvis, hnb⟩ := hnews e he
          have hnpid : np.id = e.1 := getPersonById_id hres
          have hwalk : WalkTo ps p1 e.1 e.2 := by
            rw [he2, ← hnpid]
            exact walk_snoc hhead.1 hlast (by rw [hnpid]; exact hnb) (by rw [hnpid]; exact hres)
          have hlen : e.2.length = pthu.length + 1 := by
            rw [he2]
            simp
          refine ⟨hwalk, hS4 e.1 hnb, hlen, hnvis, ?_⟩
          intro Q hw
          by_contra hcon
          push_neg at hcon
          have hQle : Q.length ≤ pthu.length := by omega
          exact hnvis (hvis_pre e.1 Q hw hQle)
        refine ⟨?_, ?_, ?_, ?_, ?_, ?_⟩
        · -- ENT
          intro e he
          dsimp only at he
          rw [hq2] at he
          rcases List.mem_append.mp he with he | he
          · have hold := hENT e (by rw [hq]; exact List.mem_cons_of_mem _ he)
            exact ⟨hold.1, hS3 e.1 hold.2.1, hold.2.2⟩
          · have := hnewsE e he
            exact ⟨this.1, this.2.1, this.2.2.2.2⟩
        · -- SRT
          dsimp only
          rw [hq2]
          rw [List.pairwise_append]
          refine ⟨hSRTrest, ?_, ?_⟩
          · refine List.pairwise_of_forall_mem_list ?_
            intro a ha b hb
            rw [(hnewsE a ha).2.2.1, (hnewsE b hb).2.2.1]
          · intro a ha b hb
            rw [(hnewsE b hb).2.2.1]
            exact Nat.le_trans (hcap a ha) (Nat.le_refl _)
        · -- CAP
          intro e he f hf
          dsimp only at he hf ⊢
          rw [hq2] at he hf
          rcases hrest : rest with _ | ⟨a, rest'⟩
          · subst hrest
            rw [List.nil_append] at hf he
            rcases hnn : news with _ | ⟨n0, news'⟩
            · subst hnn
              cases he
            · subst hnn
              have hfeq : f = n0 := by
                rw [List.head?_cons] at hf
                exact (Option.some.inj hf).symm
              subst hfeq
              rw [(hnewsE e he).2.2.1, (hnewsE f (List.mem_cons_self _ _)).2.2.1]
              omega
          · subst hrest
            have hfeq : f = a := by
              rw [List.cons_append, List.head?_cons] at hf
              exact (Option.some.inj hf).symm
            subst hfeq
            have hfl : pthu.length ≤ f.2.length := hfr f (List.mem_cons_self _ _)
            rcases List.mem_append.mp he with he | he
            · have := hcap e he
              omega
            · have := (hnewsE e he).2.2.1
              omega
        · -- VIS
          intro f hf j Q hw hQl
          dsimp only at hf ⊢
          rw [hq2] at hf
          have hfb : f.2.length ≤ pthu.length + 1 := by
            rcases hrest : rest with _ | ⟨a, rest'⟩
            · subst hrest
              rw [List.nil_append] at hf
              rcases hnn : news with _ | ⟨n0, news'⟩
              · subst hnn
                cases hf
              · subst hnn
                have hfeq : f = n0 := by
                  rw [List.head?_cons] at hf
                  exact (Option.some.inj hf).symm
                subst hfeq
                rw [(hnewsE f (List.mem_cons_self _ _)).2.2.1]
            · subst hrest
              have hfeq : f = a := by
                rw [List.cons_append, List.head?_cons] at hf
                exact (Option.some.inj hf).symm
              subst hfeq
              exact hcap f (List.mem_cons_self _ _)
          have hQle : Q.length ≤ pthu.length := by omega
          exact hS3 j (hvis_pre j Q hw hQle)
        · -- CLO
          intro i hi
          dsimp only at hi ⊢
          by_cases hiold : i ∈ s.2
          · rcases hCLO i hiold with ⟨e, he, hei⟩ | ⟨hip2, hclos⟩
            · rw [hq] at he
              rcases List.mem_cons.mp he with rfl | he
              · -- the dequeued entry: now fully expanded
                have hieq : u = i := hei
                right
                refine ⟨by rw [← hieq]; exact hup2, ?_⟩
                intro q hqres n hn
                rw [← hieq] at hqres
                rw [hcur_res] at hqres
                cases hqres
                exact hS4 n hn
              · left
                refine ⟨e, ?_, hei⟩
                rw [hq2]
                exact List.mem_append_left _ he
            · right
              exact ⟨hip2, fun q hqres n hn => hS3 n (hclos q hqres n hn)⟩
          · have hin : i ∈ neighborIds cur := by
              rcases hS5 i hi with hx | hx
              · exact absurd hx hiold
              · exact hx
            rcases hres : getPersonById i ps with _ | q
            · right
              constructor
              · intro hip2
                rw [hip2, h2] at hres
                cases hres
              · intro q hqres
                exact absurd hqres (by simp [hres])
            · left
              obtain ⟨e, he, hei⟩ := hS6 i hin hiold (by rw [hres]; rfl)
              exact ⟨e, by rw [hq2] at he ⊢; exact he, hei⟩
        · -- P1V
          exact hS3 p1.id hP1

theorem fgpBFS_drained (ps : List Person) (p1 p2 : Person)
    (s : List (String × List Person) × List String)
    (hP : fgpBFS ps p1 p2 s) (hempty : s.1 = []) :
    ∀ (n : Nat) (j : String) (Q : List Person), WalkTo ps p1 j Q → Q.length ≤ n → j ∈ s.2
  | 0, j, Q, hw, hl => absurd hl (by
      have hpos : 0 < Q.length := List.length_pos.mpr hw.1
      omega)
  | n + 1, j, Q, hw, hl => by
      by_cases hle : Q.length ≤ n
      · exact fgpBFS_drained ps p1 p2 s hP hempty n j Q hw hle
      · rcases Nat.lt_or_ge Q.length 2 with h2l | h2l
        · have hone : Q.length = 1 := by
            have hpos : 0 < Q.length := List.length_pos.mpr hw.1
            omega
          rw [walk_length_one hw hone]
          exact hP.2.2.2.2.2
        · obtain ⟨Q', v, z, hQeq, hzj, hzres, hwQ', hQ'last, hzedge, hQ'len⟩ :=
            walk_unsnoc hw h2l
          have hvvis : v.id ∈ s.2 :=
            fgpBFS_drained ps p1 p2 s hP hempty n v.id Q' hwQ' (by omega)
          rcases hP.2.2.2.2.1 v.id hvvis with ⟨e, he, _⟩ | ⟨hvp2, hclos⟩
          · rw [hempty] at he
            exact absurd he (List.not_mem_nil e)
          · have hvres : getPersonById v.id ps = some v :=
              hwQ'.2.1 v (mem_of_getLast?' hQ'last)
            rw [← hzj]
            exact hclos v hvres z.id hzedge

theorem fgpLoop_correct (ps : List Person) (p1 p2 : Person)
    (h1 : getPersonById p1.id ps = some p1) (h2 : getPersonById p2.id ps = some p2)
    (r : Option (String × List Person))
    (h : loopF (fgpStep ps p2) (genericFuel p1 ps) ([(p1.id, [p1])], [p1.id]) = some r) :
    (r = none → ¬ ∃ Q, WalkTo ps p1 p2.id Q) ∧
    (∀ d pth, r = some (d, pth) → d = generatePathDescription pth ∧
      WalkTo ps p1 p2.id pth ∧ ∀ Q, WalkTo ps p1 p2.id Q → pth.length ≤ Q.length) := by
  refine loopF_inv (fgpStep ps p2) (fgpBFS ps p1 p2)
    (fun r => (r = none → ¬ ∃ Q, WalkTo ps p1 p2.id Q) ∧
      (∀ d pth, r = some (d, pth) → d = generatePathDescription pth ∧
        WalkTo ps p1 p2.id pth ∧ ∀ Q, WalkTo ps p1 p2.id Q → pth.length ≤ Q.length))
    (fun s s' hP hf => fgpStep_BFS ps p1 p2 h2 s s' hP hf) ?_ _ _ r ?_ h
  · intro s r hP hf
    unfold fgpStep at hf
    rcases hq : s.1 with _ | ⟨⟨u, pthu⟩, rest⟩ <;> rw [hq] at hf <;> (try dsimp only at hf)
    · cases hf
      constructor
      · intro _ hex
        obtain ⟨Q, hw⟩ := hex
        have hvis := fgpBFS_drained ps p1 p2 s hP hq Q.length p2.id Q hw (Nat.le_refl _)
        obtain ⟨_, _, _, _, hCLO, _⟩ := hP
        rcases hCLO p2.id hvis with ⟨e, he, _⟩ | ⟨hne, _⟩
        · rw [hq] at he
          exact absurd he (List.not_mem_nil e)
        · exact hne rfl
      · intro d pth hcon
        cases hcon
    · by_cases hup2 : u = p2.id
      · rw [if_pos hup2] at hf
        cases hf
        constructor
        · intro hcon
          cases hcon
        · intro d pth h2e
          have h3 := Option.some.inj h2e
          have hd : generatePathDescription pthu = d := congrArg (fun t => t.1) h3
          have hp : pthu = pth := congrArg (fun t => t.2) h3
          obtain ⟨hENT, _⟩ := hP
          have hhead := hENT (u, pthu) (by rw [hq]; exact List.mem_cons_self _ _)
          refine ⟨by rw [← hd, ← hp], ?_, ?_⟩
          · rw [← hp, ← hup2]
            exact hhead.1
          · intro Q hw
            rw [← hp]
            refine hhead.2.2 Q ?_
            have hx : (u, pthu).1 = u := rfl
            rw [hx, hup2]
            exact hw
      · rw [if_neg hup2] at hf
        rcases hlast : pthu.getLast? with _ | cur <;> rw [hlast] at hf <;> cases hf
  · refine ⟨?_, ?_, ?_, ?_, ?_, ?_⟩
    · intro e he
      rcases List.mem_singleton.mp he with rfl
      refine ⟨walk_start h1, List.mem_singleton.mpr rfl, ?_⟩
      intro Q hw
      exact List.length_pos.mpr hw.1
    · exact List.pairwise_singleton _ _
    · intro e he f hf
      rcases List.mem_singleton.mp he with rfl
      have hf2 : some (p1.id, [p1]) = some f := hf
      have hfe : f = (p1.id, [p1]) := (Option.some.inj hf2).symm
      subst hfe
      omega
    · intro f hf j Q hw hQl
      have hf2 : some (p1.id, [p1]) = some f := hf
      have hfe : f = (p1.id, [p1]) := (Option.some.inj hf2).symm
      subst hfe
      have hpos : 0 < Q.length := List.length_pos.mpr hw.1
      dsimp only at hQl
      simp only [List.length_singleton] at hQl
      omega
    · intro i hi
      rcases List.mem_singleton.mp hi with rfl
      exact Or.inl ⟨(p1.id, [p1]), List.mem_singleton.mpr rfl, rfl⟩
    · exact List.mem_singleton.mpr rfl

theorem findGenericPath_correct (ps : List Person) (p1 p2 : Person)
    (h1 : getPersonById p1.id ps = some p1) (h2 : getPersonById p2.id ps = some p2) :
    ((¬ ∃ Q, WalkTo ps p1 p2.id Q) → findGenericPath p1 p2 ps = none) ∧
    ((∃ Q, WalkTo ps p1 p2.id Q) → ∃ pth, findGenericPath p1 p2 ps =
        some (generatePathDescription pth, pth) ∧ WalkTo ps p1 p2.id pth ∧
        ∀ Q, WalkTo ps p1 p2.id Q → pth.length ≤ Q.length) := by
  have hiss := fgpLoop_isSome ps p1 p2
  rcases hl : loopF (fgpStep ps p2) (genericFuel p1 ps) ([(p1.id, [p1])], [p1.id])
    with _ | r
  · rw [hl] at hiss
    cases hiss
  · have hc := fgpLoop_correct ps p1 p2 h1 h2 r hl
    unfold findGenericPath
    rw [hl]
    constructor
    · intro hno
      rcases r with _ | ⟨d, pth⟩
      · rfl
      · exact absurd ⟨pth, (hc.2 d pth rfl).2.1⟩ hno
    · intro hyes
      rcases r with _ | ⟨d, pth⟩
      · exact absurd hyes (hc.1 rfl)
      · obtain ⟨hd, hw, hmin⟩ := hc.2 d pth rfl
        subst hd
        exact ⟨pth, rfl, hw, hmin⟩

theorem lcaQueue1_anc (ps : List Person) (p1Id : String) :
    ∀ e ∈ (loopF (lcaQueue1Step ps) (dqParentFuel ps 1) ([p1Id], [], [])).getD [],
      getPersonById e.1 ps = some e.2 ∧ ParentReach ps p1Id e.1 := by
  rcases hl : loopF (lcaQueue1Step ps) (dqParentFuel ps 1) ([p1Id], [], []) with _ | res
  · intro e he
    exact absurd he (List.not_mem_nil e)
  · intro e he
    refine loopF_inv (lcaQueue1Step ps)
      (fun s => (∀ i ∈ s.1, ParentReach ps p1Id i) ∧
        ∀ e ∈ s.2.2, getPersonById e.1 ps = some e.2 ∧ ParentReach ps p1Id e.1)
      (fun r => ∀ e ∈ r, getPersonById e.1 ps = some e.2 ∧ ParentReach ps p1Id e.1)
      ?_ ?_ _ _ res ?_ hl e he
    · intro s s' hP hf
      unfold lcaQueue1Step at hf
      rcases hq : s.1 with _ | ⟨currentId, rest⟩ <;> rw [hq] at hf <;> (try dsimp only at hf)
      · cases hf
      · have hqrest : ∀ i ∈ rest, ParentReach ps p1Id i :=
          fun i hi => hP.1 i (by rw [hq]; exact List.mem_cons_of_mem _ hi)
        have hqcur : ParentReach ps p1Id currentId :=
          hP.1 currentId (by rw [hq]; exact List.mem_cons_self _ _)
        by_cases hv : currentId ∈ s.2.1
        · rw [if_pos hv] at hf
          cases hf
          exact ⟨hqrest, hP.2⟩
        · rw [if_neg hv] at hf
          rcases hres : getPersonById currentId ps with _ | person <;> rw [hres] at hf <;>
            (try dsimp only at hf) <;> cases hf
          · exact ⟨hqrest, hP.2⟩
          · constructor
            · intro i hi
              rcases List.mem_append.mp hi with hi | hi
              · exact hqrest i hi
              · exact ParentReach.step hqcur hres hi
            · intro e2 he2
              rcases List.mem_append.mp he2 with he2 | he2
              · exact hP.2 e2 he2
              · rcases List.mem_singleton.mp he2 with rfl
                exact ⟨hres, hqcur⟩
    · intro s r hP hf
      unfold lcaQueue1Step at hf
      rcases hq : s.1 with _ | ⟨currentId, rest⟩ <;> rw [hq] at hf <;> (try dsimp only at hf)
      · cases hf
        exact hP.2
      · by_cases hv : currentId ∈ s.2.1
        · rw [if_pos hv] at hf
          cases hf
        · rw [if_neg hv] at hf
          rcases hres : getPersonById currentId ps with _ | person <;> rw [hres] at hf <;>
            (try dsimp only at hf) <;> cases hf
    · constructor
      · intro i hi
        rcases List.mem_singleton.mp hi with rfl
        exact ParentReach.refl _
      · intro e2 he2
        exact absurd he2 (List.not_mem_nil e2)

theorem visitFold_mem {R : String → Prop} :
    ∀ (pids : List String) (acc : List String × List String),
      (∀ i ∈ acc.1, R i) → (∀ i ∈ pids, R i) →
      ∀ i ∈ (pids.foldl (fun acc pid => if pid ∈ acc.2 then acc
        else (acc.1 ++ [pid], acc.2 ++ [pid])) acc).1, R i
  | [], _, hacc, _ => hacc
  | pid :: rest, acc, hacc, hpids => by
      rw [List.foldl_cons]
      by_cases hv : pid ∈ acc.2
      · rw [if_pos hv]
        exact visitFold_mem rest acc hacc (fun i hi => hpids i (List.mem_cons_of_mem _ hi))
      · rw [if_neg hv]
        refine visitFold_mem rest (acc.1 ++ [pid], acc.2 ++ [pid]) ?_
          (fun i hi => hpids i (List.mem_cons_of_mem _ hi))
        intro i hi
        rcases List.mem_append.mp hi with hi | hi
        · exact hacc i hi
        · rcases List.mem_singleton.mp hi with rfl
          exact hpids i (List.mem_cons_self _ _)

theorem findLcaAndPaths_none (person1Id person2Id : String) (ps : List Person)
    (hnca : ¬ ∃ c pc, getPersonById c ps = some pc ∧
      ParentReach ps person1Id c ∧ ParentReach ps person2Id c) :
    findLcaAndPaths person1Id person2Id ps = none := by
  have hanc := lcaQueue1_anc ps person1Id
  unfold findLcaAndPaths
  dsimp only
  rcases hl : loopF (lcaQueue2Step ps person1Id person2Id
      ((loopF (lcaQueue1Step ps) (dqParentFuel ps 1) ([person1Id], [], [])).getD []))
      (parentFuel ps) ([person2Id], [person2Id]) with _ | r
  · rfl
  · have hr : r = none := by
      refine loopF_inv (lcaQueue2Step ps person1Id person2Id
          ((loopF (lcaQueue1Step ps) (dqParentFuel ps 1) ([person1Id], [], [])).getD []))
        (fun s => ∀ i ∈ s.1, ParentReach ps person2Id i)
        (fun r => r = none) ?_ ?_ _ _ r ?_ hl
      · intro s s' hP hf
        unfold lcaQueue2Step at hf
        rcases hq : s.1 with _ | ⟨currentId, rest⟩ <;> rw [hq] at hf <;>
          (try dsimp only at hf)
        · cases hf
        · have hqrest : ∀ i ∈ rest, ParentReach ps person2Id i :=
            fun i hi => hP i (by rw [hq]; exact List.mem_cons_of_mem _ hi)
          have hqcur : ParentReach ps person2Id currentId :=
            hP currentId (by rw [hq]; exact List.mem_cons_self _ _)
          rcases hfind : ((loopF (lcaQueue1Step ps) (dqParentFuel ps 1)
              ([person1Id], [], [])).getD []).find? (fun e => e.1 = currentId)
              with _ | e <;> rw [hfind] at hf <;> (try dsimp only at hf)
          · rcases hres : getPersonById currentId ps with _ | person <;> rw [hres] at hf <;>
              (try dsimp only at hf) <;> cases hf
            · exact hqrest
            · exact visitFold_mem (person.parentIds.getD []) (rest, s.2) hqrest
                (fun k hk => ParentReach.step hqcur hres hk)
          · exfalso
            have hmem := List.mem_of_find?_eq_some hfind
            have heid : e.1 = currentId := by
              have := List.find?_some hfind
              simpa using this
            have hee := hanc e hmem
            exact hnca ⟨e.1, e.2, hee.1, hee.2, by rw [heid]; exact hqcur⟩
      · intro s r2 hP hf
        unfold lcaQueue2Step at hf
        rcases hq : s.1 with _ | ⟨currentId, rest⟩ <;> rw [hq] at hf <;>
          (try dsimp only at hf)
        · cases hf
          rfl
        · have hqcur : ParentReach ps person2Id currentId :=
            hP currentId (by rw [hq]; exact List.mem_cons_self _ _)
          rcases hfind : ((loopF (lcaQueue1Step ps) (dqParentFuel ps 1)
              ([person1Id], [], [])).getD []).find? (fun e => e.1 = currentId)
              with _ | e <;> rw [hfind] at hf <;> (try dsimp only at hf)
          · rcases hres : getPersonById currentId ps with _ | person <;> rw [hres] at hf <;>
              (try dsimp only at hf) <;> cases hf
          · exfalso
            have hmem := List.mem_of_find?_eq_some hfind
            have heid : e.1 = currentId := by
              have := List.find?_some hfind
              simpa using this
            have hee := hanc e hmem
            exact hnca ⟨e.1, e.2, hee.1, hee.2, by rw [heid]; exact hqcur⟩
      · intro i hi
        rcases List.mem_singleton.mp hi with rfl
        exact ParentReach.refl _
    subst hr
    rfl

/-- C6: for distinct resolvable persons with no common ancestor,
`findRelationship` falls back to the generic BFS over parent, child and
spouse edges: when the two persons are connected through resolvable
persons it returns a `path` result carrying a shortest such path, and when
they are disconnected it returns the `none` result reporting that no
relationship path was found. -/
theorem claim_C6 (person1Id person2Id : String) (ps : List Person) (p1 p2 : Person)
    (hne1 : person1Id ≠ "") (hne2 : person2Id ≠ "") (hne : person1Id ≠ person2Id)
    (h1 : getPersonById person1Id ps = some p1)
    (h2 : getPersonById person2Id ps = some p2)
    (hnca : ¬ ∃ c pc, getPersonById c ps = some pc ∧
      ParentReach ps person1Id c ∧ ParentReach ps person2Id c) :
    ((∃ Q, WalkTo ps p1 p2.id Q) →
      ∃ pth, findRelationship person1Id person2Id ps =
          some (Relationship.path (generatePathDescription pth) pth) ∧
        WalkTo ps p1 p2.id pth ∧ ∀ Q, WalkTo ps p1 p2.id Q → pth.length ≤ Q.length) ∧
    ((¬ ∃ Q, WalkTo ps p1 p2.id Q) →
      findRelationship person1Id person2Id ps =
        some (Relationship.none
          "No relationship path could be found between these two individuals.")) := by
  have hid1 : p1.id = person1Id := getPersonById_id h1
  have hid2 : p2.id = person2Id := getPersonById_id h2
  have h1' : getPersonById p1.id ps = some p1 := by rw [hid1]; exact h1
  have h2' : getPersonById p2.id ps = some p2 := by rw [hid2]; exact h2
  have hlca := findLcaAndPaths_none person1Id person2Id ps hnca
  have hcond : ¬ (person1Id = "" ∨ person2Id = "" ∨ person1Id = person2Id) := by
    intro hc
    rcases hc with h | h | h
    · exact hne1 h
    · exact hne2 h
    · exact hne h
  have hfg := findGenericPath_correct ps p1 p2 h1' h2'
  constructor
  · intro hex
    obtain ⟨pth, hfgp, hw, hmin⟩ := hfg.2 hex
    refine ⟨pth, ?_, hw, hmin⟩
    unfold findRelationship
    rw [if_neg hcond, h1, h2]
    dsimp only
    rw [hlca]
    dsimp only
    rw [hfgp]
  · intro hnex
    have hfgn := hfg.1 hnex
    unfold findRelationship
    rw [if_neg hcond, h1, h2]
    dsimp only
    rw [hlca]
    dsimp only
    rw [hfgn]

theorem claim_C6_witness :
    findRelationship "c" "d" c6Ps =
      some (Relationship.none
        "No relationship path could be found between these two individuals.") := by
  have hnp : ∀ (j : String) (p : Person), getPersonById j c6Ps = some p →
      p.parentIds.getD [] = [] := by
    intro j p hp
    unfold getPersonById at hp
    have hpm : p ∈ c6Ps := List.mem_of_find?_eq_some hp
    rcases List.mem_cons.mp hpm with rfl | hpm
    · rfl
    · rcases List.mem_singleton.mp hpm with rfl
      rfl
  have hmemres : ∀ (p : Person), p ∈ c6Ps → neighborIds p = [] := by
    intro p hpm
    rcases List.mem_cons.mp hpm with rfl | hpm
    · rfl
    · rcases List.mem_singleton.mp hpm with rfl
      rfl
  have key : ∀ x y, ParentReach c6Ps x y → y = x := by
    intro x y h
    induction h with
    | refl => rfl
    | step h1 hres2 hk ih =>
        rw [hnp _ _ hres2] at hk
        exact absurd hk (List.not_mem_nil _)
  refine (claim_C6 "c" "d" c6Ps c6C c6D (by decide) (by decide) (by decide)
    (by rfl) (by rfl) ?_).2 ?_
  · intro hc
    obtain ⟨c, pc, hres, hr1, hr2⟩ := hc
    have hc1 : c = "c" := key _ _ hr1
    have hc2 : c = "d" := key _ _ hr2
    rw [hc1] at hc2
    exact absurd hc2 (by decide)
  · intro hc
    obtain ⟨Q, hw⟩ := hc
    rcases Nat.lt_or_ge Q.length 2 with h2l | h2l
    · have hone : Q.length = 1 := by
        have hpos : 0 < Q.length := List.length_pos.mpr hw.1
        omega
      have := walk_length_one hw hone
      exact absurd this (by decide)
    · obtain ⟨Q', v, z, hQeq, hzj, hzres, hwQ', hQ'last, hzedge, hQ'len⟩ :=
        walk_unsnoc hw h2l
      have hvres : getPersonById v.id c6Ps = some v :=
        hwQ'.2.1 v (mem_of_getLast?' hQ'last)
      have hvm : v ∈ c6Ps := by
        unfold getPersonById at hvres
        exact List.mem_of_find?_eq_some hvres
      rw [hmemres v hvm] at hzedge
      exact absurd hzedge (List.not_mem_nil _)

end FamilyTree
